import Mathlib

/-!
Shallow embedding of the `concurrent_implementations` library
(`concurrent_vector.hpp`, `concurrent_queue.hpp`, `combinable.hpp`).

Machine integers (`size_type = std::size_t`) are modelled as `Nat`; the
representable maximum is the explicit constant `SIZE_LIMIT = 2^64 - 1` and
the one place where the source can wrap (`current_size + count` in
`grow_by`) takes an explicit `% 2^64`.  Fallible operations return
`Option`: `none` models undefined behaviour (null-pointer dereference,
out-of-bounds construction, reading a dead object) or a thrown exception.
Storage cells hold `Option α`: `none` is a raw (unconstructed or
destroyed) cell, `some a` a live value.
-/

/-- `std::numeric_limits<std::size_t>::max()`, the value of `max_size()` in
both containers. -/
def SIZE_LIMIT : Nat := 2 ^ 64 - 1

/-- `Min_segment_size_eval` (same code in `concurrent_vector.hpp` and in
`utils.h` for the queue): minimum block size as a function of
`sizeof(Type)`. -/
def Min_segment_size_eval (szT : Nat) : Nat :=
  if 32 ≤ szT then 8 else if 16 ≤ szT then 16 else 32

namespace cvec

/-- One `Data_Segment` of `concurrent_vector`.  `cells` is the storage
block `[mBegin, mEnd)` (its length is the segment capacity
`mEnd - mBegin`); `cur` is the write cursor offset `mCurrent - mBegin`.
The `mSegBefore`/`mSegAfter` links are represented by the position of the
segment in the chain list of the vector. -/
structure Data_Segment (α : Type) where
  cells : List (Option α)
  cur : Nat
deriving DecidableEq, Repr

/-- Segment capacity `mEnd - mBegin`. -/
def segCap {α : Type} (s : Data_Segment α) : Nat := s.cells.length

/-- The vector: `segs` is the chain `mSegment -> mSegment.mSegAfter -> ...`
(the head of the list is the embedded member `mSegment`), `curIdx` is the
position of `mCurrent` in the chain and `endIdx` the position of `mEnd`.
A position `≥ segs.length` represents a null pointer. -/
structure CVec (α : Type) where
  segs : List (Data_Segment α)
  curIdx : Nat
  endIdx : Nat
deriving DecidableEq, Repr

/-- A default-constructed `concurrent_vector`: the embedded `mSegment` is
unallocated (`mBegin = mCurrent = mEnd = nullptr`) and
`mCurrent = mEnd = &mSegment`. -/
def pristineV (α : Type) : CVec α := ⟨[⟨[], 0⟩], 0, 0⟩

/-- Total of the write cursors of a chain (helper used to state how
`Get_size` behaves on well-formed states). -/
def sizeSpec {α : Type} (segs : List (Data_Segment α)) : Nat :=
  (segs.map Data_Segment.cur).sum

/-- Total capacity of a chain of segments. -/
def capSum {α : Type} (segs : List (Data_Segment α)) : Nat :=
  (segs.map segCap).sum

/-- `Get_capacity`: the do-while walk over the whole chain summing
`mEnd - mBegin` of every segment. -/
def Get_capacity {α : Type} (v : CVec α) : Nat := capSum v.segs

/-- `Get_size`: the do-while loop sums `mCurrent - mBegin` starting at
`&mSegment` and stops after adding the segment `mCurrent` points to
(`while (iter && iter != mCurrent)`, then one more add).  When `mCurrent`
is the head itself the stop test never fires after the first advance, so
the walk sums every segment of the chain; the same happens when `mCurrent`
is null. -/
def Get_size {α : Type} (v : CVec α) : Nat :=
  if v.curIdx = 0 then sizeSpec v.segs
  else sizeSpec (v.segs.take (v.curIdx + 1))

/-- The index→(segment, offset) resolution loop shared by `Get_value_at`
and the iterator: subtract each segment's capacity `mEnd - mBegin` until
the remaining index fits.  `none` models walking onto the null
`mSegAfter` link at the end of the chain. -/
def capLocate {α : Type} : List (Data_Segment α) → Nat → Option (Nat × Nat)
  | [], _ => none
  | s :: rest, i =>
    if i < segCap s then some (0, i)
    else (capLocate rest (i - segCap s)).map (fun p => (p.1 + 1, p.2))

/-- `Get_value_at`: resolve a logical index by the capacity walk and read
the storage cell there. -/
def cellAt {α : Type} : List (Data_Segment α) → Nat → Option (Option α)
  | [], _ => none
  | s :: rest, i =>
    if i < segCap s then s.cells.get? i
    else cellAt rest (i - segCap s)

/-- Constructing a value through an iterator at logical index `i`
(`allocator_traits::construct(alloc, unfancy_ptr(iter), ...)`): resolve
by the capacity walk and overwrite the cell.  `none` models the walk
running off the chain. -/
def writeAt {α : Type} : List (Data_Segment α) → Nat → α → Option (List (Data_Segment α))
  | [], _, _ => none
  | s :: rest, i, a =>
    if i < segCap s then some ({ s with cells := s.cells.set i (some a) } :: rest)
    else (writeAt rest (i - segCap s) a).map (fun r => s :: r)

/-- Segment lookup with the default (empty, unallocated) segment out of
range; mirrors dereferencing a segment pointer. -/
def segAt {α : Type} (v : CVec α) (j : Nat) : Data_Segment α :=
  v.segs.getD j ⟨[], 0⟩

/-- `Calculate_new_capacity`: MSVC-style geometric growth.  Returns the
pair (new total capacity, current capacity). -/
def Calculate_new_capacity (currentCap newSize : Nat) : Nat × Nat :=
  if SIZE_LIMIT - currentCap / 2 < currentCap then (SIZE_LIMIT, currentCap)
  else
    let Size := currentCap + currentCap / 2
    if Size < newSize then (newSize, currentCap) else (Size, currentCap)

/-- `Calculate_new_segment_size`: capacity of the next segment to append,
for element size `szT` (`sizeof(Type)`). -/
def Calculate_new_segment_size (szT currentCap newSize : Nat) : Nat :=
  let p := Calculate_new_capacity currentCap newSize
  max (Min_segment_size_eval szT) (p.1 - p.2)

/-- `Append_new_segment(seg_size)`.  If `mCurrent == &mSegment` and the
embedded segment is unallocated, storage is allocated into `mSegment`
itself and its `mSegAfter` is reset to null (dropping any chain tail).
Otherwise a new segment node is allocated and linked after `mCurrent`
(which drops any nodes previously after `mCurrent`), and `mEnd` is set to
it.  `none` models dereferencing a null `mCurrent`. -/
def Append_new_segment {α : Type} (v : CVec α) (segSize : Nat) : Option (CVec α) :=
  match v.segs with
  | [] => none
  | h :: _ =>
    if v.curIdx = 0 ∧ h.cells.length = 0 then
      some ⟨[⟨List.replicate segSize none, 0⟩], v.curIdx, v.endIdx⟩
    else
      if v.curIdx < v.segs.length then
        some ⟨v.segs.take (v.curIdx + 1) ++ [⟨List.replicate segSize none, 0⟩],
              v.curIdx, v.curIdx + 1⟩
      else none

/-- `Emplace_back_with_reallocation`: append a segment sized by the growth
policy, advance `mCurrent` to it when the vector is non-empty, and
construct the value at `mCurrent->mCurrent`.  `none` models the
`length_error` throw at `max_size()` and any null dereference or
out-of-bounds construction. -/
def Emplace_back_with_reallocation {α : Type} (szT : Nat) (v : CVec α) (a : α) :
    Option (CVec α) :=
  let sz := Get_size v
  if sz = SIZE_LIMIT then none
  else
    match Append_new_segment v (Calculate_new_segment_size szT (Get_capacity v) (sz + 1)) with
    | none => none
    | some v₁ =>
      let v₂ := if sz ≠ 0 then { v₁ with curIdx := v₁.curIdx + 1 } else v₁
      match v₂.segs.get? v₂.curIdx with
      | none => none
      | some s =>
        if s.cur < segCap s then
          some { v₂ with
            segs := v₂.segs.set v₂.curIdx
              { s with cells := s.cells.set s.cur (some a), cur := s.cur + 1 } }
        else none

/-- The no-reallocation path of `emplace_back`:
`Emplace_at_without_reallocation(Get_size(), ...)` (which always takes its
`location == End().mIndex` branch and constructs through an iterator at
logical index `Get_size()`), followed by `mCurrent->mCurrent++`. -/
def Emplace_at_end {α : Type} (v : CVec α) (a : α) : Option (CVec α) :=
  match writeAt v.segs (Get_size v) a with
  | none => none
  | some segs' =>
    match segs'.get? v.curIdx with
    | none => none
    | some s =>
      some { v with segs := segs'.set v.curIdx { s with cur := s.cur + 1 } }

/-- `emplace_back` / `push_back`: if `mCurrent != mEnd` or the current
segment has room, construct in place at logical index `Get_size()` and
bump `mCurrent->mCurrent`; otherwise grow through
`Emplace_back_with_reallocation`. -/
def emplace_back {α : Type} (szT : Nat) (v : CVec α) (a : α) : Option (CVec α) :=
  if v.curIdx ≠ v.endIdx then Emplace_at_end v a
  else
    match v.segs.get? v.curIdx with
    | none => none
    | some s =>
      if s.cur ≠ segCap s then Emplace_at_end v a
      else Emplace_back_with_reallocation szT v a

/-- A sequence of `push_back`/`emplace_back` calls. -/
def pushSeqV {α : Type} (szT : Nat) (v : CVec α) (as : List α) : Option (CVec α) :=
  as.foldlM (emplace_back szT) v

/-- Iterated `push_back` of the same value, `count` times. -/
def pushN {α : Type} (szT : Nat) (v : CVec α) : Nat → α → Option (CVec α)
  | 0, _ => some v
  | n + 1, a =>
    match emplace_back szT v a with
    | none => none
    | some v₁ => pushN szT v₁ n a

/-- `Fill_n(target, count, value)` starting from an iterator at logical
index `start`: construct `count` copies through the iterator, advancing
its index. -/
def fillN {α : Type} : List (Data_Segment α) → Nat → Nat → α → Option (List (Data_Segment α))
  | segs, _, 0, _ => some segs
  | segs, start, n + 1, a =>
    match writeAt segs start a with
    | none => none
    | some segs' => fillN segs' (start + 1) n a

/-- `Adjust_segments_and_get_last_address_for(index)`: walk the chain
setting each passed segment's `mCurrent` to `mEnd`, set the segment the
index lands in to `mBegin + index`, and reset every later segment's
`mCurrent` to `mBegin`.  Returns the new chain and the position of the
returned segment (the chain length when the walk ran off the end, i.e. a
null result). -/
def adjustFor {α : Type} : List (Data_Segment α) → Nat → List (Data_Segment α) × Nat
  | [], _ => ([], 0)
  | s :: rest, i =>
    if i < segCap s then
      ({ s with cur := i } :: rest.map (fun r => { r with cur := 0 }), 0)
    else
      let p := adjustFor rest (i - segCap s)
      ({ s with cur := segCap s } :: p.1, p.2 + 1)

/-- `grow_by(count, value)`: compute the new size in wrapping `size_type`
arithmetic, append one segment sized by the growth policy when capacity is
insufficient, construct `count` copies through the end iterator, and
adjust every segment cursor (and `mCurrent`) to the new size. -/
def grow_by {α : Type} (szT : Nat) (v : CVec α) (count : Nat) (a : α) : Option (CVec α) :=
  match (if Get_capacity v < (Get_size v + count) % (SIZE_LIMIT + 1) then
      Append_new_segment v
        (Calculate_new_segment_size szT (Get_capacity v) ((Get_size v + count) % (SIZE_LIMIT + 1)))
    else some v) with
  | none => none
  | some v₁ =>
    match fillN v₁.segs (Get_size v₁) count a with
    | none => none
    | some segs' =>
      some ⟨(adjustFor segs' ((Get_size v + count) % (SIZE_LIMIT + 1))).1,
            (adjustFor segs' ((Get_size v + count) % (SIZE_LIMIT + 1))).2, v₁.endIdx⟩

/-- `at(pos)`: range-check against `Get_size()` (throwing
`std::out_of_range`, modelled as `Except.error ()`) and then
`Get_value_at(pos)`.  The outer `Option` models undefined behaviour in
`Get_value_at`; the function reads but never mutates the vector. -/
def at_pos {α : Type} (v : CVec α) (pos : Nat) : Option (Except Unit (Option α)) :=
  if Get_size v ≤ pos then some (Except.error ())
  else
    match cellAt v.segs pos with
    | none => none
    | some c => some (Except.ok c)

/-- `operator[](pos)`: `Get_value_at(pos)` with no range check at all. -/
def opIndex {α : Type} (v : CVec α) (pos : Nat) : Option (Option α) :=
  cellAt v.segs pos

/-- The stubbed move assignment `operator=(concurrent_vector&&)`: the body
is only `return *this;`, so both operands are returned untouched. -/
def moveAssign {α : Type} (target source : CVec α) : CVec α × CVec α :=
  (target, source)

/-- The stubbed initializer-list assignment
`operator=(std::initializer_list<Type>)`: the body is only
`return *this;`. -/
def initListAssign {α : Type} (target : CVec α) (_init : List α) : CVec α :=
  target

/-- The logical contents: the cell of every logical index `< Get_size()`,
in index order. -/
def contents {α : Type} (v : CVec α) : List (Option (Option α)) :=
  (List.range (Get_size v)).map (fun i => cellAt v.segs i)

/-- Every segment strictly before position `n` is full
(`mCurrent = mEnd`). -/
def prefixFull {α : Type} (l : List (Data_Segment α)) (n : Nat) : Prop :=
  ∀ j, j < n → j < l.length → (l.getD j ⟨[], 0⟩).cur = segCap (l.getD j ⟨[], 0⟩)

/-- Every segment strictly after position `n` is empty
(`mCurrent = mBegin`). -/
def suffixEmpty {α : Type} (l : List (Data_Segment α)) (n : Nat) : Prop :=
  ∀ j, j < l.length → n < j → (l.getD j ⟨[], 0⟩).cur = 0

/-- Well-formedness of a reachable vector state: the chain is non-empty,
`mEnd` is the last segment, `mCurrent` is at or before `mEnd`, every
segment before `mCurrent` is full, every segment after it is empty, the
current segment's cursor is in bounds whenever `mCurrent = mEnd`, and the
logical size does not exceed the allocated capacity. -/
def Inv {α : Type} (v : CVec α) : Prop :=
  0 < v.segs.length ∧
  v.endIdx + 1 = v.segs.length ∧
  v.curIdx ≤ v.endIdx ∧
  prefixFull v.segs v.curIdx ∧
  suffixEmpty v.segs v.curIdx ∧
  (v.curIdx = v.endIdx → (segAt v v.curIdx).cur ≤ segCap (segAt v v.curIdx)) ∧
  sizeSpec v.segs ≤ capSum v.segs

/-- The append-reachable states (no pending `clear`-style reset):
`mCurrent` and `mEnd` coincide, and either the vector is the single
(possibly unallocated) embedded segment or every segment has been
allocated with positive capacity. -/
def Wf {α : Type} (v : CVec α) : Prop :=
  Inv v ∧ v.curIdx = v.endIdx ∧
  (v.segs.length = 1 ∨ ∀ j, j < v.segs.length → 0 < segCap (segAt v j))

instance {α : Type} (v : CVec α) : Decidable (Inv v) := by
  unfold Inv prefixFull suffixEmpty
  exact inferInstance

instance {α : Type} (v : CVec α) : Decidable (Wf v) := by
  unfold Wf
  exact inferInstance

section lemmas

variable {α : Type}

theorem capSum_cons (s : Data_Segment α) (rest : List (Data_Segment α)) :
    capSum (s :: rest) = segCap s + capSum rest := by
  simp [capSum]

theorem capSum_append (l₁ l₂ : List (Data_Segment α)) :
    capSum (l₁ ++ l₂) = capSum l₁ + capSum l₂ := by
  simp [capSum]

theorem sizeSpec_cons (s : Data_Segment α) (rest : List (Data_Segment α)) :
    sizeSpec (s :: rest) = s.cur + sizeSpec rest := by
  simp [sizeSpec]

theorem sizeSpec_append (l₁ l₂ : List (Data_Segment α)) :
    sizeSpec (l₁ ++ l₂) = sizeSpec l₁ + sizeSpec l₂ := by
  simp [sizeSpec]

theorem get?_isSome_iff {β : Type} (l : List β) (n : Nat) :
    (l.get? n).isSome ↔ n < l.length := by
  simp only [List.get?_eq_getElem?, Option.isSome_iff_exists, List.getElem?_eq_some_iff]
  constructor
  · rintro ⟨a, h, _⟩; exact h
  · intro h; exact ⟨l.get ⟨n, h⟩, h, rfl⟩

theorem cellAt_isSome_iff (segs : List (Data_Segment α)) (i : Nat) :
    (cellAt segs i).isSome ↔ i < capSum segs := by
  induction segs generalizing i with
  | nil => simp [cellAt, capSum]
  | cons s rest ih =>
    by_cases h : i < segCap s
    · simp only [cellAt, if_pos h, capSum_cons]
      rw [get?_isSome_iff]
      have hc : s.cells.length = segCap s := rfl
      rw [hc]
      omega
    · simp only [cellAt, if_neg h, capSum_cons]
      rw [ih]
      omega

theorem capLocate_isSome_iff (segs : List (Data_Segment α)) (i : Nat) :
    (capLocate segs i).isSome ↔ i < capSum segs := by
  induction segs generalizing i with
  | nil => simp [capLocate, capSum]
  | cons s rest ih =>
    by_cases h : i < segCap s
    · simp [capLocate, h, capSum_cons]; omega
    · simp only [capLocate, if_neg h, capSum_cons, Option.isSome_map']
      rw [ih]
      omega

theorem writeAt_isSome_iff (segs : List (Data_Segment α)) (i : Nat) (a : α) :
    (writeAt segs i a).isSome ↔ i < capSum segs := by
  induction segs generalizing i with
  | nil => simp [writeAt, capSum]
  | cons s rest ih =>
    by_cases h : i < segCap s
    · simp [writeAt, h, capSum_cons]; omega
    · simp only [writeAt, if_neg h, capSum_cons, Option.isSome_map']
      rw [ih]
      omega

theorem writeAt_caps {segs segs' : List (Data_Segment α)} {i : Nat} {a : α}
    (h : writeAt segs i a = some segs') :
    segs'.map segCap = segs.map segCap := by
  induction segs generalizing i segs' with
  | nil => simp [writeAt] at h
  | cons s rest ih =>
    by_cases hc : i < segCap s
    · simp only [writeAt, if_pos hc, Option.some_inj] at h
      subst h
      simp [segCap]
    · simp only [writeAt, if_neg hc, Option.map_eq_some'] at h
      obtain ⟨r, hr, rfl⟩ := h
      simp [ih hr]

theorem writeAt_curs {segs segs' : List (Data_Segment α)} {i : Nat} {a : α}
    (h : writeAt segs i a = some segs') :
    segs'.map Data_Segment.cur = segs.map Data_Segment.cur := by
  induction segs generalizing i segs' with
  | nil => simp [writeAt] at h
  | cons s rest ih =>
    by_cases hc : i < segCap s
    · simp only [writeAt, if_pos hc, Option.some_inj] at h
      subst h
      simp
    · simp only [writeAt, if_neg hc, Option.map_eq_some'] at h
      obtain ⟨r, hr, rfl⟩ := h
      simp [ih hr]

theorem cellAt_writeAt_self {segs segs' : List (Data_Segment α)} {i : Nat} {a : α}
    (h : writeAt segs i a = some segs') :
    cellAt segs' i = some (some a) := by
  induction segs generalizing i segs' with
  | nil => simp [writeAt] at h
  | cons s rest ih =>
    by_cases hc : i < segCap s
    · simp only [writeAt, if_pos hc, Option.some_inj] at h
      subst h
      have hcap : segCap { s with cells := s.cells.set i (some a) } = segCap s := by
        simp [segCap]
      simp only [cellAt, hcap, if_pos hc]
      rw [List.get?_set_eq_of_lt _ (by simpa [segCap] using hc)]
    · simp only [writeAt, if_neg hc, Option.map_eq_some'] at h
      obtain ⟨r, hr, rfl⟩ := h
      simp only [cellAt, if_neg hc]
      exact ih hr

theorem cellAt_writeAt_ne {segs segs' : List (Data_Segment α)} {i : Nat} {a : α}
    (h : writeAt segs i a = some segs') {j : Nat} (hj : j ≠ i) :
    cellAt segs' j = cellAt segs j := by
  induction segs generalizing i j segs' with
  | nil => simp [writeAt] at h
  | cons s rest ih =>
    by_cases hc : i < segCap s
    · simp only [writeAt, if_pos hc, Option.some_inj] at h
      subst h
      have hcap : segCap { s with cells := s.cells.set i (some a) } = segCap s := by
        simp [segCap]
      by_cases hjc : j < segCap s
      · simp only [cellAt, hcap, if_pos hjc]
        exact List.get?_set_ne _ _ (fun he => hj he.symm)
      · simp only [cellAt, hcap, if_neg hjc]
    · simp only [writeAt, if_neg hc, Option.map_eq_some'] at h
      obtain ⟨r, hr, rfl⟩ := h
      by_cases hjc : j < segCap s
      · simp only [cellAt, if_pos hjc]
      · simp only [cellAt, if_neg hjc]
        exact ih hr (by omega)

theorem capLocate_eq_of_caps {segs segs' : List (Data_Segment α)}
    (h : segs'.map segCap = segs.map segCap) (i : Nat) :
    capLocate segs' i = capLocate segs i := by
  induction segs generalizing segs' i with
  | nil =>
    have : segs' = [] := by simpa using List.map_eq_nil.mp h
    subst this; rfl
  | cons s rest ih =>
    match segs' with
    | [] => simp at h
    | t :: rest' =>
      simp only [List.map_cons, List.cons.injEq] at h
      simp only [capLocate, h.1]
      by_cases hc : i < segCap s
      · simp [hc]
      · simp only [if_neg hc]
        rw [ih h.2]

theorem cellAt_append_left {segs t : List (Data_Segment α)} {i : Nat}
    (h : i < capSum segs) :
    cellAt (segs ++ t) i = cellAt segs i := by
  induction segs generalizing i with
  | nil => simp [capSum] at h
  | cons s rest ih =>
    by_cases hc : i < segCap s
    · simp [cellAt, hc]
    · rw [capSum_cons] at h
      simp only [List.cons_append, cellAt, if_neg hc]
      exact ih (by omega)

theorem capLocate_append_left {segs t : List (Data_Segment α)} {i : Nat}
    (h : i < capSum segs) :
    capLocate (segs ++ t) i = capLocate segs i := by
  induction segs generalizing i with
  | nil => simp [capSum] at h
  | cons s rest ih =>
    by_cases hc : i < segCap s
    · simp [capLocate, hc]
    · rw [capSum_cons] at h
      have hr := ih (i := i - segCap s) (by omega)
      simp only [List.cons_append, capLocate, if_neg hc]
      rw [List.append_eq, hr]

theorem cellAt_eq_of_cells {segs segs' : List (Data_Segment α)}
    (h : segs'.map Data_Segment.cells = segs.map Data_Segment.cells) (i : Nat) :
    cellAt segs' i = cellAt segs i := by
  induction segs generalizing segs' i with
  | nil =>
    have : segs' = [] := by simpa using List.map_eq_nil.mp h
    subst this; rfl
  | cons s rest ih =>
    match segs' with
    | [] => simp at h
    | t :: rest' =>
      simp only [List.map_cons, List.cons.injEq] at h
      have hcap : segCap t = segCap s := by simp [segCap, h.1]
      simp only [cellAt, hcap, h.1]
      by_cases hc : i < segCap s
      · simp [hc]
      · simp only [if_neg hc]
        exact ih h.2 _

theorem getD_cur_eq_of_map {l l' : List (Data_Segment α)}
    (h : l'.map Data_Segment.cur = l.map Data_Segment.cur) (j : Nat) :
    (l'.getD j ⟨[], 0⟩).cur = (l.getD j ⟨[], 0⟩).cur := by
  have h1 : (l'.get? j).map Data_Segment.cur = (l.get? j).map Data_Segment.cur := by
    rw [← List.get?_map, ← List.get?_map, h]
  have e : ∀ (m : List (Data_Segment α)),
      (m.getD j ⟨[], 0⟩).cur = ((m.get? j).map Data_Segment.cur).getD 0 := by
    intro m
    rw [List.getD_eq_get?]
    cases m.get? j <;> rfl
  rw [e, e, h1]

theorem getD_cap_eq_of_map {l l' : List (Data_Segment α)}
    (h : l'.map segCap = l.map segCap) (j : Nat) :
    segCap (l'.getD j ⟨[], 0⟩) = segCap (l.getD j ⟨[], 0⟩) := by
  have h1 : (l'.get? j).map segCap = (l.get? j).map segCap := by
    rw [← List.get?_map, ← List.get?_map, h]
  have e : ∀ (m : List (Data_Segment α)),
      segCap (m.getD j ⟨[], 0⟩) = ((m.get? j).map segCap).getD 0 := by
    intro m
    rw [List.getD_eq_get?]
    cases m.get? j <;> rfl
  rw [e, e, h1]

theorem prefixFull_of_maps {l l' : List (Data_Segment α)} {n : Nat}
    (hc : l'.map Data_Segment.cur = l.map Data_Segment.cur)
    (hk : l'.map segCap = l.map segCap)
    (h : prefixFull l n) : prefixFull l' n := by
  intro j hj hjl
  have hl : l'.length = l.length := by
    have := congrArg List.length hc; simpa using this
  rw [getD_cur_eq_of_map hc, getD_cap_eq_of_map hk]
  exact h j hj (hl ▸ hjl)

theorem suffixEmpty_of_maps {l l' : List (Data_Segment α)} {n : Nat}
    (hc : l'.map Data_Segment.cur = l.map Data_Segment.cur)
    (h : suffixEmpty l n) : suffixEmpty l' n := by
  intro j hjl hj
  have hl : l'.length = l.length := by
    have := congrArg List.length hc; simpa using this
  rw [getD_cur_eq_of_map hc]
  exact h j (hl ▸ hjl) hj

theorem sizeSpec_take_eq_capSum {l : List (Data_Segment α)} :
    ∀ {n : Nat}, prefixFull l n → n ≤ l.length →
      sizeSpec (l.take n) = capSum (l.take n) := by
  induction l with
  | nil => intro n _ _; simp [sizeSpec, capSum]
  | cons s rest ih =>
    intro n h hn
    match n with
    | 0 => simp [sizeSpec, capSum]
    | n + 1 =>
      have h0 : s.cur = segCap s := h 0 (Nat.succ_pos n) (by simp)
      have hrest : prefixFull rest n := by
        intro j hj hjl
        have := h (j + 1) (by omega) (by simpa using Nat.succ_lt_succ hjl)
        simpa using this
      simp only [List.take_succ_cons, sizeSpec_cons, capSum_cons, h0,
        ih hrest (by simpa using hn)]

theorem sizeSpec_drop_eq_zero {l : List (Data_Segment α)} :
    ∀ {n : Nat}, suffixEmpty l n → sizeSpec (l.drop (n + 1)) = 0 := by
  induction l with
  | nil => intro n _; simp [sizeSpec]
  | cons s rest ih =>
    intro n h
    match n with
    | 0 =>
      simp only [List.drop_succ_cons, List.drop_zero]
      have hrest : ∀ x ∈ rest, x.cur = 0 := by
        intro x hx
        obtain ⟨i, hi, rfl⟩ := List.mem_iff_getElem.mp hx
        have := h (i + 1) (by simpa using Nat.succ_lt_succ hi) (Nat.succ_pos i)
        rw [List.getD_eq_getElem _ _ (by simpa using Nat.succ_lt_succ hi)] at this
        simpa using this
      simp only [sizeSpec]
      exact List.sum_eq_zero (by simpa using hrest)
    | n + 1 =>
      have hrest : suffixEmpty rest n := by
        intro j hjl hj
        have := h (j + 1) (by simpa using Nat.succ_lt_succ hjl) (by omega)
        simpa using this
      simpa using ih hrest

theorem sizeSpec_split (l : List (Data_Segment α)) (n : Nat) :
    sizeSpec l = sizeSpec (l.take n) + sizeSpec (l.drop n) := by
  conv_lhs => rw [← List.take_append_drop n l]
  rw [sizeSpec_append]

theorem Get_size_eq {v : CVec α} (h : Inv v) : Get_size v = sizeSpec v.segs := by
  obtain ⟨-, hend, hle, -, hse, -, -⟩ := h
  unfold Get_size
  by_cases h0 : v.curIdx = 0
  · simp [h0]
  · rw [if_neg h0]
    rw [sizeSpec_split v.segs (v.curIdx + 1), sizeSpec_drop_eq_zero hse]
    omega

theorem sizeSpec_decomp {v : CVec α} (h : Inv v) :
    sizeSpec v.segs = capSum (v.segs.take v.curIdx) + (segAt v v.curIdx).cur := by
  obtain ⟨-, hend, hle, hpf, hse, -, -⟩ := h
  have hcur : v.curIdx < v.segs.length := by omega
  rw [sizeSpec_split v.segs v.curIdx, sizeSpec_take_eq_capSum hpf (by omega)]
  congr 1
  have hdrop : v.segs.drop v.curIdx = v.segs[v.curIdx] :: v.segs.drop (v.curIdx + 1) := by
    rw [List.drop_eq_getElem_cons hcur]
  rw [hdrop, sizeSpec_cons, sizeSpec_drop_eq_zero hse]
  rw [segAt, List.getD_eq_getElem _ _ hcur]
  omega

theorem map_set_eq_of_get? {β γ : Type} (f : β → γ) :
    ∀ (l : List β) (j : Nat) (s t : β), l.get? j = some s → f t = f s →
      (l.set j t).map f = l.map f := by
  intro l
  induction l with
  | nil => intro j s t h _; simp [List.get?] at h
  | cons x xs ih =>
    intro j s t h hft
    match j with
    | 0 =>
      simp only [List.get?] at h
      cases h
      simp [List.set, hft]
    | j + 1 =>
      simp only [List.get?] at h
      simp [List.set, ih j s t h hft]

theorem sum_map_set_of_get? {β : Type} (f : β → Nat) :
    ∀ (l : List β) (j : Nat) (s t : β), l.get? j = some s →
      ((l.set j t).map f).sum + f s = (l.map f).sum + f t := by
  intro l
  induction l with
  | nil => intro j s t h; simp [List.get?] at h
  | cons x xs ih =>
    intro j s t h
    match j with
    | 0 =>
      simp only [List.get?] at h
      cases h
      simp [List.set]
      omega
    | j + 1 =>
      simp only [List.get?] at h
      have := ih j s t h
      simp only [List.set, List.map_cons, List.sum_cons]
      omega

theorem getD_set_ne {β : Type} (l : List β) (j k : Nat) (t d : β) (h : k ≠ j) :
    (l.set j t).getD k d = l.getD k d := by
  rw [List.getD_eq_get?, List.getD_eq_get?, List.get?_set_ne _ _ (fun he => h he.symm)]

theorem getD_set_self {β : Type} (l : List β) (j : Nat) (t d : β) (h : j < l.length) :
    (l.set j t).getD j d = t := by
  rw [List.getD_eq_get?, List.get?_set_eq_of_lt _ h]
  rfl

theorem get?_cur_eq_of_map {l l' : List (Data_Segment α)}
    (h : l'.map Data_Segment.cur = l.map Data_Segment.cur) (j : Nat) :
    (l'.get? j).map Data_Segment.cur = (l.get? j).map Data_Segment.cur := by
  rw [← List.get?_map, ← List.get?_map, h]

/-- Full description of the no-reallocation `emplace_back` path. -/
theorem Emplace_at_end_ok {v : CVec α} {a : α} {w : CVec α}
    (hInv : Inv v)
    (hbr : v.curIdx ≠ v.endIdx ∨ (segAt v v.curIdx).cur ≠ segCap (segAt v v.curIdx))
    (h : Emplace_at_end v a = some w) :
    Inv w ∧ w.curIdx = v.curIdx ∧ w.endIdx = v.endIdx ∧
    w.segs.length = v.segs.length ∧
    w.segs.map segCap = v.segs.map segCap ∧
    Get_size w = Get_size v + 1 ∧
    (∀ i, i ≠ Get_size v → cellAt w.segs i = cellAt v.segs i) ∧
    cellAt w.segs (Get_size v) = some (some a) ∧
    (∀ j, j ≠ v.curIdx → (segAt w j).cur = (segAt v j).cur) ∧
    (segAt w v.curIdx).cur = (segAt v v.curIdx).cur + 1 := by
  unfold Emplace_at_end at h
  cases hw : writeAt v.segs (Get_size v) a with
  | none => rw [hw] at h; exact absurd h (by simp)
  | some segs' =>
    rw [hw] at h
    dsimp only at h
    cases hs : segs'.get? v.curIdx with
    | none => rw [hs] at h; exact absurd h (by simp)
    | some s =>
      rw [hs] at h
      dsimp only at h
      simp only [Option.some_inj] at h
      subst h
      have hcaps : segs'.map segCap = v.segs.map segCap := writeAt_caps hw
      have hcurs : segs'.map Data_Segment.cur = v.segs.map Data_Segment.cur := writeAt_curs hw
      have hlen' : segs'.length = v.segs.length := by
        have := congrArg List.length hcaps; simpa using this
      have hjlt : v.curIdx < segs'.length := by
        rw [← get?_isSome_iff, hs]
        rfl
      -- the updated segment
      set upd : Data_Segment α := { s with cur := s.cur + 1 } with hupd
      have hwsegs : (segs'.set v.curIdx upd).map segCap = v.segs.map segCap := by
        rw [map_set_eq_of_get? segCap segs' v.curIdx s upd hs rfl, hcaps]
      have hwcells : (segs'.set v.curIdx upd).map Data_Segment.cells
          = segs'.map Data_Segment.cells :=
        map_set_eq_of_get? Data_Segment.cells segs' v.curIdx s upd hs rfl
      have hwlen : (segs'.set v.curIdx upd).length = v.segs.length := by
        simpa using hlen'
      have hsz : sizeSpec (segs'.set v.curIdx upd) = sizeSpec v.segs + 1 := by
        have h1 := sum_map_set_of_get? Data_Segment.cur segs' v.curIdx s upd hs
        have hcu : Data_Segment.cur upd = s.cur + 1 := rfl
        rw [hcu] at h1
        have h2 : (segs'.map Data_Segment.cur).sum = (v.segs.map Data_Segment.cur).sum := by
          rw [hcurs]
        simp only [sizeSpec]
        omega
      have hGv : Get_size v = sizeSpec v.segs := Get_size_eq hInv
      have hGlt : Get_size v < capSum v.segs := by
        rw [← writeAt_isSome_iff v.segs (Get_size v) a, hw]; rfl
      have hcellw : ∀ i, cellAt (segs'.set v.curIdx upd) i = cellAt segs' i := by
        intro i
        exact cellAt_eq_of_cells hwcells i
      -- the s-fields match the segment at curIdx of v
      have hscur : s.cur = (segAt v v.curIdx).cur := by
        have h1 := get?_cur_eq_of_map hcurs v.curIdx
        rw [hs] at h1
        rw [segAt, List.getD_eq_get?]
        cases hv : v.segs.get? v.curIdx with
        | none =>
          rw [hv] at h1; simp at h1
        | some sv => rw [hv] at h1; simp at h1; simp [h1]
      have hscap : segCap s = segCap (segAt v v.curIdx) := by
        have h1 : (segs'.get? v.curIdx).map segCap = (v.segs.get? v.curIdx).map segCap := by
          rw [← List.get?_map, ← List.get?_map, hcaps]
        rw [hs] at h1
        rw [segAt, List.getD_eq_get?]
        cases hv : v.segs.get? v.curIdx with
        | none => rw [hv] at h1; simp at h1
        | some sv => rw [hv] at h1; simp at h1; exact h1
      obtain ⟨hpos, hend, hle, hpf, hse, hbound, hcap⟩ := hInv
      have hInvw : Inv (⟨segs'.set v.curIdx upd, v.curIdx, v.endIdx⟩ : CVec α) := by
        refine ⟨by simpa [hwlen] using hpos, by simpa [hwlen] using hend, hle, ?_, ?_, ?_, ?_⟩
        · show prefixFull (segs'.set v.curIdx upd) v.curIdx
          intro j hj hjl
          have hne : j ≠ v.curIdx := by omega
          show ((segs'.set v.curIdx upd).getD j ⟨[], 0⟩).cur
              = segCap ((segs'.set v.curIdx upd).getD j ⟨[], 0⟩)
          rw [getD_set_ne segs' v.curIdx j upd _ hne,
            getD_cur_eq_of_map hcurs, getD_cap_eq_of_map hcaps]
          exact hpf j hj (by simpa [hwlen] using hjl)
        · show suffixEmpty (segs'.set v.curIdx upd) v.curIdx
          intro j hjl hj
          have hne : j ≠ v.curIdx := by omega
          show ((segs'.set v.curIdx upd).getD j ⟨[], 0⟩).cur = 0
          rw [getD_set_ne segs' v.curIdx j upd _ hne, getD_cur_eq_of_map hcurs]
          exact hse j (by simpa [hwlen] using hjl) hj
        · intro hee
          replace hee : v.curIdx = v.endIdx := hee
          show ((segs'.set v.curIdx upd).getD v.curIdx ⟨[], 0⟩).cur
              ≤ segCap ((segs'.set v.curIdx upd).getD v.curIdx ⟨[], 0⟩)
          rw [getD_set_self segs' v.curIdx upd _ hjlt]
          have hne := hbr.resolve_left (by simp [hee])
          have hb := hbound hee
          simp only [hupd, segCap] at *
          omega
        · show sizeSpec (segs'.set v.curIdx upd) ≤ capSum (segs'.set v.curIdx upd)
          have : capSum (segs'.set v.curIdx upd) = capSum v.segs := by
            simp only [capSum, hwsegs]
          rw [hsz, this]
          omega
      refine ⟨hInvw, rfl, rfl, hwlen, hwsegs, ?_, ?_, ?_, ?_, ?_⟩
      · -- Get_size
        rw [Get_size_eq hInvw]
        show sizeSpec (segs'.set v.curIdx upd) = Get_size v + 1
        rw [hsz, hGv]
      · intro i hi
        rw [hcellw i, cellAt_writeAt_ne hw hi]
      · rw [hcellw (Get_size v), cellAt_writeAt_self hw]
      · intro j hj
        show ((segs'.set v.curIdx upd).getD j ⟨[], 0⟩).cur = (segAt v j).cur
        rw [getD_set_ne segs' v.curIdx j upd _ hj, getD_cur_eq_of_map hcurs]
        rfl
      · show ((segs'.set v.curIdx upd).getD v.curIdx ⟨[], 0⟩).cur = (segAt v v.curIdx).cur + 1
        rw [getD_set_self segs' v.curIdx upd _ hjlt]
        simp only [hupd]
        omega

theorem Min_segment_size_pos (szT : Nat) : 0 < Min_segment_size_eval szT := by
  unfold Min_segment_size_eval
  split <;> [skip; split] <;> omega

theorem Calculate_new_segment_size_pos (szT c n : Nat) :
    0 < Calculate_new_segment_size szT c n := by
  unfold Calculate_new_segment_size
  exact lt_of_lt_of_le (Min_segment_size_pos szT) (le_max_left _ _)

theorem Calculate_covers {szT c n : Nat} (hc : c < n) (hn : n ≤ SIZE_LIMIT) :
    n ≤ c + Calculate_new_segment_size szT c n := by
  unfold Calculate_new_segment_size Calculate_new_capacity
  by_cases hg : SIZE_LIMIT - c / 2 < c
  · rw [if_pos hg]
    show n ≤ c + max (Min_segment_size_eval szT) (SIZE_LIMIT - c)
    have : SIZE_LIMIT - c ≤ max (Min_segment_size_eval szT) (SIZE_LIMIT - c) :=
      le_max_right _ _
    omega
  · rw [if_neg hg]
    by_cases hs : c + c / 2 < n
    · rw [if_pos hs]
      show n ≤ c + max (Min_segment_size_eval szT) (n - c)
      have : n - c ≤ max (Min_segment_size_eval szT) (n - c) := le_max_right _ _
      omega
    · rw [if_neg hs]
      show n ≤ c + max (Min_segment_size_eval szT) (c + c / 2 - c)
      have : c + c / 2 - c ≤ max (Min_segment_size_eval szT) (c + c / 2 - c) :=
        le_max_right _ _
      omega

theorem capSum_split (l : List (Data_Segment α)) (n : Nat) :
    capSum l = capSum (l.take n) + capSum (l.drop n) := by
  conv_lhs => rw [← List.take_append_drop n l]
  rw [capSum_append]

theorem set_concat_length {β : Type} (l : List β) (x y : β) :
    (l ++ [x]).set l.length y = l ++ [y] := by
  induction l with
  | nil => rfl
  | cons a as ih => simp [List.set, ih]

theorem getD_append_left {β : Type} (l t : List β) (j : Nat) (d : β) (h : j < l.length) :
    (l ++ t).getD j d = l.getD j d := by
  rw [List.getD_eq_get?, List.getD_eq_get?, List.get?_append h]

theorem getD_concat_length {β : Type} (l : List β) (x d : β) :
    (l ++ [x]).getD l.length d = x := by
  rw [List.getD_eq_get?, List.get?_concat_length]
  rfl

theorem cellAt_append_capSum (l t : List (Data_Segment α)) (k : Nat) :
    cellAt (l ++ t) (capSum l + k) = cellAt t k := by
  induction l with
  | nil => simp [capSum]
  | cons s rest ih =>
    rw [capSum_cons]
    have hnl : ¬(segCap s + capSum rest + k < segCap s) := by omega
    simp only [List.cons_append, cellAt, if_neg hnl]
    have : segCap s + capSum rest + k - segCap s = capSum rest + k := by omega
    rw [this, List.append_eq, ih]

/-- Under the invariant, when `mCurrent = mEnd` and the current segment is
full, the logical size equals the total capacity. -/
theorem size_eq_capSum_of_full {v : CVec α} (hInv : Inv v)
    (hce : v.curIdx = v.endIdx)
    (hfull : (segAt v v.curIdx).cur = segCap (segAt v v.curIdx)) :
    Get_size v = capSum v.segs := by
  have hGv := Get_size_eq hInv
  have hdec := sizeSpec_decomp hInv
  obtain ⟨hpos, hend, hle, hpf, hse, hbound, hcap⟩ := hInv
  have hcur : v.curIdx < v.segs.length := by omega
  have hdrop : v.segs.drop v.curIdx = v.segs[v.curIdx] :: v.segs.drop (v.curIdx + 1) :=
    List.drop_eq_getElem_cons hcur
  have hdropnil : v.segs.drop (v.curIdx + 1) = [] := by
    apply List.drop_eq_nil_of_le
    omega
  have hsegAt : segAt v v.curIdx = v.segs[v.curIdx] := by
    rw [segAt, List.getD_eq_getElem _ _ hcur]
  rw [hGv, hdec, capSum_split v.segs v.curIdx, hdrop, hdropnil, capSum_cons]
  rw [hfull, hsegAt]
  simp [capSum]

/-- Case analysis of `Append_new_segment` under the invariant with
`mCurrent = mEnd`: either the embedded head segment is allocated in place
(empty single-segment vector), or a fresh segment is appended at the
tail. -/
theorem Append_new_segment_ok {v : CVec α} {n : Nat} {v₁ : CVec α}
    (hInv : Inv v) (hce : v.curIdx = v.endIdx)
    (h : Append_new_segment v n = some v₁) :
    (v.curIdx = 0 ∧ v.segs.length = 1 ∧ segCap (segAt v 0) = 0 ∧
      v₁ = ⟨[⟨List.replicate n none, 0⟩], 0, v.endIdx⟩)
    ∨ (¬(v.curIdx = 0 ∧ segCap (segAt v 0) = 0) ∧
       v₁ = ⟨v.segs ++ [⟨List.replicate n none, 0⟩], v.curIdx, v.curIdx + 1⟩) := by
  obtain ⟨hpos, hend, hle, -, -, -, -⟩ := hInv
  unfold Append_new_segment at h
  cases hseq : v.segs with
  | nil => rw [hseq] at hpos; simp at hpos
  | cons hd tl =>
    rw [hseq] at h
    dsimp only at h
    have hsegAt0 : segAt v 0 = hd := by
      rw [segAt, hseq]; rfl
    by_cases hc : v.curIdx = 0 ∧ hd.cells.length = 0
    · rw [if_pos hc] at h
      simp only [Option.some_inj] at h
      left
      refine ⟨hc.1, ?_, ?_, ?_⟩
      · show (hd :: tl).length = 1
        have h1 := hc.1
        have h2 : v.segs.length = tl.length + 1 := by rw [hseq]; rfl
        simp only [List.length_cons]
        omega
      · rw [hsegAt0]; exact hc.2
      · rw [← h, hc.1]
    · rw [if_neg hc] at h
      have hlt : v.curIdx < v.segs.length := by rw [hseq]; rw [hseq] at hend; omega
      rw [hseq] at hlt
      rw [if_pos hlt] at h
      simp only [Option.some_inj] at h
      right
      constructor
      · intro hcc
        exact hc ⟨hcc.1, by rw [hsegAt0] at hcc; exact hcc.2⟩
      · have htake : v.curIdx + 1 = (hd :: tl).length := by
          rw [hseq] at hend; omega
        rw [← h, htake, List.take_length, ← hseq]

/-- Unfolded form of the segment written by the reallocation path. -/
def freshWritten (n : Nat) (a : α) : Data_Segment α :=
  ⟨(List.replicate n (none : Option α)).set 0 (some a), 1⟩

theorem freshWritten_cap (n : Nat) (a : α) : segCap (freshWritten n a) = n := by
  simp [freshWritten, segCap]

theorem freshWritten_cell (n : Nat) (a : α) (hn : 0 < n) :
    cellAt [freshWritten n a] 0 = some (some a) := by
  have hcap : segCap (freshWritten n a) = n := freshWritten_cap n a
  simp only [cellAt, hcap, if_pos hn]
  simp only [freshWritten]
  rw [List.get?_set_eq_of_lt _ (by simpa using hn)]

/-- Full description of `Emplace_back_with_reallocation` under the
invariant when the chain is full. -/
theorem Emplace_realloc_ok {szT : Nat} {v : CVec α} {a : α} {w : CVec α}
    (hInv : Inv v) (hce : v.curIdx = v.endIdx)
    (hfull : (segAt v v.curIdx).cur = segCap (segAt v v.curIdx))
    (h : Emplace_back_with_reallocation szT v a = some w) :
    Inv w ∧ w.curIdx = w.endIdx ∧
    w.segs.length ≤ v.segs.length + 1 ∧
    Get_size w = Get_size v + 1 ∧
    (∀ i, i < Get_size v →
      cellAt w.segs i = cellAt v.segs i ∧ capLocate w.segs i = capLocate v.segs i) ∧
    cellAt w.segs (Get_size v) = some (some a) ∧
    ((∀ j, j < v.segs.length → 0 < segCap (segAt v j)) →
      ∀ j, j < w.segs.length → 0 < segCap (segAt w j)) ∧
    (v.segs.length = 1 → ∀ j, j < w.segs.length → 0 < segCap (segAt w j)) := by
  have hcsz := size_eq_capSum_of_full hInv hce hfull
  unfold Emplace_back_with_reallocation at h
  by_cases hmax : Get_size v = SIZE_LIMIT
  · rw [if_pos hmax] at h; exact absurd h (by simp)
  rw [if_neg hmax] at h
  set n := Calculate_new_segment_size szT (Get_capacity v) (Get_size v + 1) with hn
  have hnpos : 0 < n := Calculate_new_segment_size_pos szT _ _
  cases happ : Append_new_segment v n with
  | none => rw [happ] at h; exact absurd h (by simp)
  | some v₁ =>
    rw [happ] at h
    dsimp only at h
    rcases Append_new_segment_ok hInv hce happ with
      ⟨hc0, hlen1, hcap0, hv₁⟩ | ⟨hnc, hv₁⟩
    · -- in-place allocation of the embedded head segment: empty vector
      have hsz0 : Get_size v = 0 := by
        obtain ⟨x, hx⟩ := List.length_eq_one.mp hlen1
        rw [hcsz, hx, capSum_cons]
        have : segAt v 0 = x := by rw [segAt, hx]; rfl
        rw [this] at hcap0
        simp [capSum, hcap0]
      rw [hv₁] at h
      rw [hsz0] at h
      simp only [ne_eq, not_true_eq_false, if_neg, ite_false, reduceIte] at h
      have hget : ([(⟨List.replicate n none, 0⟩ : Data_Segment α)]).get? 0
          = some ⟨List.replicate n none, 0⟩ := rfl
      rw [hget] at h
      dsimp only at h
      have hcapfresh : segCap (⟨List.replicate n none, 0⟩ : Data_Segment α) = n := by
        simp [segCap]
      rw [if_pos (by rw [hcapfresh]; exact hnpos)] at h
      simp only [Option.some_inj] at h
      have hw : w = ⟨[freshWritten n a], 0, v.endIdx⟩ := by
        rw [← h]
        rfl
      have hend0 : v.endIdx = 0 := by
        obtain ⟨hpos, hend, -, -, -, -, -⟩ := hInv
        omega
      subst hw
      have hInvw : Inv (⟨[freshWritten n a], 0, v.endIdx⟩ : CVec α) := by
        refine ⟨by simp, by simp [hend0], by simp [hend0], ?_, ?_, ?_, ?_⟩
        · show prefixFull [freshWritten n a] 0
          intro j hj hjl; omega
        · show suffixEmpty [freshWritten n a] 0
          intro j hjl hj
          simp at hjl
          omega
        · intro _
          show (segAt (⟨[freshWritten n a], 0, v.endIdx⟩ : CVec α) 0).cur
              ≤ segCap (segAt (⟨[freshWritten n a], 0, v.endIdx⟩ : CVec α) 0)
          have : segAt (⟨[freshWritten n a], 0, v.endIdx⟩ : CVec α) 0
              = freshWritten n a := rfl
          rw [this, freshWritten_cap]
          show 1 ≤ n
          omega
        · show sizeSpec [freshWritten n a] ≤ capSum [freshWritten n a]
          have h1 : sizeSpec [freshWritten n a] = 1 := by simp [sizeSpec, freshWritten]
          have h2 : capSum [freshWritten n a] = n := by
            simp [capSum, freshWritten_cap]
          omega
      refine ⟨hInvw, by simp [hend0], ?_, ?_, ?_, ?_, ?_, ?_⟩
      · show (1 : Nat) ≤ v.segs.length + 1
        omega
      · rw [Get_size_eq hInvw, hsz0]
        simp [sizeSpec, freshWritten]
      · intro i hi
        omega
      · rw [hsz0]
        exact freshWritten_cell n a hnpos
      · intro _ j hj
        simp only [List.length_cons, List.length_nil] at hj
        have hj0 : j = 0 := by omega
        subst hj0
        have : segAt (⟨[freshWritten n a], 0, v.endIdx⟩ : CVec α) 0 = freshWritten n a := rfl
        rw [this, freshWritten_cap]
        exact hnpos
      · intro _ j hj
        simp only [List.length_cons, List.length_nil] at hj
        have hj0 : j = 0 := by omega
        subst hj0
        have : segAt (⟨[freshWritten n a], 0, v.endIdx⟩ : CVec α) 0 = freshWritten n a := rfl
        rw [this, freshWritten_cap]
        exact hnpos
    · -- a fresh segment is linked after the (full) current segment
      rw [hv₁] at h
      dsimp only at h
      by_cases hsz0 : Get_size v = 0
      · -- the chain is full with zero capacity: the construction is
        -- out of bounds and the call fails, contradiction
        exfalso
        rw [hsz0] at h
        simp only [ne_eq, not_true_eq_false, if_neg, ite_false, reduceIte] at h
        have hcur : v.curIdx < v.segs.length := by
          obtain ⟨hpos, hend, hle, -, -, -, -⟩ := hInv
          omega
        have hget : (v.segs ++ [(⟨List.replicate n none, 0⟩ : Data_Segment α)]).get? v.curIdx
            = some (segAt v v.curIdx) := by
          rw [List.get?_append hcur, segAt, List.getD_eq_get?]
          cases hq : v.segs.get? v.curIdx with
          | none =>
            rw [List.get?_eq_getElem?] at hq
            rw [List.getElem?_eq_none_iff] at hq
            omega
          | some x => rfl
        rw [hget] at h
        dsimp only at h
        rw [if_neg (by rw [hfull]; omega)] at h
        exact absurd h (by simp)
      · rw [if_pos hsz0] at h
        have hcur : v.curIdx + 1 = v.segs.length := by
          obtain ⟨hpos, hend, hle, -, -, -, -⟩ := hInv
          omega
        have hget : (v.segs ++ [(⟨List.replicate n none, 0⟩ : Data_Segment α)]).get? (v.curIdx + 1)
            = some ⟨List.replicate n none, 0⟩ := by
          rw [hcur]
          exact List.get?_concat_length _ _
        rw [hget] at h
        dsimp only at h
        have hcapfresh : segCap (⟨List.replicate n none, 0⟩ : Data_Segment α) = n := by
          simp [segCap]
        rw [if_pos (by rw [hcapfresh]; exact hnpos)] at h
        simp only [Option.some_inj] at h
        have hset : (v.segs ++ [(⟨List.replicate n none, 0⟩ : Data_Segment α)]).set (v.curIdx + 1)
            (⟨(List.replicate n (none : Option α)).set 0 (some a), 0 + 1⟩)
            = v.segs ++ [freshWritten n a] := by
          rw [hcur, set_concat_length]
          rfl
        have hw : w = ⟨v.segs ++ [freshWritten n a], v.curIdx + 1, v.curIdx + 1⟩ := by
          rw [← h, hset]
        subst hw
        obtain ⟨hpos, hend, hle, hpf, hse, hbound, hcap⟩ := hInv
        have hsegAtj : ∀ j, j < v.segs.length →
            segAt (⟨v.segs ++ [freshWritten n a], v.curIdx + 1, v.curIdx + 1⟩ : CVec α) j
            = segAt v j := by
          intro j hj
          show (v.segs ++ [freshWritten n a]).getD j ⟨[], 0⟩ = v.segs.getD j ⟨[], 0⟩
          exact getD_append_left _ _ _ _ hj
        have hsegAtn :
            segAt (⟨v.segs ++ [freshWritten n a], v.curIdx + 1, v.curIdx + 1⟩ : CVec α)
              (v.curIdx + 1) = freshWritten n a := by
          show (v.segs ++ [freshWritten n a]).getD (v.curIdx + 1) ⟨[], 0⟩ = freshWritten n a
          rw [hcur]
          exact getD_concat_length _ _ _
        have hszw : sizeSpec (v.segs ++ [freshWritten n a]) = sizeSpec v.segs + 1 := by
          rw [sizeSpec_append]
          simp [sizeSpec, freshWritten]
        have hcapw : capSum (v.segs ++ [freshWritten n a]) = capSum v.segs + n := by
          rw [capSum_append]
          simp [capSum, freshWritten_cap]
        have hInvw : Inv (⟨v.segs ++ [freshWritten n a], v.curIdx + 1, v.curIdx + 1⟩ : CVec α) := by
          refine ⟨by simp, by simp [← hcur], le_refl _, ?_, ?_, ?_, ?_⟩
          · show prefixFull (v.segs ++ [freshWritten n a]) (v.curIdx + 1)
            intro j hj hjl
            show ((v.segs ++ [freshWritten n a]).getD j ⟨[], 0⟩).cur
                = segCap ((v.segs ++ [freshWritten n a]).getD j ⟨[], 0⟩)
            have hjlen : j < v.segs.length := by omega
            rw [getD_append_left _ _ _ _ hjlen]
            by_cases hjc : j < v.curIdx
            · exact hpf j hjc hjlen
            · have : j = v.curIdx := by omega
              subst this
              exact hfull
          · show suffixEmpty (v.segs ++ [freshWritten n a]) (v.curIdx + 1)
            intro j hjl hj
            simp only [List.length_append, List.length_cons, List.length_nil] at hjl
            omega
          · intro _
            show ((v.segs ++ [freshWritten n a]).getD (v.curIdx + 1) ⟨[], 0⟩).cur
                ≤ segCap ((v.segs ++ [freshWritten n a]).getD (v.curIdx + 1) ⟨[], 0⟩)
            rw [hcur, getD_concat_length]
            rw [freshWritten_cap]
            show 1 ≤ n
            omega
          · show sizeSpec (v.segs ++ [freshWritten n a]) ≤ capSum (v.segs ++ [freshWritten n a])
            rw [hszw, hcapw]
            omega
        refine ⟨hInvw, rfl, ?_, ?_, ?_, ?_, ?_, ?_⟩
        · simp
        · rw [Get_size_eq hInvw]
          show sizeSpec (v.segs ++ [freshWritten n a]) = Get_size v + 1
          rw [hszw, Get_size_eq ⟨hpos, hend, hle, hpf, hse, hbound, hcap⟩]
        · intro i hi
          rw [hcsz] at hi
          exact ⟨cellAt_append_left hi, capLocate_append_left hi⟩
        · rw [hcsz]
          have := cellAt_append_capSum v.segs [freshWritten n a] 0
          rw [Nat.add_zero] at this
          rw [this]
          exact freshWritten_cell n a hnpos
        · intro hall j hj
          replace hj : j < v.segs.length + 1 := by simpa using hj
          by_cases hjlen : j < v.segs.length
          · rw [hsegAtj j hjlen]
            exact hall j hjlen
          · have : j = v.curIdx + 1 := by omega
            subst this
            rw [hsegAtn, freshWritten_cap]
            exact hnpos
        · intro hlen1 j hj
          replace hj : j < v.segs.length + 1 := by simpa using hj
          by_cases hjlen : j < v.segs.length
          · have hj0 : j = 0 := by omega
            subst hj0
            rw [hsegAtj 0 hjlen]
            -- the single old segment is full and the size is nonzero,
            -- so its capacity is positive
            have hcs : capSum v.segs = segCap (segAt v 0) := by
              obtain ⟨x, hx⟩ := List.length_eq_one.mp hlen1
              rw [hx, capSum_cons]
              have : segAt v 0 = x := by rw [segAt, hx]; rfl
              rw [this]
              simp [capSum]
            have h0 : v.curIdx = 0 := by omega
            rw [h0] at hfull
            omega
          · have : j = v.curIdx + 1 := by omega
            subst this
            rw [hsegAtn, freshWritten_cap]
            exact hnpos

theorem get?_eq_segAt (v : CVec α) (j : Nat) (h : j < v.segs.length) :
    v.segs.get? j = some (segAt v j) := by
  rw [segAt, List.getD_eq_get?]
  cases hq : v.segs.get? j with
  | none =>
    rw [List.get?_eq_getElem?, List.getElem?_eq_none_iff] at hq
    omega
  | some x => rfl

/-- The strict size bound when the current segment still has room. -/
theorem size_lt_capSum_of_room {v : CVec α} (hInv : Inv v)
    (hroom : (segAt v v.curIdx).cur < segCap (segAt v v.curIdx)) :
    Get_size v < capSum v.segs := by
  have hGv := Get_size_eq hInv
  have hdec := sizeSpec_decomp hInv
  obtain ⟨hpos, hend, hle, -, -, -, -⟩ := hInv
  have hcur : v.curIdx < v.segs.length := by omega
  have hsegAt : segAt v v.curIdx = v.segs[v.curIdx] := by
    rw [segAt, List.getD_eq_getElem _ _ hcur]
  have hdrop : v.segs.drop v.curIdx = v.segs[v.curIdx] :: v.segs.drop (v.curIdx + 1) :=
    List.drop_eq_getElem_cons hcur
  have hcap : capSum v.segs
      = capSum (v.segs.take v.curIdx) + segCap v.segs[v.curIdx]
        + capSum (v.segs.drop (v.curIdx + 1)) := by
    rw [capSum_split v.segs v.curIdx, hdrop, capSum_cons]
    omega
  rw [hGv, hdec]
  rw [hsegAt] at hroom
  rw [hsegAt]
  omega

/-- Every branch of `emplace_back`, under the invariant. -/
theorem emplace_back_ok {szT : Nat} {v w : CVec α} {a : α}
    (hInv : Inv v) (h : emplace_back szT v a = some w) :
    Inv w ∧ Get_size w = Get_size v + 1 ∧
    (∀ i, i < Get_size v →
      cellAt w.segs i = cellAt v.segs i ∧ capLocate w.segs i = capLocate v.segs i) ∧
    cellAt w.segs (Get_size v) = some (some a) ∧
    (Wf v → Wf w) ∧
    w.segs.length ≤ v.segs.length + 1 := by
  unfold emplace_back at h
  by_cases hne : v.curIdx ≠ v.endIdx
  · rw [if_pos hne] at h
    obtain ⟨hInvw, hci, hei, hlen, hcaps, hG, hpres, hnew, -, -⟩ :=
      Emplace_at_end_ok hInv (Or.inl hne) h
    refine ⟨hInvw, hG, ?_, hnew, ?_, by omega⟩
    · intro i hi
      exact ⟨hpres i (by omega), capLocate_eq_of_caps hcaps i⟩
    · intro hWf
      exact absurd hWf.2.1 hne
  · push_neg at hne
    rw [if_neg (by simpa using congrArg (fun x => x) hne : ¬v.curIdx ≠ v.endIdx)] at h
    have hcur : v.curIdx < v.segs.length := by
      obtain ⟨hpos, hend, hle, -, -, -, -⟩ := hInv
      omega
    rw [get?_eq_segAt v v.curIdx hcur] at h
    dsimp only at h
    by_cases hfull : (segAt v v.curIdx).cur ≠ segCap (segAt v v.curIdx)
    · rw [if_pos hfull] at h
      obtain ⟨hInvw, hci, hei, hlen, hcaps, hG, hpres, hnew, -, -⟩ :=
        Emplace_at_end_ok hInv (Or.inr hfull) h
      refine ⟨hInvw, hG, ?_, hnew, ?_, by omega⟩
      · intro i hi
        exact ⟨hpres i (by omega), capLocate_eq_of_caps hcaps i⟩
      · intro hWf
        refine ⟨hInvw, by rw [hci, hei]; exact hne, ?_⟩
        rcases hWf.2.2 with h1 | hall
        · exact Or.inl (by rw [hlen]; exact h1)
        · refine Or.inr ?_
          intro j hj
          have : segCap (segAt w j) = segCap (segAt v j) := by
            rw [segAt, segAt]
            exact getD_cap_eq_of_map hcaps j
          rw [this]
          exact hall j (by omega)
    · push_neg at hfull
      rw [if_neg (by simpa using congrArg (fun x => x) hfull : ¬(segAt v v.curIdx).cur ≠ segCap (segAt v v.curIdx))] at h
      obtain ⟨hInvw, hcew, hlenw, hG, hpres, hnew, hposcap, hpos1⟩ :=
        Emplace_realloc_ok hInv hne hfull h
      refine ⟨hInvw, hG, hpres, hnew, ?_, hlenw⟩
      intro hWf
      refine ⟨hInvw, hcew, ?_⟩
      rcases hWf.2.2 with h1 | hall
      · exact Or.inr (hpos1 h1)
      · exact Or.inr (hposcap hall)

/-- Under `Wf` and below `max_size()`, `emplace_back` always succeeds. -/
theorem emplace_back_isSome_of_wf {szT : Nat} {v : CVec α} {a : α}
    (hWf : Wf v) (hsz : Get_size v < SIZE_LIMIT) :
    ∃ w, emplace_back szT v a = some w := by
  obtain ⟨hInv, hce, hdis⟩ := hWf
  have hcur : v.curIdx < v.segs.length := by
    obtain ⟨hpos, hend, hle, -, -, -, -⟩ := hInv
    omega
  unfold emplace_back
  rw [if_neg (by simpa using congrArg (fun x => x) hce : ¬v.curIdx ≠ v.endIdx)]
  rw [get?_eq_segAt v v.curIdx hcur]
  dsimp only
  by_cases hfull : (segAt v v.curIdx).cur ≠ segCap (segAt v v.curIdx)
  · rw [if_pos hfull]
    -- the current segment has room: the iterator write lands inside
    have hroom : (segAt v v.curIdx).cur < segCap (segAt v v.curIdx) := by
      have hb := hInv.2.2.2.2.2.1 hce
      omega
    have hlt : Get_size v < capSum v.segs := size_lt_capSum_of_room hInv hroom
    unfold Emplace_at_end
    have hwsome : (writeAt v.segs (Get_size v) a).isSome := by
      rw [writeAt_isSome_iff]
      exact hlt
    cases hw : writeAt v.segs (Get_size v) a with
    | none => rw [hw] at hwsome; exact absurd hwsome (by simp)
    | some segs' =>
      dsimp only
      have hlen' : segs'.length = v.segs.length := by
        have := congrArg List.length (writeAt_caps hw); simpa using this
      have hsome : (segs'.get? v.curIdx).isSome := by
        rw [get?_isSome_iff]
        omega
      cases hs : segs'.get? v.curIdx with
      | none => rw [hs] at hsome; exact absurd hsome (by simp)
      | some s =>
        exact ⟨_, rfl⟩
  · push_neg at hfull
    rw [if_neg (by simpa using congrArg (fun x => x) hfull : ¬(segAt v v.curIdx).cur ≠ segCap (segAt v v.curIdx))]
    unfold Emplace_back_with_reallocation
    rw [if_neg (by omega : ¬Get_size v = SIZE_LIMIT)]
    have hcsz := size_eq_capSum_of_full hInv hce hfull
    set n := Calculate_new_segment_size szT (Get_capacity v) (Get_size v + 1) with hn
    have hnpos : 0 < n := Calculate_new_segment_size_pos szT _ _
    have happsome : ∃ v₁, Append_new_segment v n = some v₁ := by
      unfold Append_new_segment
      cases hseq : v.segs with
      | nil =>
        rw [hseq] at hcur; simp at hcur
      | cons hd tl =>
        dsimp only
        by_cases hc : v.curIdx = 0 ∧ hd.cells.length = 0
        · rw [if_pos hc]; exact ⟨_, rfl⟩
        · rw [if_neg hc, if_pos (by rw [hseq] at hcur; exact hcur)]
          exact ⟨_, rfl⟩
    obtain ⟨v₁, happ⟩ := happsome
    rw [happ]
    dsimp only
    rcases Append_new_segment_ok hInv hce happ with
      ⟨hc0, hlen1, hcap0, hv₁⟩ | ⟨hnc, hv₁⟩
    · -- in-place: the vector was empty, write lands at offset 0
      have hsz0 : Get_size v = 0 := by
        obtain ⟨x, hx⟩ := List.length_eq_one.mp hlen1
        rw [hcsz, hx, capSum_cons]
        have : segAt v 0 = x := by rw [segAt, hx]; rfl
        rw [this] at hcap0
        simp [capSum, hcap0]
      rw [hv₁, hsz0]
      simp only [ne_eq, not_true_eq_false, if_neg, ite_false, reduceIte]
      have hget : ([(⟨List.replicate n none, 0⟩ : Data_Segment α)]).get? 0
          = some ⟨List.replicate n none, 0⟩ := rfl
      rw [hget]
      dsimp only
      rw [if_pos (by simpa [segCap] using hnpos)]
      exact ⟨_, rfl⟩
    · -- appended at the tail: the vector is non-empty under `Wf`
      have hszpos : Get_size v ≠ 0 := by
        intro h0
        -- zero size plus a full current segment forces zero capacity
        have hc0 : capSum v.segs = 0 := by rw [← hcsz, h0]
        rcases hdis with hlen1 | hall
        · -- single unallocated segment: the in-place branch applies
          obtain ⟨x, hx⟩ := List.length_eq_one.mp hlen1
          have hx0 : segAt v 0 = x := by rw [segAt, hx]; rfl
          have : segCap x = 0 := by
            rw [hx, capSum_cons] at hc0
            omega
          have hcur0 : v.curIdx = 0 := by
            obtain ⟨hpos, hend, hle, -, -, -, -⟩ := hInv
            rw [hx] at hend
            simp at hend
            omega
          exact hnc ⟨hcur0, by rw [hx0]; exact this⟩
        · -- every segment allocated: positive capacity contradicts zero sum
          have h0lt := hall 0 (by omega)
          have : segCap (segAt v 0) ≤ capSum v.segs := by
            cases hseq : v.segs with
            | nil => rw [hseq] at hcur; simp at hcur
            | cons hd tl =>
              have : segAt v 0 = hd := by rw [segAt, hseq]; rfl
              rw [this, capSum_cons]
              omega
          omega
      rw [hv₁]
      dsimp only
      rw [if_pos hszpos]
      have hcurlen : v.curIdx + 1 = v.segs.length := by
        obtain ⟨hpos, hend, hle, -, -, -, -⟩ := hInv
        omega
      have hget : (v.segs ++ [(⟨List.replicate n none, 0⟩ : Data_Segment α)]).get? (v.curIdx + 1)
          = some ⟨List.replicate n none, 0⟩ := by
        rw [hcurlen]
        exact List.get?_concat_length _ _
      rw [hget]
      dsimp only
      rw [if_pos (by simpa [segCap] using hnpos)]
      exact ⟨_, rfl⟩

theorem contents_succ {v w : CVec α} {a : α} (hG : Get_size w = Get_size v + 1)
    (hpres : ∀ i, i < Get_size v → cellAt w.segs i = cellAt v.segs i)
    (hnew : cellAt w.segs (Get_size v) = some (some a)) :
    contents w = contents v ++ [some (some a)] := by
  unfold contents
  rw [hG, List.range_succ, List.map_append]
  congr 1
  · exact List.map_congr_left (fun i hi => hpres i (List.mem_range.mp hi))
  · simp [hnew]

/-- A whole sequence of `push_back`/`emplace_back` calls preserves the
invariant and every already-existing element, value and location. -/
theorem pushSeqV_ok {szT : Nat} {as : List α} :
    ∀ {v w : CVec α}, Inv v → pushSeqV szT v as = some w →
    Inv w ∧ Get_size v ≤ Get_size w ∧
    (∀ i, i < Get_size v →
      cellAt w.segs i = cellAt v.segs i ∧ capLocate w.segs i = capLocate v.segs i) := by
  induction as with
  | nil =>
    intro v w hInv h
    simp only [pushSeqV, List.foldlM_nil] at h
    cases h
    exact ⟨hInv, le_refl _, fun i _ => ⟨rfl, rfl⟩⟩
  | cons a as ih =>
    intro v w hInv h
    simp only [pushSeqV, List.foldlM_cons] at h
    cases h₁ : emplace_back szT v a with
    | none => rw [h₁] at h; exact absurd h (by simp)
    | some v₁ =>
      rw [h₁] at h
      obtain ⟨hInv₁, hG₁, hpres₁, -, -, -⟩ := emplace_back_ok hInv h₁
      obtain ⟨hInvw, hGw, hpresw⟩ := ih hInv₁ h
      refine ⟨hInvw, by omega, ?_⟩
      intro i hi
      obtain ⟨hc, hl⟩ := hpres₁ i hi
      obtain ⟨hc', hl'⟩ := hpresw i (by omega)
      exact ⟨hc'.trans hc, hl'.trans hl⟩

/-- `n` well-formed `push_back(a)` calls: total, and the contents grow by
`n` copies of `a`. -/
theorem pushN_wf {szT : Nat} {a : α} :
    ∀ {n : Nat} {v : CVec α}, Wf v → Get_size v + n ≤ SIZE_LIMIT →
    ∃ w, pushN szT v n a = some w ∧ Wf w ∧ Get_size w = Get_size v + n ∧
      contents w = contents v ++ List.replicate n (some (some a)) := by
  intro n
  induction n with
  | zero =>
    intro v hWf _
    exact ⟨v, rfl, hWf, by omega, by simp⟩
  | succ n ih =>
    intro v hWf hsz
    obtain ⟨v₁, h₁⟩ := @emplace_back_isSome_of_wf α szT v a hWf (by omega)
    obtain ⟨hInv₁, hG₁, hpres₁, hnew₁, hWfpres, -⟩ := emplace_back_ok hWf.1 h₁
    obtain ⟨w, hw, hWfw, hGw, hcw⟩ := ih (hWfpres hWf) (by omega)
    refine ⟨w, ?_, hWfw, by omega, ?_⟩
    · show pushN szT v (n + 1) a = some w
      unfold pushN
      rw [h₁]
      exact hw
    · rw [hcw, contents_succ hG₁ (fun i hi => (hpres₁ i hi).1) hnew₁]
      rw [List.append_assoc]
      congr 1

theorem caps_eq_of_cells_eq {l l' : List (Data_Segment α)}
    (h : l'.map Data_Segment.cells = l.map Data_Segment.cells) :
    l'.map segCap = l.map segCap := by
  have h1 : l'.map segCap = (l'.map Data_Segment.cells).map List.length := by
    rw [List.map_map]; rfl
  have h2 : l.map segCap = (l.map Data_Segment.cells).map List.length := by
    rw [List.map_map]; rfl
  rw [h1, h2, h]

theorem fillN_ok {a : α} :
    ∀ {count : Nat} {segs segs' : List (Data_Segment α)} {start : Nat},
    fillN segs start count a = some segs' →
    segs'.map segCap = segs.map segCap ∧
    segs'.map Data_Segment.cur = segs.map Data_Segment.cur ∧
    (∀ i, i < start → cellAt segs' i = cellAt segs i) ∧
    (∀ i, start ≤ i → i < start + count → cellAt segs' i = some (some a)) := by
  intro count
  induction count with
  | zero =>
    intro segs segs' start h
    simp only [fillN, Option.some_inj] at h
    subst h
    exact ⟨rfl, rfl, fun i _ => rfl, fun i h1 h2 => by omega⟩
  | succ n ih =>
    intro segs segs' start h
    simp only [fillN] at h
    cases hw : writeAt segs start a with
    | none => rw [hw] at h; exact absurd h (by simp)
    | some segs₁ =>
      rw [hw] at h
      obtain ⟨hcaps, hcurs, hpres, hfill⟩ := ih h
      refine ⟨hcaps.trans (writeAt_caps hw), hcurs.trans (writeAt_curs hw), ?_, ?_⟩
      · intro i hi
        rw [hpres i (by omega), cellAt_writeAt_ne hw (by omega)]
      · intro i h1 h2
        by_cases he : i = start
        · subst he
          rw [hpres i (by omega)]
          exact cellAt_writeAt_self hw
        · exact hfill i (by omega) (by omega)

theorem fillN_isSome {a : α} :
    ∀ {count : Nat} {segs : List (Data_Segment α)} {start : Nat},
    start + count ≤ capSum segs →
    ∃ segs', fillN segs start count a = some segs' := by
  intro count
  induction count with
  | zero => intro segs start _; exact ⟨segs, rfl⟩
  | succ n ih =>
    intro segs start hle
    have hw : (writeAt segs start a).isSome := by
      rw [writeAt_isSome_iff]
      omega
    cases hw' : writeAt segs start a with
    | none => rw [hw'] at hw; exact absurd hw (by simp)
    | some segs₁ =>
      have hcap : capSum segs₁ = capSum segs := by
        simp only [capSum, writeAt_caps hw']
      obtain ⟨segs', h⟩ := @ih segs₁ (start + 1) (by omega)
      refine ⟨segs', ?_⟩
      simp only [fillN]
      rw [hw']
      exact h

theorem adjustFor_cells (l : List (Data_Segment α)) (i : Nat) :
    (adjustFor l i).1.map Data_Segment.cells = l.map Data_Segment.cells := by
  induction l generalizing i with
  | nil => rfl
  | cons s rest ih =>
    by_cases h : i < segCap s
    · simp only [adjustFor, if_pos h, List.map_cons]
      have htail : (rest.map (fun r => ({ r with cur := 0 } : Data_Segment α))).map
          Data_Segment.cells = rest.map Data_Segment.cells := by
        rw [List.map_map]
        exact List.map_congr_left (fun x _ => rfl)
      rw [htail]
    · simp only [adjustFor, if_neg h, List.map_cons]
      rw [ih (i - segCap s)]

theorem adjustFor_sizes {l : List (Data_Segment α)} :
    ∀ {i : Nat}, i ≤ capSum l →
      sizeSpec (adjustFor l i).1 = i ∧
      sizeSpec ((adjustFor l i).1.take ((adjustFor l i).2 + 1)) = i := by
  induction l with
  | nil =>
    intro i h
    simp only [capSum, List.map_nil, List.sum_nil, Nat.le_zero] at h
    subst h
    exact ⟨rfl, rfl⟩
  | cons s rest ih =>
    intro i h
    by_cases hc : i < segCap s
    · simp only [adjustFor, if_pos hc]
      constructor
      · simp only [sizeSpec_cons]
        have : sizeSpec (rest.map (fun r => { r with cur := 0 })) = 0 := by
          simp only [sizeSpec, List.map_map]
          apply List.sum_eq_zero
          intro x hx
          simp only [List.mem_map] at hx
          obtain ⟨y, -, rfl⟩ := hx
          rfl
        rw [this]
        omega
      · simp only [List.take_succ_cons, List.take_zero, sizeSpec_cons, sizeSpec]
        simp
    · rw [capSum_cons] at h
      have hrec := ih (i := i - segCap s) (by omega)
      simp only [adjustFor, if_neg hc]
      have hcurred : ({ s with cur := segCap s } : Data_Segment α).cur = segCap s := rfl
      constructor
      · rw [sizeSpec_cons, hcurred, hrec.1]
        omega
      · rw [List.take_succ_cons, sizeSpec_cons, hcurred, hrec.2]
        omega

theorem Get_size_adjust {l : List (Data_Segment α)} {i e : Nat} (h : i ≤ capSum l) :
    Get_size (⟨(adjustFor l i).1, (adjustFor l i).2, e⟩ : CVec α) = i := by
  unfold Get_size
  by_cases h0 : (adjustFor l i).2 = 0
  · rw [if_pos h0]
    exact (adjustFor_sizes h).1
  · rw [if_neg h0]
    exact (adjustFor_sizes h).2

/-- `Append_new_segment` succeeds whenever `mCurrent` points into the
chain. -/
theorem Append_isSome {v : CVec α} {n : Nat} (hcur : v.curIdx < v.segs.length) :
    ∃ v₁, Append_new_segment v n = some v₁ := by
  unfold Append_new_segment
  cases hseq : v.segs with
  | nil => rw [hseq] at hcur; simp at hcur
  | cons hd tl =>
    dsimp only
    by_cases hc : v.curIdx = 0 ∧ hd.cells.length = 0
    · rw [if_pos hc]; exact ⟨_, rfl⟩
    · rw [if_neg hc, if_pos (by rw [hseq] at hcur; exact hcur)]
      exact ⟨_, rfl⟩

theorem Get_size_snoc {v : CVec α} (x : Data_Segment α) (hx : x.cur = 0)
    (hcur : v.curIdx + 1 ≤ v.segs.length) (ei : Nat) :
    Get_size (⟨v.segs ++ [x], v.curIdx, ei⟩ : CVec α) = Get_size v := by
  unfold Get_size
  dsimp only
  by_cases h0 : v.curIdx = 0
  · rw [if_pos h0, if_pos h0, sizeSpec_append]
    have : sizeSpec [x] = 0 := by simp [sizeSpec, hx]
    omega
  · rw [if_neg h0, if_neg h0, List.take_append_of_le_length hcur]

/-- Common tail of `grow_by`: `Fill_n` through the end iterator followed
by `Adjust_segments_and_get_last_address_for`. -/
theorem grow_fill_adjust {v v₁ : CVec α} {count : Nat} {a : α} (e : Nat)
    (hG₁ : Get_size v₁ = Get_size v)
    (hpres₁ : ∀ i, i < Get_size v → cellAt v₁.segs i = cellAt v.segs i)
    (hcap₁ : Get_size v + count ≤ capSum v₁.segs) :
    ∃ segs', fillN v₁.segs (Get_size v₁) count a = some segs' ∧
      Get_size (⟨(adjustFor segs' (Get_size v + count)).1,
        (adjustFor segs' (Get_size v + count)).2, e⟩ : CVec α) = Get_size v + count ∧
      contents (⟨(adjustFor segs' (Get_size v + count)).1,
        (adjustFor segs' (Get_size v + count)).2, e⟩ : CVec α)
        = contents v ++ List.replicate count (some (some a)) ∧
      (adjustFor segs' (Get_size v + count)).1.length = v₁.segs.length := by
  obtain ⟨segs', hfill⟩ :=
    @fillN_isSome α a count v₁.segs (Get_size v₁)
      (by rw [hG₁]; exact hcap₁)
  obtain ⟨hcaps, hcurs, hpresf, hfillf⟩ := fillN_ok hfill
  rw [hG₁] at hpresf hfillf
  have hcapeq : capSum segs' = capSum v₁.segs := by
    simp only [capSum, hcaps]
  have hNcap : Get_size v + count ≤ capSum segs' := by omega
  have hadj := Get_size_adjust (l := segs') (i := Get_size v + count) (e := e) hNcap
  have hcells := adjustFor_cells segs' (Get_size v + count)
  have hlenadj : (adjustFor segs' (Get_size v + count)).1.length = v₁.segs.length := by
    have h1 := congrArg List.length hcells
    have h2 := congrArg List.length hcaps
    simpa using h1.trans (by simpa using h2)
  refine ⟨segs', hfill, hadj, ?_, hlenadj⟩
  -- contents of the adjusted state
  unfold contents
  rw [hadj, List.range_add _ _, List.map_append]
  have hcellw : ∀ i, cellAt (adjustFor segs' (Get_size v + count)).1 i = cellAt segs' i :=
    fun i => cellAt_eq_of_cells hcells i
  congr 1
  · apply List.map_congr_left
    intro i hi
    have hi' := List.mem_range.mp hi
    rw [hcellw i, hpresf i (by omega), hpres₁ i hi']
  · apply List.eq_replicate.mpr
    constructor
    · simp
    · intro x hx
      simp only [List.map_map, List.mem_map, List.mem_range, Function.comp] at hx
      obtain ⟨i, hi, rfl⟩ := hx
      rw [hcellw _, hfillf (Get_size v + i) (by omega) (by omega)]

/-- `grow_by(count, a)` under `Wf`: total, at most one segment appended,
and the contents grow by `count` copies of `a`. -/
theorem grow_by_ok {szT : Nat} {v : CVec α} {count : Nat} {a : α}
    (hWf : Wf v) (hsz : Get_size v + count ≤ SIZE_LIMIT) :
    ∃ w, grow_by szT v count a = some w ∧ Get_size w = Get_size v + count ∧
      contents w = contents v ++ List.replicate count (some (some a)) ∧
      w.segs.length ≤ v.segs.length + 1 := by
  obtain ⟨hInv, hce, hdis⟩ := hWf
  have hmod : (Get_size v + count) % (SIZE_LIMIT + 1) = Get_size v + count :=
    Nat.mod_eq_of_lt (by omega)
  have hGv := Get_size_eq hInv
  unfold grow_by
  rw [hmod]
  by_cases hgrow : Get_capacity v < Get_size v + count
  · rw [if_pos hgrow]
    have hcur : v.curIdx < v.segs.length := by
      obtain ⟨hpos, hend, hle, -, -, -, -⟩ := hInv
      omega
    obtain ⟨v₁, happ⟩ := Append_isSome (n := Calculate_new_segment_size szT
      (Get_capacity v) (Get_size v + count)) hcur
    rw [happ]
    dsimp only
    have hcover : Get_size v + count
        ≤ Get_capacity v + Calculate_new_segment_size szT (Get_capacity v)
            (Get_size v + count) :=
      Calculate_covers hgrow (by omega)
    rcases Append_new_segment_ok hInv hce happ with
      ⟨hc0, hlen1, hcap0, hv₁⟩ | ⟨hnc, hv₁⟩
    · -- in-place allocation: the vector was a single unallocated segment
      have hcs0 : capSum v.segs = 0 := by
        obtain ⟨x, hx⟩ := List.length_eq_one.mp hlen1
        have : segAt v 0 = x := by rw [segAt, hx]; rfl
        rw [this] at hcap0
        rw [hx, capSum_cons]
        simp [capSum, hcap0]
      have hsz0 : Get_size v = 0 := by
        have := hInv.2.2.2.2.2.2
        omega
      have hG₁ : Get_size v₁ = Get_size v := by
        rw [hv₁, hsz0]
        simp [Get_size, sizeSpec]
      have hcap₁ : Get_size v + count ≤ capSum v₁.segs := by
        rw [hv₁]
        show Get_size v + count ≤ capSum [⟨List.replicate (Calculate_new_segment_size szT
          (Get_capacity v) (Get_size v + count)) none, 0⟩]
        have : capSum [(⟨List.replicate (Calculate_new_segment_size szT
            (Get_capacity v) (Get_size v + count)) none, 0⟩ : Data_Segment α)]
            = Calculate_new_segment_size szT (Get_capacity v) (Get_size v + count) := by
          simp [capSum, segCap]
        rw [this]
        have hcap0' : Get_capacity v = 0 := hcs0
        omega
      have hpres₁ : ∀ i, i < Get_size v → cellAt v₁.segs i = cellAt v.segs i := by
        intro i hi
        omega
      obtain ⟨segs', hfill, hGw, hcw, hlenw⟩ :=
        grow_fill_adjust (a := a) v₁.endIdx hG₁ hpres₁ hcap₁
      rw [hfill]
      dsimp only
      refine ⟨_, rfl, hGw, hcw, ?_⟩
      rw [hlenw, hv₁]
      show 1 ≤ v.segs.length + 1
      omega
    · -- appended one fresh segment at the tail
      have hcurlen : v.curIdx + 1 = v.segs.length := by
        obtain ⟨hpos, hend, hle, -, -, -, -⟩ := hInv
        omega
      have hG₁ : Get_size v₁ = Get_size v := by
        rw [hv₁]
        exact Get_size_snoc _ rfl (by omega) _
      have hcap₁ : Get_size v + count ≤ capSum v₁.segs := by
        rw [hv₁]
        show Get_size v + count ≤ capSum (v.segs ++ [_])
        rw [capSum_append]
        have : capSum [(⟨List.replicate (Calculate_new_segment_size szT
            (Get_capacity v) (Get_size v + count)) none, 0⟩ : Data_Segment α)]
            = Calculate_new_segment_size szT (Get_capacity v) (Get_size v + count) := by
          simp [capSum, segCap]
        rw [this]
        exact hcover
      have hpres₁ : ∀ i, i < Get_size v → cellAt v₁.segs i = cellAt v.segs i := by
        intro i hi
        rw [hv₁]
        show cellAt (v.segs ++ [_]) i = cellAt v.segs i
        apply cellAt_append_left
        have := hInv.2.2.2.2.2.2
        rw [hGv] at hi
        omega
      obtain ⟨segs', hfill, hGw, hcw, hlenw⟩ :=
        grow_fill_adjust (a := a) v₁.endIdx hG₁ hpres₁ hcap₁
      rw [hfill]
      dsimp only
      refine ⟨_, rfl, hGw, hcw, ?_⟩
      rw [hlenw, hv₁]
      simp
  · rw [if_neg hgrow]
    dsimp only
    have hcap₁ : Get_size v + count ≤ capSum v.segs := by
      have : Get_capacity v = capSum v.segs := rfl
      omega
    obtain ⟨segs', hfill, hGw, hcw, hlenw⟩ :=
      @grow_fill_adjust α v v count a v.endIdx rfl (fun i _ => rfl) hcap₁
    rw [hfill]
    dsimp only
    refine ⟨_, rfl, hGw, hcw, ?_⟩
    show (adjustFor segs' (Get_size v + count)).1.length ≤ v.segs.length + 1
    omega

end lemmas

/-- C1: Vector reference stability: for every well-formed vector and every
sequence of `push_back`/`emplace_back` calls (no intervening `clear`,
`assign`, `reserve` or `shrink_to_fit`) that completes, every element that
existed before the sequence keeps the same value (`Get_value_at` reads the
same cell) and the same storage location (the index resolves to the same
segment and offset), for every index `i` that existed before. -/
theorem c1_reference_stability {α : Type} (szT : Nat) (v w : CVec α) (as : List α)
    (hInv : Inv v) (h : pushSeqV szT v as = some w) :
    ∀ i, i < Get_size v →
      capLocate w.segs i = capLocate v.segs i ∧ cellAt w.segs i = cellAt v.segs i := by
  intro i hi
  obtain ⟨-, -, hpres⟩ := pushSeqV_ok hInv h
  exact ⟨(hpres i hi).2, (hpres i hi).1⟩

/-- Witness for C1 at a concrete input: a one-segment vector holding
`1, 2` with room for one more, pushed with `9`. -/
theorem c1_witness :
    capLocate (⟨[⟨[some 1, some 2, some 9], 3⟩], 0, 0⟩ : CVec Nat).segs 0
        = capLocate (⟨[⟨[some 1, some 2, none], 2⟩], 0, 0⟩ : CVec Nat).segs 0 ∧
    cellAt (⟨[⟨[some 1, some 2, some 9], 3⟩], 0, 0⟩ : CVec Nat).segs 0
        = cellAt (⟨[⟨[some 1, some 2, none], 2⟩], 0, 0⟩ : CVec Nat).segs 0 :=
  c1_reference_stability 4 (⟨[⟨[some 1, some 2, none], 2⟩], 0, 0⟩ : CVec Nat)
    (⟨[⟨[some 1, some 2, some 9], 3⟩], 0, 0⟩ : CVec Nat) [9]
    (by decide) (by decide) 0 (by decide)

/-- C6: Vector growth policy: when the overflow clamp does not fire, the
segment capacity computed for an append is
`max(min_segment_size, new_total - current_capacity)` with
`new_total = max(current_capacity + current_capacity / 2, requested)`,
and the minimum segment size is 8 for element sizes of at least 32 bytes,
16 for at least 16 bytes, 32 otherwise. -/
theorem c6_growth_policy (szT cap req : Nat) (h : cap ≤ SIZE_LIMIT - cap / 2) :
    Calculate_new_segment_size szT cap req
      = max (Min_segment_size_eval szT) (max (cap + cap / 2) req - cap) ∧
    (32 ≤ szT → Min_segment_size_eval szT = 8) ∧
    (16 ≤ szT → szT < 32 → Min_segment_size_eval szT = 16) ∧
    (szT < 16 → Min_segment_size_eval szT = 32) := by
  refine ⟨?_, ?_, ?_, ?_⟩
  · unfold Calculate_new_segment_size Calculate_new_capacity
    rw [if_neg (by omega)]
    by_cases hs : cap + cap / 2 < req
    · rw [if_pos hs]
      show max (Min_segment_size_eval szT) (req - cap)
          = max (Min_segment_size_eval szT) (max (cap + cap / 2) req - cap)
      rw [show max (cap + cap / 2) req = req from max_eq_right (le_of_lt hs)]
    · rw [if_neg hs]
      show max (Min_segment_size_eval szT) (cap + cap / 2 - cap)
          = max (Min_segment_size_eval szT) (max (cap + cap / 2) req - cap)
      rw [show max (cap + cap / 2) req = cap + cap / 2 from max_eq_left (by omega)]
  · intro h32
    simp [Min_segment_size_eval, h32]
  · intro h16 h32
    simp only [Min_segment_size_eval]
    rw [if_neg (by omega), if_pos h16]
  · intro h16
    simp only [Min_segment_size_eval]
    rw [if_neg (by omega), if_neg (by omega)]

/-- Witness for C6 at a concrete input: capacity 3, request 10, 4-byte
elements. -/
theorem c6_witness :
    Calculate_new_segment_size 4 3 10
      = max (Min_segment_size_eval 4) (max (3 + 3 / 2) 10 - 3) :=
  (c6_growth_policy 4 3 10 (by decide)).1

/-- C7: `grow_by(n, value)` leaves the vector with the same logical size
and the same element sequence as `n` successive `push_back(value)` calls
would, while appending at most one new segment to the chain. -/
theorem c7_grow_by_equiv {α : Type} (szT : Nat) (v : CVec α) (n : Nat) (a : α)
    (hWf : Wf v) (hsz : Get_size v + n ≤ SIZE_LIMIT) :
    ∃ w w', grow_by szT v n a = some w ∧ pushN szT v n a = some w' ∧
      Get_size w = Get_size w' ∧ contents w = contents w' ∧
      w.segs.length ≤ v.segs.length + 1 := by
  obtain ⟨w, hg, hG, hc, hlen⟩ := grow_by_ok hWf hsz
  obtain ⟨w', hp, -, hG', hc'⟩ := pushN_wf hWf hsz
  exact ⟨w, w', hg, hp, by omega, by rw [hc, hc'], hlen⟩

/-- Witness for C7 at a concrete input: the default-constructed vector
grown by two copies of `5`. -/
theorem c7_witness :
    ∃ w w', grow_by 4 (pristineV Nat) 2 5 = some w ∧ pushN 4 (pristineV Nat) 2 5 = some w' ∧
      Get_size w = Get_size w' ∧ contents w = contents w' ∧
      w.segs.length ≤ (pristineV Nat).segs.length + 1 :=
  c7_grow_by_equiv 4 (pristineV Nat) 2 5 (by decide) (by decide)

/-- C8: `at(pos)` fails with the out-of-range condition exactly when
`pos ≥ size()`; when `pos < size()` it returns (a reference to) the cell
the logical index resolves to, and it only reads the vector. -/
theorem c8_at_range {α : Type} (v : CVec α) (pos : Nat) (hInv : Inv v) :
    (at_pos v pos = some (Except.error ()) ↔ Get_size v ≤ pos) ∧
    (pos < Get_size v →
      ∃ c, cellAt v.segs pos = some c ∧ at_pos v pos = some (Except.ok c)) := by
  have hsome : pos < Get_size v → (cellAt v.segs pos).isSome := by
    intro hlt
    rw [cellAt_isSome_iff]
    have hc := hInv.2.2.2.2.2.2
    have hGv := Get_size_eq hInv
    omega
  constructor
  · constructor
    · intro h
      by_contra hge
      push_neg at hge
      unfold at_pos at h
      rw [if_neg (by omega)] at h
      cases hc : cellAt v.segs pos with
      | none =>
        have := hsome hge
        rw [hc] at this
        exact absurd this (by simp)
      | some c =>
        rw [hc] at h
        simp at h
    · intro h
      unfold at_pos
      rw [if_pos h]
  · intro hlt
    cases hc : cellAt v.segs pos with
    | none =>
      have := hsome hlt
      rw [hc] at this
      exact absurd this (by simp)
    | some c =>
      refine ⟨c, rfl, ?_⟩
      unfold at_pos
      rw [if_neg (by omega), hc]

/-- Witness for C8 at a concrete input: a one-element vector read at
index 0. -/
theorem c8_witness :
    ∃ c, cellAt (⟨[⟨[some 7], 1⟩], 0, 0⟩ : CVec Nat).segs 0 = some c ∧
      at_pos (⟨[⟨[some 7], 1⟩], 0, 0⟩ : CVec Nat) 0 = some (Except.ok c) :=
  (c8_at_range (⟨[⟨[some 7], 1⟩], 0, 0⟩ : CVec Nat) 0 (by decide)).2 (by decide)

/-- C9: the move assignment and the initializer-list assignment are
stubs: both return the target with its contents unchanged and leave the
source untouched. -/
theorem c9_assignment_stubs {α : Type} (target source : CVec α) (init : List α) :
    moveAssign target source = (target, source) ∧ initListAssign target init = target :=
  ⟨rfl, rfl⟩

/-- C10: `operator[]` performs no bounds check against `size()`: index
resolution succeeds and returns the storage slot at logical offset `pos`
whenever `pos` is below the total allocated capacity (even when
`pos ≥ size()`), and for `pos` at or beyond the total capacity the
segment walk runs off the null next-segment link and yields no element. -/
theorem c10_opindex_unchecked {α : Type} (v : CVec α) (pos : Nat) :
    (pos < Get_capacity v → ∃ c, opIndex v pos = some c) ∧
    (Get_capacity v ≤ pos → opIndex v pos = none) := by
  constructor
  · intro h
    have hs : (cellAt v.segs pos).isSome := by
      rw [cellAt_isSome_iff]
      exact h
    cases hc : cellAt v.segs pos with
    | none => rw [hc] at hs; exact absurd hs (by simp)
    | some c => exact ⟨c, hc⟩
  · intro h
    have hs : ¬(cellAt v.segs pos).isSome := by
      rw [cellAt_isSome_iff]
      have hcap : Get_capacity v = capSum v.segs := rfl
      omega
    cases hc : cellAt v.segs pos with
    | none => exact hc
    | some c =>
      rw [hc] at hs
      exact absurd (by simp : (some c).isSome = true) hs

/-- Witness for C10 at a concrete input: a vector of size 1 and capacity
2 is read (unchecked) at the out-of-size index 1, and at the
out-of-capacity index 2. -/
theorem c10_witness :
    (∃ c, opIndex (⟨[⟨[some 3, none], 1⟩], 0, 0⟩ : CVec Nat) 1 = some c) ∧
    opIndex (⟨[⟨[some 3, none], 1⟩], 0, 0⟩ : CVec Nat) 2 = none :=
  ⟨(c10_opindex_unchecked (⟨[⟨[some 3, none], 1⟩], 0, 0⟩ : CVec Nat) 1).1 (by decide),
   (c10_opindex_unchecked (⟨[⟨[some 3, none], 1⟩], 0, 0⟩ : CVec Nat) 2).2 (by decide)⟩

end cvec

namespace cqueue

/-- A raw pointer into block storage: (allocation id of the block, offset
into its element array).  Pointers into different allocations compare
unequal and have no defined difference. -/
abbrev Ptr := Nat × Nat

/-- One `MiniQueue` block.  `cells` is the `mElements` allocation; the
four cursor pointers and the `mNextQueue` link are stored exactly as in
the source (the link holds the allocation id of the next block). -/
structure MiniQueue (α : Type) where
  cells : List (Option α)
  mBegin : Ptr
  mUsedBegin : Ptr
  mCurrent : Ptr
  mEnd : Ptr
  mNextQueue : Option Nat
deriving DecidableEq, Repr

/-- The `concurrent_queue`: the arena of every block ever allocated (ids
are allocation order; blocks are never deallocated before destruction)
plus the three block pointers of the class. -/
structure CQueue (α : Type) where
  blocks : List (MiniQueue α)
  mQueue : Option Nat
  mQueueCurrent : Option Nat
  mQueueEnd : Option Nat
deriving DecidableEq, Repr

/-- A default-constructed queue: no blocks, all pointers null. -/
def pristineQ (α : Type) : CQueue α := ⟨[], none, none, none⟩

/-- Dereference a pointer for reading: `none` is an invalid pointer. -/
def readPtr {α : Type} (q : CQueue α) (p : Ptr) : Option (Option α) :=
  (q.blocks.get? p.1).bind (fun b => b.cells.get? p.2)

/-- Construct/destroy through a pointer: `none` models an out-of-bounds
or wild write. -/
def writePtr {α : Type} (q : CQueue α) (p : Ptr) (x : Option α) : Option (CQueue α) :=
  match q.blocks.get? p.1 with
  | none => none
  | some b =>
    if p.2 < b.cells.length then
      some { q with blocks := q.blocks.set p.1 { b with cells := b.cells.set p.2 x } }
    else none

/-- Pointer difference, defined only inside one allocation (otherwise
undefined behaviour). -/
def subPtr (a b : Ptr) : Option Nat :=
  if a.1 = b.1 then some (a.2 - b.2) else none

/-- `Get_mini_queue_used_size`: `mCurrent - mUsedBegin`. -/
def Get_mini_queue_used_size {α : Type} (b : MiniQueue α) : Option Nat :=
  subPtr b.mCurrent b.mUsedBegin

/-- The `while (queue) { size += used; queue = next; }` loop of
`unsafe_size`, fuel-bounded by the arena size (`none` models a corrupted
chain or an undefined pointer difference). -/
def size_walk_aux {α : Type} (q : CQueue α) : Nat → Option Nat → Nat → Option Nat
  | _, none, acc => some acc
  | 0, some _, _ => none
  | fuel + 1, some i, acc =>
    match q.blocks.get? i with
    | none => none
    | some b =>
      match Get_mini_queue_used_size b with
      | none => none
      | some s => size_walk_aux q fuel b.mNextQueue (acc + s)

/-- `unsafe_size()`. -/
def size_walk {α : Type} (q : CQueue α) : Option Nat :=
  size_walk_aux q (q.blocks.length + 1) q.mQueue 0

/-- `Calculate_new_capacity` of the queue: the same geometric rule with
`current_capacity = new_size - 1` and every result floored at
`Min_queue_size = Min_segment_size_eval szT`. -/
def qCalculate_new_capacity (szT new_size : Nat) : Nat :=
  if SIZE_LIMIT - (new_size - 1) / 2 < new_size - 1 then
    max (Min_segment_size_eval szT) SIZE_LIMIT
  else
    if (new_size - 1) + (new_size - 1) / 2 < new_size then
      max (Min_segment_size_eval szT) new_size
    else
      max (Min_segment_size_eval szT) ((new_size - 1) + (new_size - 1) / 2)

/-- Capacity actually allocated by `Allocate_mini_queue`. -/
def qAllocCap (szT requested current : Nat) : Nat :=
  max (Min_segment_size_eval szT) (qCalculate_new_capacity szT requested - current)

/-- `Allocate_mini_queue(requested_new_size, current_size)`: a fresh block
whose id is the next arena slot, all cursors at `mBegin`. -/
def Allocate_mini_queue {α : Type} (szT : Nat) (q : CQueue α)
    (requested current : Nat) : MiniQueue α :=
  ⟨List.replicate (qAllocCap szT requested current) none,
   (q.blocks.length, 0), (q.blocks.length, 0), (q.blocks.length, 0),
   (q.blocks.length, qAllocCap szT requested current), none⟩

/-- `Emplace_back_mini_queue`: append the freshly allocated block to the
arena and link it at `mQueueEnd`; advance `mQueueCurrent` when its block
is full.  `none` models a null dereference. -/
def Emplace_back_mini_queue {α : Type} (q : CQueue α) (b : MiniQueue α) :
    Option (CQueue α) :=
  match q.mQueue with
  | none =>
    some ⟨q.blocks ++ [b], some q.blocks.length, some q.blocks.length,
          some q.blocks.length⟩
  | some _ =>
    match q.mQueueEnd with
    | none => none
    | some e =>
      match (q.blocks ++ [b]).get? e with
      | none => none
      | some eb =>
        match q.mQueueCurrent with
        | none => none
        | some c =>
          match ((q.blocks ++ [b]).set e { eb with mNextQueue := some q.blocks.length }).get? c with
          | none => none
          | some cb =>
            if cb.mCurrent = cb.mEnd then
              some ⟨(q.blocks ++ [b]).set e { eb with mNextQueue := some q.blocks.length },
                    q.mQueue, cb.mNextQueue, some q.blocks.length⟩
            else
              some ⟨(q.blocks ++ [b]).set e { eb with mNextQueue := some q.blocks.length },
                    q.mQueue, q.mQueueCurrent, some q.blocks.length⟩

/-- `Internal_push`: allocate a block if needed, construct the value at
`mQueueCurrent->mCurrent`, bump that cursor, and hand the write position
over to the next block when the current one just became full. -/
def Internal_push {α : Type} (szT : Nat) (q : CQueue α) (a : α) : Option (CQueue α) :=
  match (if q.mQueueEnd = q.mQueueCurrent then
      (if q.mQueue = none then
        Emplace_back_mini_queue q (Allocate_mini_queue szT q 1 0)
      else
        match q.mQueueCurrent with
        | none => none
        | some c =>
          match q.blocks.get? c with
          | none => none
          | some cb =>
            if cb.mCurrent = cb.mEnd then
              match size_walk q with
              | none => none
              | some s =>
                Emplace_back_mini_queue q (Allocate_mini_queue szT q (s + 1) s)
            else some q)
    else some q) with
  | none => none
  | some q₁ =>
    match q₁.mQueueCurrent with
    | none => none
    | some c =>
      match q₁.blocks.get? c with
      | none => none
      | some cb =>
        match writePtr q₁ cb.mCurrent (some a) with
        | none => none
        | some q₂ =>
          match q₂.blocks.get? c with
          | none => none
          | some cb₂ =>
            match (q₂.blocks.set c
                { cb₂ with mCurrent := (cb₂.mCurrent.1, cb₂.mCurrent.2 + 1) }).get? c with
            | none => none
            | some cb₃ =>
              if cb₃.mCurrent = cb₃.mEnd ∧ q₂.mQueueCurrent ≠ q₂.mQueueEnd then
                match cb₃.mNextQueue with
                | none => none
                | some nId =>
                  match q₂.blocks.get? nId with
                  | none => none
                  | some nb =>
                    some { q₂ with
                      blocks := (q₂.blocks.set c
                        { cb₂ with mCurrent := (cb₂.mCurrent.1, cb₂.mCurrent.2 + 1) }).set c
                        { cb₃ with mCurrent := nb.mBegin },
                      mQueueCurrent := some nId }
              else
                some { q₂ with
                  blocks := q₂.blocks.set c
                    { cb₂ with mCurrent := (cb₂.mCurrent.1, cb₂.mCurrent.2 + 1) } }

/-- `Internal_Pop` on head block `h` (already known non-empty): move out
the oldest element, destroy its slot, advance the used cursor, and when
the used cursor reaches the block's capacity end, reset the block and
relink it from the head to the tail. -/
def Internal_Pop {α : Type} (q : CQueue α) (h : Nat) (hb : MiniQueue α) :
    Option (CQueue α × Option α) :=
  match readPtr q hb.mUsedBegin with
  | none => none
  | some none => none
  | some (some v) =>
    match writePtr q hb.mUsedBegin none with
    | none => none
    | some q₁ =>
      match q₁.blocks.get? h with
      | none => none
      | some hb₁ =>
        match (q₁.blocks.set h
            { hb₁ with mUsedBegin := (hb₁.mUsedBegin.1, hb₁.mUsedBegin.2 + 1) }).get? h with
        | none => none
        | some hb₂ =>
          if hb₂.mUsedBegin = hb₂.mEnd then
            (if q₁.mQueue ≠ q₁.mQueueEnd then
              match q₁.mQueueEnd with
              | none => none
              | some e =>
                match ((q₁.blocks.set h
                    { hb₁ with mUsedBegin := (hb₁.mUsedBegin.1, hb₁.mUsedBegin.2 + 1) }).set h
                    { hb₂ with mUsedBegin := hb₂.mBegin, mCurrent := hb₂.mBegin }).get? e with
                | none => none
                | some eb =>
                  match (((q₁.blocks.set h
                      { hb₁ with mUsedBegin := (hb₁.mUsedBegin.1, hb₁.mUsedBegin.2 + 1) }).set h
                      { hb₂ with mUsedBegin := hb₂.mBegin, mCurrent := hb₂.mBegin }).set e
                      { eb with mNextQueue := some h }).get? h with
                  | none => none
                  | some hb₄ =>
                    some (⟨((((q₁.blocks.set h
                        { hb₁ with mUsedBegin := (hb₁.mUsedBegin.1, hb₁.mUsedBegin.2 + 1) }).set h
                        { hb₂ with mUsedBegin := hb₂.mBegin, mCurrent := hb₂.mBegin }).set e
                        { eb with mNextQueue := some h }).set h
                        { hb₄ with mNextQueue := none }),
                      hb₄.mNextQueue, q₁.mQueueCurrent, some h⟩, some v)
            else
              some (⟨(q₁.blocks.set h
                  { hb₁ with mUsedBegin := (hb₁.mUsedBegin.1, hb₁.mUsedBegin.2 + 1) }).set h
                  { hb₂ with mUsedBegin := hb₂.mBegin, mCurrent := hb₂.mBegin },
                q₁.mQueue, q₁.mQueueCurrent, q₁.mQueueEnd⟩, some v))
          else
            some (⟨q₁.blocks.set h
                { hb₁ with mUsedBegin := (hb₁.mUsedBegin.1, hb₁.mUsedBegin.2 + 1) },
              q₁.mQueue, q₁.mQueueCurrent, q₁.mQueueEnd⟩, some v)

/-- `try_pop(dest)`: `some (q, none)` is the defined negative result
(`dest` left default-constructed), `some (q, some v)` a successful pop of
`v`, and `none` undefined behaviour. -/
def try_pop {α : Type} (q : CQueue α) : Option (CQueue α × Option α) :=
  match q.mQueue with
  | none => some (q, none)
  | some h =>
    match q.blocks.get? h with
    | none => none
    | some hb =>
      if hb.mCurrent = hb.mUsedBegin then some (q, none)
      else Internal_Pop q h hb

/-- `empty()`. -/
def emptyQ {α : Type} (q : CQueue α) : Option Bool :=
  match q.mQueue with
  | none => some true
  | some h =>
    (q.blocks.get? h).map (fun hb => decide (hb.mCurrent = hb.mUsedBegin))

/-- A sequence of `push` calls. -/
def pushSeqQ {α : Type} (szT : Nat) (q : CQueue α) (vs : List α) : Option (CQueue α) :=
  vs.foldlM (Internal_push szT) q

/-- One public queue operation. -/
inductive QOp (α : Type) where
  | push : α → QOp α
  | pop : QOp α

/-- Apply one public operation (the popped value, if any, is discarded). -/
def applyOp {α : Type} (szT : Nat) (q : CQueue α) : QOp α → Option (CQueue α)
  | QOp.push a => Internal_push szT q a
  | QOp.pop => (try_pop q).map Prod.fst

/-- Apply a sequence of public operations. -/
def applyOps {α : Type} (szT : Nat) (q : CQueue α) (ops : List (QOp α)) :
    Option (CQueue α) :=
  ops.foldlM (applyOp szT) q

/-- `n` successive `try_pop` calls, collecting the results. -/
def popSeq {α : Type} (q : CQueue α) : Nat → Option (CQueue α × List (Option α))
  | 0 => some (q, [])
  | n + 1 =>
    match try_pop q with
    | none => none
    | some (q', r) =>
      match popSeq q' n with
      | none => none
      | some (q'', rs) => some (q'', r :: rs)

section qlemmas

variable {α : Type}

theorem qget_lt {l : List (MiniQueue α)} {j : Nat} {b : MiniQueue α}
    (h : l.get? j = some b) : j < l.length := by
  rw [← cvec.get?_isSome_iff, h]
  rfl

theorem writePtr_some_eq {q : CQueue α} {p : Ptr} {x : Option α} {b : MiniQueue α}
    (hb : q.blocks.get? p.1 = some b) (hlt : p.2 < b.cells.length) :
    writePtr q p x =
      some { q with blocks := q.blocks.set p.1 { b with cells := b.cells.set p.2 x } } := by
  unfold writePtr
  rw [hb]
  dsimp only
  rw [if_pos hlt]

theorem writePtr_frame {q q' : CQueue α} {p : Ptr} {x : Option α}
    (h : writePtr q p x = some q') :
    q'.blocks.length = q.blocks.length ∧ q'.mQueue = q.mQueue ∧
      q'.mQueueCurrent = q.mQueueCurrent ∧ q'.mQueueEnd = q.mQueueEnd := by
  unfold writePtr at h
  split at h
  · exact absurd h (by simp)
  · split at h
    · injection h with h
      subst h
      exact ⟨by simp, rfl, rfl, rfl⟩
    · exact absurd h (by simp)

theorem writePtr_fields {q q' : CQueue α} {p : Ptr} {x : Option α} {j : Nat} {b : MiniQueue α}
    (hw : writePtr q p x = some q') (hj : q.blocks.get? j = some b) :
    ∃ b', q'.blocks.get? j = some b' ∧ b'.mBegin = b.mBegin ∧ b'.mUsedBegin = b.mUsedBegin ∧
      b'.mCurrent = b.mCurrent ∧ b'.mEnd = b.mEnd ∧ b'.mNextQueue = b.mNextQueue := by
  unfold writePtr at hw
  split at hw
  · exact absurd hw (by simp)
  case h_2 pb hpb =>
    split at hw
    case isTrue hlt =>
      injection hw with hw
      subst hw
      by_cases hjp : j = p.1
      · subst hjp
        rw [hpb] at hj
        injection hj with hj
        refine ⟨{ pb with cells := pb.cells.set p.2 x }, ?_, by rw [← hj], by rw [← hj],
          by rw [← hj], by rw [← hj], by rw [← hj]⟩
        dsimp only
        rw [List.get?_set_eq_of_lt _ (qget_lt hpb)]
      · exact ⟨b, by dsimp only; rw [List.get?_set_ne _ _ (fun he => hjp he.symm)]; exact hj,
          rfl, rfl, rfl, rfl, rfl⟩
    case isFalse => exact absurd hw (by simp)

theorem Emplace_back_length {q : CQueue α} {b : MiniQueue α} {q' : CQueue α}
    (h : Emplace_back_mini_queue q b = some q') :
    q'.blocks.length = q.blocks.length + 1 := by
  unfold Emplace_back_mini_queue at h
  split at h
  · injection h with h
    subst h
    simp
  · split at h
    · exact absurd h (by simp)
    · split at h
      · exact absurd h (by simp)
      · split at h
        · exact absurd h (by simp)
        · split at h
          · exact absurd h (by simp)
          · split at h <;>
            · injection h with h
              subst h
              simp

theorem Internal_push_length {szT : Nat} {q : CQueue α} {a : α} {q' : CQueue α}
    (h : Internal_push szT q a = some q') :
    q'.blocks.length = q.blocks.length ∨ q'.blocks.length = q.blocks.length + 1 := by
  unfold Internal_push at h
  split at h
  · exact absurd h (by simp)
  case h_2 q₁ heq =>
    have hq₁ : q₁.blocks.length = q.blocks.length ∨
        q₁.blocks.length = q.blocks.length + 1 := by
      split at heq
      · split at heq
        · exact Or.inr (Emplace_back_length heq)
        · split at heq
          · exact absurd heq (by simp)
          · split at heq
            · exact absurd heq (by simp)
            · split at heq
              · split at heq
                · exact absurd heq (by simp)
                · exact Or.inr (Emplace_back_length heq)
              · injection heq with heq
                subst heq
                exact Or.inl rfl
      · injection heq with heq
        subst heq
        exact Or.inl rfl
    have hq' : q'.blocks.length = q₁.blocks.length := by
      split at h
      · exact absurd h (by simp)
      · split at h
        · exact absurd h (by simp)
        case h_2 cb hcb =>
          split at h
          · exact absurd h (by simp)
          case h_2 q₂ hw =>
            have hw₂ := (writePtr_frame hw).1
            split at h
            · exact absurd h (by simp)
            · split at h
              · exact absurd h (by simp)
              · split at h
                · split at h
                  · exact absurd h (by simp)
                  · split at h
                    · exact absurd h (by simp)
                    · injection h with h
                      subst h
                      simpa using hw₂
                · injection h with h
                  subst h
                  simpa using hw₂
    omega

theorem Internal_Pop_length {q : CQueue α} {k : Nat} {hb : MiniQueue α}
    {q' : CQueue α} {r : Option α}
    (h : Internal_Pop q k hb = some (q', r)) :
    q'.blocks.length = q.blocks.length := by
  unfold Internal_Pop at h
  split at h
  · exact absurd h (by simp)
  · exact absurd h (by simp)
  · split at h
    · exact absurd h (by simp)
    case h_2 q₁ hw =>
      have hw₁ := (writePtr_frame hw).1
      split at h
      · exact absurd h (by simp)
      · split at h
        · exact absurd h (by simp)
        · split at h
          · split at h
            · split at h
              · exact absurd h (by simp)
              · split at h
                · exact absurd h (by simp)
                · split at h
                  · exact absurd h (by simp)
                  · injection h with h
                    injection h with h _
                    subst h
                    simpa using hw₁
            · injection h with h
              injection h with h _
              subst h
              simpa using hw₁
          · injection h with h
            injection h with h _
            subst h
            simpa using hw₁

theorem try_pop_length {q q' : CQueue α} {r : Option α}
    (h : try_pop q = some (q', r)) : q'.blocks.length = q.blocks.length := by
  unfold try_pop at h
  split at h
  · injection h with h
    injection h with h _
    subst h
    rfl
  · split at h
    · exact absurd h (by simp)
    · split at h
      · injection h with h
        injection h with h _
        subst h
        rfl
      · exact Internal_Pop_length h

theorem applyOps_length_mono {szT : Nat} :
    ∀ (ops : List (QOp α)) (q q' : CQueue α), applyOps szT q ops = some q' →
      q.blocks.length ≤ q'.blocks.length := by
  intro ops
  induction ops with
  | nil =>
    intro q q' h
    injection h with h
    subst h
    exact Nat.le_refl _
  | cons op t ih =>
    intro q q' h
    simp only [applyOps, List.foldlM_cons] at h
    cases hop : applyOp szT q op with
    | none => rw [hop] at h; exact absurd h (by simp)
    | some q₁ =>
      rw [hop] at h
      have h₁ : q.blocks.length ≤ q₁.blocks.length := by
        cases op with
        | push a =>
          rcases Internal_push_length (hop : Internal_push szT q a = some q₁) with he | he
          · omega
          · omega
        | pop =>
          cases htp : try_pop q with
          | none => simp [applyOp, htp] at hop
          | some pr =>
            simp only [applyOp, htp, Option.map_some', Option.some.injEq] at hop
            subst hop
            exact Nat.le_of_eq (@try_pop_length α q pr.1 pr.2 (by rw [htp])).symm
      exact Nat.le_trans h₁ (ih q₁ q' h)

theorem try_pop_relink {q : CQueue α} {h : Nat} {hb : MiniQueue α} {q' : CQueue α} {v : α}
    (hq : q.mQueue = some h) (hget : q.blocks.get? h = some hb)
    (htp : try_pop q = some (q', some v)) :
    ((hb.mUsedBegin.1, hb.mUsedBegin.2 + 1) ≠ hb.mEnd →
      q'.mQueue = q.mQueue ∧ q'.mQueueEnd = q.mQueueEnd) ∧
    ((hb.mUsedBegin.1, hb.mUsedBegin.2 + 1) = hb.mEnd → q.mQueueEnd ≠ some h →
      q'.mQueue = hb.mNextQueue ∧ q'.mQueueEnd = some h) ∧
    ((hb.mUsedBegin.1, hb.mUsedBegin.2 + 1) = hb.mEnd → q.mQueueEnd = some h →
      q'.mQueue = q.mQueue ∧ q'.mQueueEnd = q.mQueueEnd) := by
  unfold try_pop at htp
  rw [hq] at htp
  dsimp only at htp
  rw [hget] at htp
  dsimp only at htp
  by_cases hcu : hb.mCurrent = hb.mUsedBegin
  · rw [if_pos hcu] at htp
    injection htp with htp
    have h2 := congrArg Prod.snd htp
    simp at h2
  · rw [if_neg hcu] at htp
    unfold Internal_Pop at htp
    split at htp
    · exact absurd htp (by simp)
    · exact absurd htp (by simp)
    · rename_i v₀ hread
      split at htp
      · exact absurd htp (by simp)
      · rename_i q₁ hw
        obtain ⟨hlen, hmq, hmc, hme⟩ := writePtr_frame hw
        obtain ⟨b', hb', hfb, hfu, hfc, hfe, hfn⟩ := writePtr_fields hw hget
        split at htp
        · rename_i heq
          rw [heq] at hb'
          exact absurd hb' (by simp)
        · rename_i hb₁ heq₁
          rw [heq₁] at hb'
          injection hb' with hb'
          subst hb'
          split at htp
          · rename_i heq₂
            rw [List.get?_set_eq_of_lt _ (qget_lt heq₁)] at heq₂
            exact absurd heq₂ (by simp)
          · rename_i hb₂ heq₂
            rw [List.get?_set_eq_of_lt _ (qget_lt heq₁)] at heq₂
            injection heq₂ with heq₂
            subst heq₂
            split at htp
            · rename_i hcond
              have hcond' : (hb.mUsedBegin.1, hb.mUsedBegin.2 + 1) = hb.mEnd := by
                rw [← hfu, ← hfe]
                exact hcond
              split at htp
              · rename_i hne
                split at htp
                · exact absurd htp (by simp)
                · rename_i e heqe
                  split at htp
                  · exact absurd htp (by simp)
                  · rename_i eb heqeb
                    split at htp
                    · exact absurd htp (by simp)
                    · rename_i hb₄ heqhb₄
                      injection htp with htp
                      injection htp with htp1 htp2
                      subst htp1
                      have hhe : e ≠ h := fun heq => hne (by rw [hmq, hq, heqe, heq])
                      rw [List.get?_set_ne _ _ hhe,
                        List.get?_set_eq_of_lt _
                          (by rw [List.length_set]; exact qget_lt heq₁)] at heqhb₄
                      injection heqhb₄ with heqhb₄
                      refine ⟨fun hne2 => absurd hcond' hne2,
                        fun hx hnot => ⟨?_, rfl⟩,
                        fun hx habs => ?_⟩
                      · show hb₄.mNextQueue = hb.mNextQueue
                        rw [← heqhb₄]
                        exact hfn
                      · rw [hmq, hq, hme, habs] at hne
                        exact absurd rfl hne
              · rename_i hnn
                injection htp with htp
                injection htp with htp1 htp2
                subst htp1
                refine ⟨fun hne2 => absurd hcond' hne2,
                  fun hx hnot => absurd ?_ hnot,
                  fun hx habs => ⟨hmq, hme⟩⟩
                rw [← hme, ← not_not.mp hnn, hmq, hq]
            · rename_i hcond
              have hcond' : (hb.mUsedBegin.1, hb.mUsedBegin.2 + 1) ≠ hb.mEnd := by
                rw [← hfu, ← hfe]
                exact hcond
              injection htp with htp
              injection htp with htp1 htp2
              subst htp1
              exact ⟨fun _ => ⟨hmq, hme⟩,
                fun hx _ => absurd hx hcond',
                fun hx _ => absurd hx hcond'⟩

end qlemmas

/-- State after pushing 0..8 onto an empty queue of `Nat` (element size 32):
the first block (capacity 8) is full and the second holds one element. -/
def c5_mid : CQueue Nat :=
  ⟨[⟨[some 0, some 1, some 2, some 3, some 4, some 5, some 6, some 7],
     (0, 0), (0, 0), (0, 8), (0, 8), some 1⟩,
    ⟨[some 8, none, none, none, none, none, none, none],
     (1, 0), (1, 0), (1, 1), (1, 8), none⟩],
   some 0, some 1, some 1⟩

/-- State after then popping eight times: block 0 was recycled to the tail,
block 1 is now the head and holds one live element. -/
def c5_pre : CQueue Nat :=
  ⟨[⟨[none, none, none, none, none, none, none, none],
     (0, 0), (0, 0), (0, 0), (0, 8), none⟩,
    ⟨[some 8, none, none, none, none, none, none, none],
     (1, 0), (1, 0), (1, 1), (1, 8), some 0⟩],
   some 1, some 1, some 0⟩

/-- State after one further pop: the head block (block 1) is drained —
its used-start cursor has caught up with its write cursor — yet it is
still linked at the head and the tail pointer still names block 0. -/
def c5_post : CQueue Nat :=
  ⟨[⟨[none, none, none, none, none, none, none, none],
     (0, 0), (0, 0), (0, 0), (0, 8), none⟩,
    ⟨[none, none, none, none, none, none, none, none],
     (1, 0), (1, 1), (1, 1), (1, 8), some 0⟩],
   some 1, some 1, some 0⟩

/-- A one-block queue holding the single value 5, and the same queue
after a successful pop. -/
def c5w : CQueue Nat :=
  ⟨[⟨[some 5, none, none, none, none, none, none, none],
     (0, 0), (0, 0), (0, 1), (0, 8), none⟩],
   some 0, some 0, some 0⟩

def c5w2 : CQueue Nat :=
  ⟨[⟨[none, none, none, none, none, none, none, none],
     (0, 0), (0, 1), (0, 1), (0, 8), none⟩],
   some 0, some 0, some 0⟩

/-- C5, counterexample: a `try_pop` that drains the head block does NOT
always relink it at the tail.  Reachable from the empty queue by pushing
0..8 and popping nine times: the ninth pop drains head block 1 (its
used-start cursor equals its write cursor, the spec's "drained"), yet
block 1 stays linked at the head and the tail still names block 0 — the
code relinks only when the used-start cursor reaches the block's
capacity end, which a partially filled block never reaches while being
drained. -/
theorem c5_counterexample :
    pushSeqQ 32 (pristineQ Nat) [0, 1, 2, 3, 4, 5, 6, 7, 8] = some c5_mid ∧
    popSeq c5_mid 8 = some (c5_pre, (List.range 8).map some) ∧
    try_pop c5_pre = some (c5_post, some 8) ∧
    c5_pre.mQueue = some 1 ∧
    (c5_post.blocks.get? 1).map
      (fun b => decide (b.mUsedBegin = b.mCurrent)) = some true ∧
    ¬(c5_post.mQueue ≠ some 1 ∧ c5_post.mQueueEnd = some 1) := by
  refine ⟨by decide, by decide, by decide, rfl, rfl, ?_⟩
  intro hcontra
  exact absurd hcontra.2 (by decide)

/-- C5 (amended): block accounting and the actual relinking rule.
(A) a push adds at most one block; (B) a pop never removes a block, so
(C) the block count is monotonically non-decreasing across every
sequence of push/try_pop calls; (D) on a successful pop from head block
`h`, the block is unlinked from the head and relinked at the tail
exactly when the advanced used-start cursor reaches the block's
capacity end `mEnd` (and the head is not also the tail); merely being
drained (used-start = write cursor) does not trigger relinking. -/
theorem c5_amended {α : Type} (szT : Nat) :
    (∀ (q : CQueue α) (a : α) (q' : CQueue α), Internal_push szT q a = some q' →
      q'.blocks.length = q.blocks.length ∨ q'.blocks.length = q.blocks.length + 1) ∧
    (∀ (q q' : CQueue α) (r : Option α), try_pop q = some (q', r) →
      q'.blocks.length = q.blocks.length) ∧
    (∀ (ops : List (QOp α)) (q q' : CQueue α), applyOps szT q ops = some q' →
      q.blocks.length ≤ q'.blocks.length) ∧
    (∀ (q : CQueue α) (h : Nat) (hb : MiniQueue α) (q' : CQueue α) (v : α),
      q.mQueue = some h → q.blocks.get? h = some hb →
      try_pop q = some (q', some v) →
      (((hb.mUsedBegin.1, hb.mUsedBegin.2 + 1) ≠ hb.mEnd →
        q'.mQueue = q.mQueue ∧ q'.mQueueEnd = q.mQueueEnd) ∧
       ((hb.mUsedBegin.1, hb.mUsedBegin.2 + 1) = hb.mEnd → q.mQueueEnd ≠ some h →
        q'.mQueue = hb.mNextQueue ∧ q'.mQueueEnd = some h) ∧
       ((hb.mUsedBegin.1, hb.mUsedBegin.2 + 1) = hb.mEnd → q.mQueueEnd = some h →
        q'.mQueue = q.mQueue ∧ q'.mQueueEnd = q.mQueueEnd))) := by
  refine ⟨fun q a q' h => Internal_push_length h,
          fun q q' r h => try_pop_length h,
          fun ops q q' h => applyOps_length_mono ops q q' h,
          fun q h hb q' v hq hget htp => ?_⟩
  exact try_pop_relink hq hget htp

/-- The block at arena slot `j` (meaningful only for `j` in range). -/
def bGet {α : Type} (q : CQueue α) (j : Nat) : MiniQueue α :=
  q.blocks.getD j ⟨[], (0, 0), (0, 0), (0, 0), (0, 0), none⟩

/-- The live (pushed, not yet popped) cells of one block. -/
def liveSlice {α : Type} (b : MiniQueue α) : List (Option α) :=
  (b.cells.drop b.mUsedBegin.2).take (b.mCurrent.2 - b.mUsedBegin.2)

/-- The `mNextQueue` field of block `i`, if `i` is a valid slot. -/
def nextOf {α : Type} (q : CQueue α) (i : Nat) : Option (Option Nat) :=
  (q.blocks.get? i).map MiniQueue.mNextQueue

/-- `ChainSeg q ch k`: the slots `ch` are linked in order through
`mNextQueue`, and the last one's link equals `k`. -/
def ChainSeg {α : Type} (q : CQueue α) : List Nat → Option Nat → Prop
  | [], _ => True
  | [i], k => nextOf q i = some k
  | i :: j :: t, k => nextOf q i = some (some j) ∧ ChainSeg q (j :: t) k

/-- Concatenation of the live cells of a chain of blocks. -/
def liveOfChain {α : Type} (q : CQueue α) (ch : List Nat) : List (Option α) :=
  ch.foldr (fun i acc => liveSlice (bGet q i) ++ acc) []

section clemmas

variable {α : Type}

theorem get?_bGet {q : CQueue α} {j : Nat} (hj : j < q.blocks.length) :
    q.blocks.get? j = some (bGet q j) := by
  rw [bGet, List.getD_eq_get?]
  cases hx : q.blocks.get? j with
  | none =>
    rw [← cvec.get?_isSome_iff] at hj
    rw [hx] at hj
    exact absurd hj (by simp)
  | some b => rfl

theorem bGet_eq {q : CQueue α} {j : Nat} {b : MiniQueue α}
    (h : q.blocks.get? j = some b) : bGet q j = b := by
  rw [bGet, List.getD_eq_get?, h]
  rfl

theorem liveOfChain_cons (q : CQueue α) (i : Nat) (ch : List Nat) :
    liveOfChain q (i :: ch) = liveSlice (bGet q i) ++ liveOfChain q ch := rfl

theorem liveOfChain_append (q : CQueue α) (l₁ l₂ : List Nat) :
    liveOfChain q (l₁ ++ l₂) = liveOfChain q l₁ ++ liveOfChain q l₂ := by
  induction l₁ with
  | nil => rfl
  | cons i t ih => simp [liveOfChain_cons, ih]

theorem liveOfChain_congr {q q' : CQueue α} {ch : List Nat}
    (hs : ∀ i ∈ ch, liveSlice (bGet q' i) = liveSlice (bGet q i)) :
    liveOfChain q' ch = liveOfChain q ch := by
  induction ch with
  | nil => rfl
  | cons i t ih =>
    rw [liveOfChain_cons, liveOfChain_cons, hs i (by simp),
      ih (fun j hj => hs j (by simp [hj]))]

theorem liveOfChain_eq_nil {q : CQueue α} {ch : List Nat}
    (hs : ∀ i ∈ ch, liveSlice (bGet q i) = []) : liveOfChain q ch = [] := by
  induction ch with
  | nil => rfl
  | cons i t ih =>
    rw [liveOfChain_cons, hs i (by simp), ih (fun j hj => hs j (by simp [hj]))]
    rfl

theorem ChainSeg_congr {q q' : CQueue α} {k : Option Nat} :
    ∀ {ch : List Nat}, (∀ i ∈ ch, nextOf q' i = nextOf q i) →
      ChainSeg q ch k → ChainSeg q' ch k
  | [], _, _ => trivial
  | [i], hs, hc => by
    show nextOf q' i = some k
    rw [hs i (by simp)]
    exact hc
  | i :: j :: t, hs, hc => by
    have hc' : nextOf q i = some (some j) ∧ ChainSeg q (j :: t) k := hc
    exact show nextOf q' i = some (some j) ∧ ChainSeg q' (j :: t) k from
      ⟨(hs i (by simp)).trans hc'.1,
        ChainSeg_congr (fun x hx => hs x (by simp [hx])) hc'.2⟩

theorem ChainSeg_append_of {q : CQueue α} {k : Option Nat} {j : Nat} {t : List Nat} :
    ∀ {l : List Nat}, ChainSeg q l (some j) → ChainSeg q (j :: t) k →
      ChainSeg q (l ++ j :: t) k
  | [], _, h2 => h2
  | [i], h1, h2 => by
    exact show nextOf q i = some (some j) ∧ ChainSeg q (j :: t) k from ⟨h1, h2⟩
  | i :: i' :: l', h1, h2 => by
    have h1' : nextOf q i = some (some i') ∧ ChainSeg q (i' :: l') (some j) := h1
    exact show nextOf q i = some (some i') ∧
        ChainSeg q ((i' :: l') ++ j :: t) k from
      ⟨h1'.1, ChainSeg_append_of h1'.2 h2⟩

theorem ChainSeg_split_last {q : CQueue α} {k : Option Nat} {e : Nat} :
    ∀ {l : List Nat}, ChainSeg q (l ++ [e]) k →
      ChainSeg q l (some e) ∧ nextOf q e = some k
  | [], h => ⟨trivial, h⟩
  | [i], h => by
    have h' : nextOf q i = some (some e) ∧ ChainSeg q [e] k := h
    exact ⟨h'.1, h'.2⟩
  | i :: i' :: l', h => by
    have h' : nextOf q i = some (some i') ∧ ChainSeg q ((i' :: l') ++ [e]) k := h
    obtain ⟨hcs, hne⟩ := ChainSeg_split_last (l := i' :: l') h'.2
    exact ⟨show nextOf q i = some (some i') ∧ ChainSeg q (i' :: l') (some e) from
      ⟨h'.1, hcs⟩, hne⟩

end clemmas

/-- Shape of arena block `j` in a push-only state with `len` blocks:
cursors point into the block's own storage, used-start never moved,
every block but the last is full, the last is nonempty, and every cell
below the write cursor is constructed. -/
structure PBlk {α : Type} (len j : Nat) (b : MiniQueue α) : Prop where
  hbegin : b.mBegin = (j, 0)
  hend : b.mEnd = (j, b.cells.length)
  hused : b.mUsedBegin = (j, 0)
  hcurfst : b.mCurrent.1 = j
  hcurle : b.mCurrent.2 ≤ b.cells.length
  hcap : 0 < b.cells.length
  hnext : b.mNextQueue = if j + 1 < len then some (j + 1) else none
  hfullb : j + 1 < len → b.mCurrent.2 = b.cells.length
  hpos : j + 1 = len → 0 < b.mCurrent.2
  hfillc : ∀ i, i < b.mCurrent.2 → (b.cells.get? i).isSome

/-- Invariant of a queue reached from the empty queue by pushes alone,
holding exactly the pushed values `vs` in arena order. -/
structure PInv {α : Type} (q : CQueue α) (vs : List α) : Prop where
  hlen : 0 < q.blocks.length
  hq : q.mQueue = some 0
  hcur : q.mQueueCurrent = some (q.blocks.length - 1)
  hendp : q.mQueueEnd = some (q.blocks.length - 1)
  hblk : ∀ j, j < q.blocks.length → PBlk q.blocks.length j (bGet q j)
  hlive : liveOfChain q (List.range q.blocks.length) = vs.map some

section pushlemmas

variable {α : Type}

theorem Min_seg_ge8 (szT : Nat) : 8 ≤ Min_segment_size_eval szT := by
  unfold Min_segment_size_eval
  split
  · omega
  · split <;> omega

theorem qAllocCap_pos (szT requested current : Nat) :
    0 < qAllocCap szT requested current := by
  have h := Min_seg_ge8 szT
  have h2 := le_max_left (Min_segment_size_eval szT)
    (qCalculate_new_capacity szT requested - current)
  unfold qAllocCap
  omega

theorem take_set_eq {β : Type} (l : List β) (n : Nat) (x : β) :
    (l.set n x).take n = l.take n := by
  apply List.ext_get?
  intro m
  by_cases hm : m < n
  · rw [List.get?_take hm, List.get?_take hm, List.get?_set_ne _ _ (by omega)]
  · rw [List.get?_eq_none.2, List.get?_eq_none.2]
    · rw [List.length_take]
      omega
    · rw [List.length_take, List.length_set]
      omega

theorem size_walk_aux_some {q : CQueue α}
    (hblk : ∀ j, j < q.blocks.length → PBlk q.blocks.length j (bGet q j)) :
    ∀ (n : Nat), 0 < n → ∀ (i acc fuel : Nat), i + n = q.blocks.length → n ≤ fuel →
      ∃ s, size_walk_aux q fuel (some i) acc = some s := by
  intro n
  induction n with
  | zero => intro h; exact absurd h (by omega)
  | succ m ih =>
    intro _ i acc fuel hilen hfuel
    obtain ⟨fuel', rfl⟩ : ∃ f', fuel = f' + 1 := ⟨fuel - 1, by omega⟩
    have hi : i < q.blocks.length := by omega
    have hb := hblk i hi
    simp only [size_walk_aux]
    rw [get?_bGet hi]
    dsimp only
    rw [Get_mini_queue_used_size, subPtr, if_pos (by rw [hb.hcurfst, hb.hused])]
    dsimp only
    rw [hb.hnext]
    by_cases hlt : i + 1 < q.blocks.length
    · rw [if_pos hlt]
      exact ih (by omega) (i + 1) _ fuel' (by omega) (by omega)
    · rw [if_neg hlt]
      exact ⟨acc + ((bGet q i).mCurrent.2 - (bGet q i).mUsedBegin.2),
        by simp [size_walk_aux]⟩

theorem size_walk_some {q : CQueue α} {vs : List α} (hP : PInv q vs) :
    ∃ s, size_walk q = some s := by
  rw [size_walk, hP.hq]
  exact size_walk_aux_some hP.hblk q.blocks.length hP.hlen 0 0 (q.blocks.length + 1)
    (by omega) (by omega)

theorem Emplace_back_PInv_eq {q : CQueue α} {vs : List α} (hP : PInv q vs)
    (b : MiniQueue α)
    (hfull : (bGet q (q.blocks.length - 1)).mCurrent =
      (bGet q (q.blocks.length - 1)).mEnd) :
    Emplace_back_mini_queue q b =
      some ⟨(q.blocks ++ [b]).set (q.blocks.length - 1)
          { bGet q (q.blocks.length - 1) with mNextQueue := some q.blocks.length },
        some 0, some q.blocks.length, some q.blocks.length⟩ := by
  have he : q.blocks.length - 1 < q.blocks.length := by
    have := hP.hlen
    omega
  unfold Emplace_back_mini_queue
  rw [hP.hq]
  dsimp only
  rw [hP.hendp]
  dsimp only
  rw [List.get?_append he, get?_bGet he]
  dsimp only
  rw [hP.hcur]
  dsimp only
  rw [List.get?_set_eq_of_lt _ (by rw [List.length_append]; omega)]
  dsimp only
  rw [if_pos hfull]

theorem PInv_set_last {q : CQueue α} {vs : List α} (hP : PInv q vs) (a : α)
    (hflt : (bGet q (q.blocks.length - 1)).mCurrent.2 <
      (bGet q (q.blocks.length - 1)).cells.length) :
    PInv (⟨q.blocks.set (q.blocks.length - 1)
        { bGet q (q.blocks.length - 1) with
          cells := (bGet q (q.blocks.length - 1)).cells.set
            ((bGet q (q.blocks.length - 1)).mCurrent.2) (some a),
          mCurrent := ((bGet q (q.blocks.length - 1)).mCurrent.1,
            (bGet q (q.blocks.length - 1)).mCurrent.2 + 1) },
      q.mQueue, q.mQueueCurrent, q.mQueueEnd⟩ : CQueue α) (vs ++ [a]) := by
  have hlen := hP.hlen
  have he : q.blocks.length - 1 < q.blocks.length := by omega
  have hPe := hP.hblk _ he
  generalize hB : ({ bGet q (q.blocks.length - 1) with
      cells := (bGet q (q.blocks.length - 1)).cells.set
        ((bGet q (q.blocks.length - 1)).mCurrent.2) (some a),
      mCurrent := ((bGet q (q.blocks.length - 1)).mCurrent.1,
        (bGet q (q.blocks.length - 1)).mCurrent.2 + 1) } : MiniQueue α) = B
  have hBc : B.cells = (bGet q (q.blocks.length - 1)).cells.set
      ((bGet q (q.blocks.length - 1)).mCurrent.2) (some a) := by rw [← hB]
  have hBcur : B.mCurrent = ((bGet q (q.blocks.length - 1)).mCurrent.1,
      (bGet q (q.blocks.length - 1)).mCurrent.2 + 1) := by rw [← hB]
  have hBbeg : B.mBegin = (bGet q (q.blocks.length - 1)).mBegin := by rw [← hB]
  have hBused : B.mUsedBegin = (bGet q (q.blocks.length - 1)).mUsedBegin := by rw [← hB]
  have hBend : B.mEnd = (bGet q (q.blocks.length - 1)).mEnd := by rw [← hB]
  have hBnext : B.mNextQueue = (bGet q (q.blocks.length - 1)).mNextQueue := by rw [← hB]
  have hgj : ∀ j, j < q.blocks.length → j ≠ q.blocks.length - 1 →
      bGet (⟨q.blocks.set (q.blocks.length - 1) B,
        q.mQueue, q.mQueueCurrent, q.mQueueEnd⟩ : CQueue α) j = bGet q j := by
    intro j hj hne
    apply bGet_eq
    show (q.blocks.set (q.blocks.length - 1) B).get? j = _
    rw [List.get?_set_ne _ _ (fun hx => hne hx.symm)]
    exact get?_bGet hj
  have hge : bGet (⟨q.blocks.set (q.blocks.length - 1) B,
      q.mQueue, q.mQueueCurrent, q.mQueueEnd⟩ : CQueue α) (q.blocks.length - 1) = B := by
    apply bGet_eq
    show (q.blocks.set (q.blocks.length - 1) B).get? (q.blocks.length - 1) = some B
    rw [List.get?_set_eq_of_lt _ he]
  have hLL : ((⟨q.blocks.set (q.blocks.length - 1) B,
      q.mQueue, q.mQueueCurrent, q.mQueueEnd⟩ : CQueue α)).blocks.length =
      q.blocks.length := by
    dsimp only
    rw [List.length_set]
  refine ⟨?_, ?_, ?_, ?_, ?_, ?_⟩
  · rw [hLL]
    exact hlen
  · exact hP.hq
  · show q.mQueueCurrent = _
    rw [hLL]
    exact hP.hcur
  · show q.mQueueEnd = _
    rw [hLL]
    exact hP.hendp
  · intro j hj
    rw [hLL] at hj
    rw [hLL]
    by_cases hje : j = q.blocks.length - 1
    · subst hje
      rw [hge]
      refine ⟨?_, ?_, ?_, ?_, ?_, ?_, ?_, ?_, ?_, ?_⟩
      · rw [hBbeg, hPe.hbegin]
      · rw [hBend, hPe.hend, hBc, List.length_set]
      · rw [hBused, hPe.hused]
      · rw [hBcur]
        exact hPe.hcurfst
      · rw [hBcur, hBc]
        dsimp only
        rw [List.length_set]
        omega
      · rw [hBc, List.length_set]
        exact hPe.hcap
      · rw [hBnext, hPe.hnext]
      · intro hx
        exact absurd hx (by omega)
      · intro _
        rw [hBcur]
        dsimp only
        omega
      · intro i hi
        rw [hBcur] at hi
        dsimp only at hi
        rw [hBc]
        by_cases hic : i = (bGet q (q.blocks.length - 1)).mCurrent.2
        · subst hic
          rw [List.get?_set_eq_of_lt _ hflt]
          rfl
        · rw [List.get?_set_ne _ _ (fun hx => hic hx.symm)]
          exact hPe.hfillc i (by omega)
    · rw [hgj j hj hje]
      exact hP.hblk j hj
  · have hr : List.range q.blocks.length =
        List.range (q.blocks.length - 1) ++ [q.blocks.length - 1] := by
      conv_lhs => rw [show q.blocks.length = q.blocks.length - 1 + 1 from by omega]
      rw [List.range_succ]
    show liveOfChain _ (List.range
      ((⟨q.blocks.set (q.blocks.length - 1) B,
        q.mQueue, q.mQueueCurrent, q.mQueueEnd⟩ : CQueue α)).blocks.length) = _
    rw [hLL, hr, liveOfChain_append, liveOfChain_cons]
    have hcgr : liveOfChain (⟨q.blocks.set (q.blocks.length - 1) B,
        q.mQueue, q.mQueueCurrent, q.mQueueEnd⟩ : CQueue α)
        (List.range (q.blocks.length - 1)) =
        liveOfChain q (List.range (q.blocks.length - 1)) :=
      liveOfChain_congr (fun i hi => by
        rw [hgj i (by have := List.mem_range.mp hi; omega)
          (by have := List.mem_range.mp hi; omega)])
    rw [hcgr, hge]
    have hsl : liveSlice B =
        (bGet q (q.blocks.length - 1)).cells.take
          ((bGet q (q.blocks.length - 1)).mCurrent.2) ++ [some a] := by
      simp only [liveSlice]
      rw [hBused, hPe.hused, hBcur, hBc]
      dsimp only
      rw [List.drop_zero, Nat.sub_zero, List.take_succ, take_set_eq,
        ← List.get?_eq_getElem?, List.get?_set_eq_of_lt _ hflt]
      rfl
    have hse : liveSlice (bGet q (q.blocks.length - 1)) =
        (bGet q (q.blocks.length - 1)).cells.take
          ((bGet q (q.blocks.length - 1)).mCurrent.2) := by
      simp only [liveSlice]
      rw [hPe.hused]
      dsimp only
      rw [List.drop_zero, Nat.sub_zero]
    have hl := hP.hlive
    rw [hr, liveOfChain_append, liveOfChain_cons] at hl
    rw [hse] at hl
    have hnil : liveOfChain q ([] : List Nat) = [] := rfl
    rw [hnil, List.append_nil] at hl
    rw [hsl]
    have hnil2 : liveOfChain (⟨q.blocks.set (q.blocks.length - 1) B,
        q.mQueue, q.mQueueCurrent, q.mQueueEnd⟩ : CQueue α) ([] : List Nat) = [] := rfl
    rw [hnil2, List.append_nil, List.map_append, ← List.append_assoc, hl]
    rfl

theorem PInv_alloc {q : CQueue α} {vs : List α} (hP : PInv q vs) (a : α) (K : Nat)
    (hK : 0 < K)
    (hfull : (bGet q (q.blocks.length - 1)).mCurrent.2 =
      (bGet q (q.blocks.length - 1)).cells.length) :
    PInv (⟨((q.blocks ++ [(⟨List.replicate K none, (q.blocks.length, 0),
          (q.blocks.length, 0), (q.blocks.length, 0), (q.blocks.length, K), none⟩ : MiniQueue α)]).set
        (q.blocks.length - 1)
        { bGet q (q.blocks.length - 1) with mNextQueue := some q.blocks.length }).set
        q.blocks.length
        ⟨(List.replicate K none).set 0 (some a), (q.blocks.length, 0),
          (q.blocks.length, 0), (q.blocks.length, 1), (q.blocks.length, K), none⟩,
      some 0, some q.blocks.length, some q.blocks.length⟩ : CQueue α) (vs ++ [a]) := by
  have hlen := hP.hlen
  have he : q.blocks.length - 1 < q.blocks.length := by omega
  have hPe := hP.hblk _ he
  have hLL : ((⟨((q.blocks ++ [(⟨List.replicate K none, (q.blocks.length, 0),
          (q.blocks.length, 0), (q.blocks.length, 0), (q.blocks.length, K), none⟩ : MiniQueue α)]).set
        (q.blocks.length - 1)
        { bGet q (q.blocks.length - 1) with mNextQueue := some q.blocks.length }).set
        q.blocks.length
        ⟨(List.replicate K none).set 0 (some a), (q.blocks.length, 0),
          (q.blocks.length, 0), (q.blocks.length, 1), (q.blocks.length, K), none⟩,
      some 0, some q.blocks.length, some q.blocks.length⟩ : CQueue α)).blocks.length =
      q.blocks.length + 1 := by
    dsimp only
    rw [List.length_set, List.length_set, List.length_append]
    rfl
  have hgj : ∀ j, j < q.blocks.length → j ≠ q.blocks.length - 1 →
      bGet (⟨((q.blocks ++ [(⟨List.replicate K none, (q.blocks.length, 0),
          (q.blocks.length, 0), (q.blocks.length, 0), (q.blocks.length, K), none⟩ : MiniQueue α)]).set
        (q.blocks.length - 1)
        { bGet q (q.blocks.length - 1) with mNextQueue := some q.blocks.length }).set
        q.blocks.length
        ⟨(List.replicate K none).set 0 (some a), (q.blocks.length, 0),
          (q.blocks.length, 0), (q.blocks.length, 1), (q.blocks.length, K), none⟩,
      some 0, some q.blocks.length, some q.blocks.length⟩ : CQueue α) j = bGet q j := by
    intro j hj hne
    apply bGet_eq
    show ((_ : List (MiniQueue α)).set q.blocks.length _).get? j = _
    rw [List.get?_set_ne _ _ (by omega), List.get?_set_ne _ _ (fun hx => hne hx.symm),
      List.get?_append hj]
    exact get?_bGet hj
  have hgeLB :
      bGet (⟨((q.blocks ++ [(⟨List.replicate K none, (q.blocks.length, 0),
          (q.blocks.length, 0), (q.blocks.length, 0), (q.blocks.length, K), none⟩ : MiniQueue α)]).set
        (q.blocks.length - 1)
        { bGet q (q.blocks.length - 1) with mNextQueue := some q.blocks.length }).set
        q.blocks.length
        ⟨(List.replicate K none).set 0 (some a), (q.blocks.length, 0),
          (q.blocks.length, 0), (q.blocks.length, 1), (q.blocks.length, K), none⟩,
      some 0, some q.blocks.length, some q.blocks.length⟩ : CQueue α)
        (q.blocks.length - 1) =
      { bGet q (q.blocks.length - 1) with mNextQueue := some q.blocks.length } := by
    apply bGet_eq
    show ((_ : List (MiniQueue α)).set q.blocks.length _).get? (q.blocks.length - 1) = _
    rw [List.get?_set_ne _ _ (by omega), List.get?_set_eq_of_lt _
      (by simp only [List.length_append, List.length_cons, List.length_nil]; omega)]
  have hgeFB :
      bGet (⟨((q.blocks ++ [(⟨List.replicate K none, (q.blocks.length, 0),
          (q.blocks.length, 0), (q.blocks.length, 0), (q.blocks.length, K), none⟩ : MiniQueue α)]).set
        (q.blocks.length - 1)
        { bGet q (q.blocks.length - 1) with mNextQueue := some q.blocks.length }).set
        q.blocks.length
        ⟨(List.replicate K none).set 0 (some a), (q.blocks.length, 0),
          (q.blocks.length, 0), (q.blocks.length, 1), (q.blocks.length, K), none⟩,
      some 0, some q.blocks.length, some q.blocks.length⟩ : CQueue α)
        q.blocks.length =
      ⟨(List.replicate K none).set 0 (some a), (q.blocks.length, 0),
        (q.blocks.length, 0), (q.blocks.length, 1), (q.blocks.length, K), none⟩ := by
    apply bGet_eq
    show ((_ : List (MiniQueue α)).set q.blocks.length _).get? q.blocks.length = _
    rw [List.get?_set_eq_of_lt _
      (by simp only [List.length_set, List.length_append, List.length_cons,
        List.length_nil]; omega)]
  refine ⟨?_, ?_, ?_, ?_, ?_, ?_⟩
  · rw [hLL]
    omega
  · rfl
  · show some q.blocks.length = _
    rw [hLL]
    simp
  · show some q.blocks.length = _
    rw [hLL]
    simp
  · intro j hj
    rw [hLL] at hj
    rw [hLL]
    by_cases hjlen : j = q.blocks.length
    · subst hjlen
      rw [hgeFB]
      refine ⟨rfl, ?_, rfl, rfl, ?_, ?_, ?_, ?_, ?_, ?_⟩
      · show (q.blocks.length, K) = (q.blocks.length, ((List.replicate K none).set 0
          (some a)).length)
        rw [List.length_set, List.length_replicate]
      · show 1 ≤ ((List.replicate K none).set 0 (some a)).length
        rw [List.length_set, List.length_replicate]
        omega
      · show 0 < ((List.replicate K none).set 0 (some a)).length
        rw [List.length_set, List.length_replicate]
        omega
      · show (none : Option Nat) = _
        rw [if_neg (by omega)]
      · intro hx
        exact absurd hx (by omega)
      · intro _
        show 0 < (q.blocks.length, 1).2
        omega
      · intro i hi
        show (((List.replicate K none).set 0 (some a)).get? i).isSome
        have hi0 : i = 0 := by
          have : i < (q.blocks.length, 1).2 := hi
          omega
        subst hi0
        rw [List.get?_set_eq_of_lt _ (by rw [List.length_replicate]; omega)]
        rfl
    · by_cases hje : j = q.blocks.length - 1
      · subst hje
        rw [hgeLB]
        refine ⟨?_, ?_, ?_, ?_, ?_, ?_, ?_, ?_, ?_, ?_⟩
        · rw [show ({ bGet q (q.blocks.length - 1) with
            mNextQueue := some q.blocks.length } : MiniQueue α).mBegin =
            (bGet q (q.blocks.length - 1)).mBegin from rfl, hPe.hbegin]
        · rw [show ({ bGet q (q.blocks.length - 1) with
            mNextQueue := some q.blocks.length } : MiniQueue α).mEnd =
            (bGet q (q.blocks.length - 1)).mEnd from rfl, hPe.hend]
        · rw [show ({ bGet q (q.blocks.length - 1) with
            mNextQueue := some q.blocks.length } : MiniQueue α).mUsedBegin =
            (bGet q (q.blocks.length - 1)).mUsedBegin from rfl, hPe.hused]
        · exact hPe.hcurfst
        · exact hPe.hcurle
        · exact hPe.hcap
        · show some q.blocks.length = _
          rw [if_pos (by omega)]
          congr 1
          omega
        · intro _
          exact hfull
        · intro hx
          exact absurd hx (by omega)
        · exact hPe.hfillc
      · have hj' : j < q.blocks.length := by omega
        rw [hgj j hj' hje]
        have hPj := hP.hblk j hj'
        have hjlt : j + 1 < q.blocks.length := by omega
        refine ⟨hPj.hbegin, hPj.hend, hPj.hused, hPj.hcurfst, hPj.hcurle, hPj.hcap,
          ?_, ?_, ?_, hPj.hfillc⟩
        · rw [hPj.hnext, if_pos hjlt, if_pos (by omega)]
        · intro _
          exact hPj.hfullb hjlt
        · intro hx
          exact absurd hx (by omega)
  · rw [hLL, List.range_succ, liveOfChain_append, liveOfChain_cons]
    have hcgr : liveOfChain (⟨((q.blocks ++ [(⟨List.replicate K none, (q.blocks.length, 0),
          (q.blocks.length, 0), (q.blocks.length, 0), (q.blocks.length, K), none⟩ : MiniQueue α)]).set
        (q.blocks.length - 1)
        { bGet q (q.blocks.length - 1) with mNextQueue := some q.blocks.length }).set
        q.blocks.length
        ⟨(List.replicate K none).set 0 (some a), (q.blocks.length, 0),
          (q.blocks.length, 0), (q.blocks.length, 1), (q.blocks.length, K), none⟩,
      some 0, some q.blocks.length, some q.blocks.length⟩ : CQueue α)
        (List.range q.blocks.length) =
        liveOfChain q (List.range q.blocks.length) :=
      liveOfChain_congr (fun i hi => by
        have hilt : i < q.blocks.length := List.mem_range.mp hi
        by_cases hie : i = q.blocks.length - 1
        · subst hie
          rw [hgeLB]
          rfl
        · rw [hgj i hilt hie])
    rw [hcgr, hgeFB, hP.hlive]
    have hslF : liveSlice (⟨(List.replicate K none).set 0 (some a), (q.blocks.length, 0),
        (q.blocks.length, 0), (q.blocks.length, 1), (q.blocks.length, K), none⟩ :
        MiniQueue α) = [some a] := by
      simp only [liveSlice]
      rw [List.drop_zero, Nat.sub_zero, List.take_succ, take_set_eq,
        ← List.get?_eq_getElem?,
        List.get?_set_eq_of_lt _ (by rw [List.length_replicate]; omega)]
      rfl
    rw [hslF, List.map_append]
    rfl

theorem push_base (szT : Nat) (a : α) :
    ∃ q', Internal_push szT (pristineQ α) a = some q' ∧ PInv q' [a] := by
  have hM : (0 : Nat) < qAllocCap szT 1 0 := qAllocCap_pos szT 1 0
  refine ⟨⟨[⟨(List.replicate (qAllocCap szT 1 0) none).set 0 (some a), (0, 0), (0, 0),
      (0, 1), (0, qAllocCap szT 1 0), none⟩], some 0, some 0, some 0⟩, ?_, ?_⟩
  · simp [Internal_push, pristineQ, Emplace_back_mini_queue, Allocate_mini_queue,
      writePtr, List.length_replicate, hM]
  · refine ⟨by simp, rfl, rfl, rfl, ?_, ?_⟩
    · show ∀ j, j < 1 → PBlk 1 j _
      intro j hj
      have hj0 : j = 0 := by omega
      subst hj0
      refine ⟨rfl, ?_, rfl, rfl, ?_, ?_, ?_, ?_, ?_, ?_⟩
      · show ((0 : Nat), qAllocCap szT 1 0) = (0, ((List.replicate (qAllocCap szT 1 0)
          (none : Option α)).set 0 (some a)).length)
        rw [List.length_set, List.length_replicate]
      · show 1 ≤ ((List.replicate (qAllocCap szT 1 0) (none : Option α)).set 0
          (some a)).length
        rw [List.length_set, List.length_replicate]
        omega
      · show 0 < ((List.replicate (qAllocCap szT 1 0) (none : Option α)).set 0
          (some a)).length
        rw [List.length_set, List.length_replicate]
        exact hM
      · show (none : Option Nat) = _
        rw [if_neg (by omega)]
      · intro hx
        exact absurd hx (by omega)
      · intro _
        show (0 : Nat) < 1
        omega
      · intro i hi
        show (((List.replicate (qAllocCap szT 1 0) (none : Option α)).set 0
          (some a)).get? i).isSome
        have hi0 : i = 0 := by
          have : i < 1 := hi
          omega
        subst hi0
        rw [List.get?_set_eq_of_lt _ (by rw [List.length_replicate]; exact hM)]
        rfl
    · show liveOfChain _ (List.range 1) = _
      rw [show List.range 1 = [0] from rfl, liveOfChain_cons]
      have hsl : liveSlice (bGet (⟨[⟨(List.replicate (qAllocCap szT 1 0) none).set 0
          (some a), (0, 0), (0, 0), (0, 1), (0, qAllocCap szT 1 0), none⟩],
          some 0, some 0, some 0⟩ : CQueue α) 0) = [some a] := by
        simp only [liveSlice]
        show ((((List.replicate (qAllocCap szT 1 0) (none : Option α)).set 0
          (some a)).drop 0).take (1 - 0)) = [some a]
        rw [List.drop_zero, Nat.sub_zero, List.take_succ, take_set_eq,
          ← List.get?_eq_getElem?,
          List.get?_set_eq_of_lt _ (by rw [List.length_replicate]; exact hM)]
        rfl
      rw [hsl]
      rfl

theorem push_step {szT : Nat} {q : CQueue α} {vs : List α} (hP : PInv q vs) (a : α) :
    ∃ q', Internal_push szT q a = some q' ∧ PInv q' (vs ++ [a]) := by
  have hlen := hP.hlen
  have he : q.blocks.length - 1 < q.blocks.length := by omega
  have hPe := hP.hblk _ he
  have hcond : q.mQueueEnd = q.mQueueCurrent := by rw [hP.hendp, hP.hcur]
  have hqn : ¬(q.mQueue = none) := by rw [hP.hq]; simp
  by_cases hfull : (bGet q (q.blocks.length - 1)).mCurrent.2 =
      (bGet q (q.blocks.length - 1)).cells.length
  · -- the last block is full: a new block is allocated and written
    obtain ⟨s, hs⟩ := size_walk_some hP
    have hfullp : (bGet q (q.blocks.length - 1)).mCurrent =
        (bGet q (q.blocks.length - 1)).mEnd := by
      rw [hPe.hend]
      exact Prod.ext hPe.hcurfst hfull
    have hK : 0 < qAllocCap szT (s + 1) s := qAllocCap_pos szT (s + 1) s
    have hnb : Allocate_mini_queue szT q (s + 1) s =
        ⟨List.replicate (qAllocCap szT (s + 1) s) none, (q.blocks.length, 0),
          (q.blocks.length, 0), (q.blocks.length, 0),
          (q.blocks.length, qAllocCap szT (s + 1) s), none⟩ := rfl
    have hemp := Emplace_back_PInv_eq hP (Allocate_mini_queue szT q (s + 1) s) hfullp
    refine ⟨⟨((q.blocks ++ [(⟨List.replicate (qAllocCap szT (s + 1) s) none,
        (q.blocks.length, 0), (q.blocks.length, 0), (q.blocks.length, 0),
        (q.blocks.length, qAllocCap szT (s + 1) s), none⟩ : MiniQueue α)]).set
        (q.blocks.length - 1)
        { bGet q (q.blocks.length - 1) with mNextQueue := some q.blocks.length }).set
        q.blocks.length
        ⟨(List.replicate (qAllocCap szT (s + 1) s) none).set 0 (some a),
          (q.blocks.length, 0), (q.blocks.length, 0), (q.blocks.length, 1),
          (q.blocks.length, qAllocCap szT (s + 1) s), none⟩,
      some 0, some q.blocks.length, some q.blocks.length⟩, ?_,
      PInv_alloc hP a (qAllocCap szT (s + 1) s) hK hfull⟩
    unfold Internal_push
    rw [if_pos hcond, if_neg hqn, hP.hcur]
    dsimp only
    rw [get?_bGet he]
    dsimp only
    rw [if_pos hfullp, hs]
    dsimp only
    rw [hemp, hnb]
    dsimp only
    rw [List.get?_set_ne _ _ (by omega), List.get?_concat_length]
    dsimp only
    simp only [writePtr]
    rw [List.get?_set_ne _ _ (by omega), List.get?_concat_length]
    dsimp only
    rw [if_pos (show ((0 : Nat)) < (List.replicate (qAllocCap szT (s + 1) s)
      (none : Option α)).length by rw [List.length_replicate]; exact hK)]
    dsimp only
    rw [List.get?_set_eq_of_lt _ (by
      simp only [List.length_set, List.length_append, List.length_cons, List.length_nil]
      omega)]
    dsimp only
    rw [List.get?_set_eq_of_lt _ (by
      simp only [List.length_set, List.length_append, List.length_cons, List.length_nil]
      omega)]
    dsimp only
    rw [if_neg (fun hx => hx.2 rfl)]
    rw [List.set_set]
  · -- room remains in the last block: in-place construct + cursor bump
    have hflt : (bGet q (q.blocks.length - 1)).mCurrent.2 <
        (bGet q (q.blocks.length - 1)).cells.length := lt_of_le_of_ne hPe.hcurle hfull
    have hne : ¬((bGet q (q.blocks.length - 1)).mCurrent =
        (bGet q (q.blocks.length - 1)).mEnd) := by
      rw [hPe.hend]
      intro hx
      exact hfull (congrArg Prod.snd hx)
    have hwb : q.blocks.get? ((bGet q (q.blocks.length - 1)).mCurrent.1) =
        some (bGet q (q.blocks.length - 1)) := by
      rw [hPe.hcurfst]
      exact get?_bGet he
    have hwp := writePtr_some_eq (p := (bGet q (q.blocks.length - 1)).mCurrent)
      (x := some a) hwb hflt
    rw [hPe.hcurfst] at hwp
    refine ⟨⟨q.blocks.set (q.blocks.length - 1)
        { bGet q (q.blocks.length - 1) with
          cells := (bGet q (q.blocks.length - 1)).cells.set
            ((bGet q (q.blocks.length - 1)).mCurrent.2) (some a),
          mCurrent := ((bGet q (q.blocks.length - 1)).mCurrent.1,
            (bGet q (q.blocks.length - 1)).mCurrent.2 + 1) },
      q.mQueue, q.mQueueCurrent, q.mQueueEnd⟩, ?_, PInv_set_last hP a hflt⟩
    unfold Internal_push
    rw [if_pos hcond, if_neg hqn, hP.hcur]
    dsimp only
    rw [get?_bGet he]
    dsimp only
    rw [if_neg hne]
    dsimp only
    rw [hP.hcur]
    dsimp only
    rw [get?_bGet he]
    dsimp only
    rw [hwp]
    dsimp only
    rw [List.get?_set_eq_of_lt _ he]
    dsimp only
    rw [List.get?_set_eq_of_lt _ (by rw [List.length_set]; exact he)]
    dsimp only
    rw [if_neg (fun hx => hx.2 (hP.hcur.trans hP.hendp.symm))]
    rw [List.set_set, hP.hcur]

theorem pushSeq_PInv {szT : Nat} :
    ∀ (ts : List α) {q : CQueue α} {ws : List α}, PInv q ws →
      ∃ q', pushSeqQ szT q ts = some q' ∧ PInv q' (ws ++ ts) := by
  intro ts
  induction ts with
  | nil =>
    intro q ws hP
    exact ⟨q, by simp [pushSeqQ], by rw [List.append_nil]; exact hP⟩
  | cons a ts ih =>
    intro q ws hP
    obtain ⟨q₁, h₁, hP₁⟩ := push_step hP a
    obtain ⟨q', h', hP'⟩ := ih hP₁
    refine ⟨q', ?_, ?_⟩
    · simp only [pushSeqQ, List.foldlM_cons]
      rw [h₁]
      exact h'
    · rw [show ws ++ a :: ts = (ws ++ [a]) ++ ts from by simp]
      exact hP'

theorem pushAll_PInv {szT : Nat} {vs : List α} (hne : vs ≠ []) :
    ∃ q, pushSeqQ szT (pristineQ α) vs = some q ∧ PInv q vs := by
  cases vs with
  | nil => exact absurd rfl hne
  | cons a ts =>
    obtain ⟨q₁, h₁, hP₁⟩ := push_base szT a
    obtain ⟨q', h', hP'⟩ := pushSeq_PInv ts hP₁
    refine ⟨q', ?_, ?_⟩
    · simp only [pushSeqQ, List.foldlM_cons]
      rw [h₁]
      exact h'
    · simpa using hP'

end pushlemmas

/-- Shape of a block that stands anywhere in the live chain: its cursors
point into its own storage and every cell between the used-start cursor
and the write cursor is constructed. -/
structure WBlk {α : Type} (j : Nat) (b : MiniQueue α) : Prop where
  hbegin : b.mBegin = (j, 0)
  hend : b.mEnd = (j, b.cells.length)
  husedfst : b.mUsedBegin.1 = j
  hcurfst : b.mCurrent.1 = j
  hle : b.mUsedBegin.2 ≤ b.mCurrent.2
  hcurle : b.mCurrent.2 ≤ b.cells.length
  hcap : 0 < b.cells.length
  hfill : ∀ i, b.mUsedBegin.2 ≤ i → i < b.mCurrent.2 → (b.cells.get? i).isSome

/-- A completely filled, not yet consumed block. -/
def fullB {α : Type} (j : Nat) (b : MiniQueue α) : Prop :=
  WBlk j b ∧ b.mUsedBegin = (j, 0) ∧ b.mCurrent = (j, b.cells.length)

/-- A partially filled, not yet consumed block. -/
def partB {α : Type} (j : Nat) (b : MiniQueue α) : Prop :=
  WBlk j b ∧ b.mUsedBegin = (j, 0) ∧ 0 < b.mCurrent.2

/-- A recycled (reset) block waiting at the tail. -/
def recyB {α : Type} (j : Nat) (b : MiniQueue α) : Prop :=
  WBlk j b ∧ b.mUsedBegin = (j, 0) ∧ b.mCurrent = (j, 0)

/-- Pop-phase representation: the chain starts at head `h`, continues
with full blocks `F`, at most one partial block `P`, and recycled blocks
`R`, and the concatenated live cells spell out `vs`. -/
structure QRepC {α : Type} (q : CQueue α) (h : Nat) (rest F P R : List Nat)
    (vs : List α) : Prop where
  hq : q.mQueue = some h
  hdec : rest = F ++ P ++ R
  hchain : ChainSeg q (h :: rest) none
  hnodup : (h :: rest).Nodup
  hbound : ∀ i ∈ h :: rest, i < q.blocks.length
  hendp : q.mQueueEnd = (h :: rest).getLast?
  hhead : WBlk h (bGet q h)
  hF : ∀ f ∈ F, fullB f (bGet q f)
  hPp : P = [] ∨ ∃ p, P = [p] ∧ partB p (bGet q p)
  hR : ∀ r ∈ R, recyB r (bGet q r)
  hcond : F ++ P ≠ [] → (bGet q h).mCurrent.2 = (bGet q h).cells.length ∧
    (bGet q h).mUsedBegin.2 < (bGet q h).cells.length
  hlive : liveOfChain q (h :: rest) = vs.map some

/-- Abstract queue representation: either empty-and-null or a well-formed
chain carrying `vs`. -/
def QRep {α : Type} (q : CQueue α) (vs : List α) : Prop :=
  (q.mQueue = none ∧ vs = []) ∨ ∃ h rest F P R, QRepC q h rest F P R vs

section poplemmas

variable {α : Type}

theorem PBlk_to_WBlk {len j : Nat} {b : MiniQueue α} (hb : PBlk len j b) : WBlk j b := by
  refine ⟨hb.hbegin, hb.hend, ?_, hb.hcurfst, ?_, hb.hcurle, hb.hcap, ?_⟩
  · rw [hb.hused]
  · rw [hb.hused]
    exact Nat.zero_le _
  · intro i _ hi
    exact hb.hfillc i hi

theorem ChainSeg_range' {q : CQueue α} (len : Nat)
    (hnx : ∀ j, j < len → nextOf q j =
      some (if j + 1 < len then some (j + 1) else none)) :
    ∀ (n s : Nat), s + n = len → 0 < n → ChainSeg q (List.range' s n) none := by
  intro n
  induction n with
  | zero =>
    intro s _ h0
    exact absurd h0 (by omega)
  | succ m ih =>
    intro s hsn _
    rw [List.range'_succ]
    cases m with
    | zero =>
      show nextOf q s = some none
      rw [hnx s (by omega), if_neg (by omega)]
    | succ m' =>
      rw [List.range'_succ]
      show nextOf q s = some (some (s + 1)) ∧
        ChainSeg q ((s + 1) :: List.range' (s + 1 + 1) m') none
      constructor
      · rw [hnx s (by omega), if_pos (by omega)]
      · have hr := ih (s + 1) (by omega) (by omega)
        rw [List.range'_succ] at hr
        exact hr

theorem getLast?_range' (s : Nat) : ∀ n, 0 < n →
    (List.range' s n).getLast? = some (s + n - 1) := by
  intro n h0
  obtain ⟨m, rfl⟩ : ∃ m, n = m + 1 := ⟨n - 1, by omega⟩
  rw [List.range'_concat, List.getLast?_concat]
  congr 1
  omega

theorem PInv_to_QRep {q : CQueue α} {vs : List α} (hP : PInv q vs) : QRep q vs := by
  have hlen := hP.hlen
  have hnx : ∀ j, j < q.blocks.length → nextOf q j =
      some (if j + 1 < q.blocks.length then some (j + 1) else none) := by
    intro j hj
    simp only [nextOf]
    rw [get?_bGet hj]
    simp only [Option.map_some']
    rw [(hP.hblk j hj).hnext]
  right
  by_cases h1 : q.blocks.length = 1
  · refine ⟨0, [], [], [], [], ?_, rfl, ?_, by simp, ?_, ?_,
      PBlk_to_WBlk (hP.hblk 0 (by omega)), by simp, Or.inl rfl, by simp, ?_, ?_⟩
    · exact hP.hq
    · show nextOf q 0 = some none
      rw [hnx 0 (by omega), if_neg (by omega)]
    · intro i hi
      have : i = 0 := by simpa using hi
      omega
    · rw [hP.hendp, h1]
      rfl
    · intro hx
      exact absurd rfl hx
    · have hl := hP.hlive
      rw [h1] at hl
      exact hl
  · have h2 : 2 ≤ q.blocks.length := by omega
    have hch : (0 :: List.range' 1 (q.blocks.length - 1)) =
        List.range' 0 q.blocks.length := by
      conv_rhs => rw [show q.blocks.length = q.blocks.length - 1 + 1 from by omega,
        List.range'_succ]
    refine ⟨0, List.range' 1 (q.blocks.length - 1),
      List.range' 1 (q.blocks.length - 2), [q.blocks.length - 1], [],
      hP.hq, ?_, ?_, ?_, ?_, ?_,
      PBlk_to_WBlk (hP.hblk 0 (by omega)), ?_, ?_, by simp, ?_, ?_⟩
    · rw [List.append_nil,
        show q.blocks.length - 1 = q.blocks.length - 2 + 1 from by omega,
        List.range'_concat]
      congr 1
      congr 1
      omega
    · rw [hch]
      exact ChainSeg_range' q.blocks.length hnx q.blocks.length 0 (by omega) (by omega)
    · rw [hch]
      exact List.nodup_range' 0 q.blocks.length
    · intro i hi
      rw [hch] at hi
      have := List.mem_range'_1.mp hi
      omega
    · rw [hP.hendp, hch, getLast?_range' 0 q.blocks.length (by omega)]
      congr 1
      omega
    · intro f hf
      have hf' := List.mem_range'_1.mp hf
      have hflt : f < q.blocks.length := by omega
      have hPf := hP.hblk f hflt
      exact ⟨PBlk_to_WBlk hPf, hPf.hused,
        Prod.ext hPf.hcurfst (hPf.hfullb (by omega))⟩
    · refine Or.inr ⟨q.blocks.length - 1, rfl, ?_⟩
      have hPl := hP.hblk (q.blocks.length - 1) (by omega)
      exact ⟨PBlk_to_WBlk hPl, hPl.hused, hPl.hpos (by omega)⟩
    · intro _
      have hP0 := hP.hblk 0 (by omega)
      refine ⟨hP0.hfullb (by omega), ?_⟩
      rw [hP0.hused]
      exact hP0.hcap
    · rw [hch]
      have hl := hP.hlive
      rw [List.range_eq_range'] at hl
      exact hl

theorem drop_set_eq {β : Type} (l : List β) {n m : Nat} (h : n < m) (x : β) :
    (l.set n x).drop m = l.drop m := by
  apply List.ext_get?
  intro k
  rw [List.get?_drop, List.get?_drop, List.get?_set_ne _ _ (by omega)]

theorem ChainSeg_cons_tail {q : CQueue α} {k : Option Nat} {x : Nat} :
    ∀ {l : List Nat}, ChainSeg q (x :: l) k → ChainSeg q l k
  | [], _ => trivial
  | y :: t, hc => by
    have hc' : nextOf q x = some (some y) ∧ ChainSeg q (y :: t) k := hc
    exact hc'.2

theorem WBlk_of_fields {j : Nat} {b b' : MiniQueue α} (hc : b'.cells = b.cells)
    (h1 : b'.mBegin = b.mBegin) (h2 : b'.mUsedBegin = b.mUsedBegin)
    (h3 : b'.mCurrent = b.mCurrent) (h4 : b'.mEnd = b.mEnd) (hb : WBlk j b) :
    WBlk j b' := by
  refine ⟨?_, ?_, ?_, ?_, ?_, ?_, ?_, ?_⟩
  · rw [h1, hb.hbegin]
  · rw [h4, hc, hb.hend]
  · rw [h2, hb.husedfst]
  · rw [h3, hb.hcurfst]
  · rw [h2, h3]
    exact hb.hle
  · rw [h3, hc]
    exact hb.hcurle
  · rw [hc]
    exact hb.hcap
  · intro i hi1 hi2
    rw [h2] at hi1
    rw [h3] at hi2
    rw [hc]
    exact hb.hfill i hi1 hi2

theorem fullB_of_fields {j : Nat} {b b' : MiniQueue α} (hc : b'.cells = b.cells)
    (h1 : b'.mBegin = b.mBegin) (h2 : b'.mUsedBegin = b.mUsedBegin)
    (h3 : b'.mCurrent = b.mCurrent) (h4 : b'.mEnd = b.mEnd) (hb : fullB j b) :
    fullB j b' := by
  refine ⟨WBlk_of_fields hc h1 h2 h3 h4 hb.1, ?_, ?_⟩
  · rw [h2]
    exact hb.2.1
  · rw [h3, hc]
    exact hb.2.2

theorem partB_of_fields {j : Nat} {b b' : MiniQueue α} (hc : b'.cells = b.cells)
    (h1 : b'.mBegin = b.mBegin) (h2 : b'.mUsedBegin = b.mUsedBegin)
    (h3 : b'.mCurrent = b.mCurrent) (h4 : b'.mEnd = b.mEnd) (hb : partB j b) :
    partB j b' := by
  refine ⟨WBlk_of_fields hc h1 h2 h3 h4 hb.1, ?_, ?_⟩
  · rw [h2]
    exact hb.2.1
  · rw [h3]
    exact hb.2.2

theorem recyB_of_fields {j : Nat} {b b' : MiniQueue α} (hc : b'.cells = b.cells)
    (h1 : b'.mBegin = b.mBegin) (h2 : b'.mUsedBegin = b.mUsedBegin)
    (h3 : b'.mCurrent = b.mCurrent) (h4 : b'.mEnd = b.mEnd) (hb : recyB j b) :
    recyB j b' := by
  refine ⟨WBlk_of_fields hc h1 h2 h3 h4 hb.1, ?_, ?_⟩
  · rw [h2]
    exact hb.2.1
  · rw [h3]
    exact hb.2.2

theorem liveSlice_of_fields {b b' : MiniQueue α} (hc : b'.cells = b.cells)
    (h2 : b'.mUsedBegin = b.mUsedBegin) (h3 : b'.mCurrent = b.mCurrent) :
    liveSlice b' = liveSlice b := by
  simp only [liveSlice]
  rw [hc, h2, h3]

theorem recyB_liveSlice {j : Nat} {b : MiniQueue α} (hb : recyB j b) :
    liveSlice b = [] := by
  simp only [liveSlice]
  rw [hb.2.2, hb.2.1]
  rfl

theorem pop_step_nil {q : CQueue α} (hQ : QRep q []) :
    try_pop q = some (q, none) ∧ emptyQ q = some true := by
  rcases hQ with ⟨hn, -⟩ | ⟨h, rest, F, P, R, hC⟩
  · constructor
    · unfold try_pop
      rw [hn]
    · unfold emptyQ
      rw [hn]
  · have hb : h < q.blocks.length := hC.hbound h (by simp)
    have hget := get?_bGet hb
    have hw := hC.hhead
    have hsl : liveSlice (bGet q h) = [] := by
      have hl := hC.hlive
      rw [liveOfChain_cons] at hl
      simp only [List.map_nil] at hl
      exact List.append_eq_nil.mp hl |>.1
    have hueq : (bGet q h).mCurrent.2 = (bGet q h).mUsedBegin.2 := by
      have hlen := congrArg List.length hsl
      simp only [liveSlice, List.length_take, List.length_drop, List.length_nil] at hlen
      have h1 := hw.hle
      have h2 := hw.hcurle
      omega
    have hcueq : (bGet q h).mCurrent = (bGet q h).mUsedBegin :=
      Prod.ext (hw.hcurfst.trans hw.husedfst.symm) hueq
    constructor
    · unfold try_pop
      rw [hC.hq]
      dsimp only
      rw [hget]
      dsimp only
      rw [if_pos hcueq]
    · unfold emptyQ
      rw [hC.hq]
      dsimp only
      rw [hget]
      simp [hcueq]

theorem QRep_pop_advance {q : CQueue α} {h : Nat} {rest F P R : List Nat} {v : α}
    {t : List α} (hC : QRepC q h rest F P R (v :: t))
    (hkey : (bGet q h).mUsedBegin.2 < (bGet q h).mCurrent.2 ∧
      (bGet q h).mUsedBegin.2 < (bGet q h).cells.length)
    (hnd : (bGet q h).mUsedBegin.2 + 1 ≠ (bGet q h).cells.length)
    (hl1 : ((bGet q h).cells.drop ((bGet q h).mUsedBegin.2 + 1)).take
        ((bGet q h).mCurrent.2 - (bGet q h).mUsedBegin.2 - 1) ++
      liveOfChain q rest = t.map some) :
    QRep (⟨q.blocks.set h
        { cells := (bGet q h).cells.set ((bGet q h).mUsedBegin.2) none,
          mBegin := (bGet q h).mBegin,
          mUsedBegin := ((bGet q h).mUsedBegin.1, (bGet q h).mUsedBegin.2 + 1),
          mCurrent := (bGet q h).mCurrent, mEnd := (bGet q h).mEnd,
          mNextQueue := (bGet q h).mNextQueue },
      q.mQueue, q.mQueueCurrent, q.mQueueEnd⟩ : CQueue α) t := by
  have hb : h < q.blocks.length := hC.hbound h (by simp)
  have hw := hC.hhead
  have hnotin : h ∉ rest := (List.nodup_cons.mp hC.hnodup).1
  generalize hY : ((⟨(bGet q h).cells.set ((bGet q h).mUsedBegin.2) none,
      (bGet q h).mBegin,
      ((bGet q h).mUsedBegin.1, (bGet q h).mUsedBegin.2 + 1),
      (bGet q h).mCurrent, (bGet q h).mEnd,
      (bGet q h).mNextQueue⟩ : MiniQueue α)) = Y
  have hYc : Y.cells = (bGet q h).cells.set ((bGet q h).mUsedBegin.2) none := by
    rw [← hY]
  have hYb : Y.mBegin = (bGet q h).mBegin := by rw [← hY]
  have hYu : Y.mUsedBegin = ((bGet q h).mUsedBegin.1, (bGet q h).mUsedBegin.2 + 1) := by
    rw [← hY]
  have hYcur : Y.mCurrent = (bGet q h).mCurrent := by rw [← hY]
  have hYe : Y.mEnd = (bGet q h).mEnd := by rw [← hY]
  have hYn : Y.mNextQueue = (bGet q h).mNextQueue := by rw [← hY]
  have hbg : bGet (⟨q.blocks.set h Y, q.mQueue, q.mQueueCurrent, q.mQueueEnd⟩ :
      CQueue α) h = Y := by
    apply bGet_eq
    show (q.blocks.set h Y).get? h = some Y
    rw [List.get?_set_eq_of_lt _ hb]
  have hbo : ∀ i, i ∈ rest → bGet (⟨q.blocks.set h Y, q.mQueue, q.mQueueCurrent,
      q.mQueueEnd⟩ : CQueue α) i = bGet q i := by
    intro i hi
    have hih : i ≠ h := fun hx => hnotin (hx ▸ hi)
    apply bGet_eq
    show (q.blocks.set h Y).get? i = _
    rw [List.get?_set_ne _ _ (fun hx => hih hx.symm)]
    exact get?_bGet (hC.hbound i (by simp [hi]))
  have hnx : ∀ i, nextOf (⟨q.blocks.set h Y, q.mQueue, q.mQueueCurrent, q.mQueueEnd⟩ :
      CQueue α) i = nextOf q i := by
    intro i
    show ((q.blocks.set h Y).get? i).map _ = (q.blocks.get? i).map _
    by_cases hih : i = h
    · subst hih
      rw [List.get?_set_eq_of_lt _ hb, get?_bGet hb]
      simp only [Option.map_some']
      rw [hYn]
    · rw [List.get?_set_ne _ _ (fun hx => hih hx.symm)]
  right
  refine ⟨h, rest, F, P, R, hC.hq, hC.hdec, ?_, hC.hnodup, ?_, hC.hendp, ?_, ?_, ?_,
    ?_, ?_, ?_⟩
  · exact ChainSeg_congr (fun i _ => hnx i) hC.hchain
  · intro i hi
    show i < (q.blocks.set h Y).length
    rw [List.length_set]
    exact hC.hbound i hi
  · rw [hbg]
    refine ⟨?_, ?_, ?_, ?_, ?_, ?_, ?_, ?_⟩
    · rw [hYb, hw.hbegin]
    · rw [hYe, hYc, List.length_set, hw.hend]
    · rw [hYu]
      exact hw.husedfst
    · rw [hYcur]
      exact hw.hcurfst
    · rw [hYu, hYcur]
      exact hkey.1
    · rw [hYcur, hYc, List.length_set]
      exact hw.hcurle
    · rw [hYc, List.length_set]
      exact hw.hcap
    · intro i h1 h2
      rw [hYu] at h1
      rw [hYcur] at h2
      have h1' : (bGet q h).mUsedBegin.2 + 1 ≤ i := h1
      have h2' : i < (bGet q h).mCurrent.2 := h2
      rw [hYc, List.get?_set_ne _ _ (by omega)]
      exact hw.hfill i (by omega) h2'
  · intro f hf
    rw [hbo f (by rw [hC.hdec]; exact List.mem_append_left _ (List.mem_append_left _ hf))]
    exact hC.hF f hf
  · rcases hC.hPp with hP0 | ⟨p, hp, hpart⟩
    · exact Or.inl hP0
    · refine Or.inr ⟨p, hp, ?_⟩
      rw [hbo p (by rw [hC.hdec, hp]; simp)]
      exact hpart
  · intro r hr
    rw [hbo r (by rw [hC.hdec]; exact List.mem_append_right _ hr)]
    exact hC.hR r hr
  · intro hfp
    obtain ⟨hc1, -⟩ := hC.hcond hfp
    constructor
    · rw [hbg, hYcur, hYc, List.length_set]
      exact hc1
    · rw [hbg, hYu, hYc, List.length_set]
      show (bGet q h).mUsedBegin.2 + 1 < (bGet q h).cells.length
      have := hkey.2
      omega
  · rw [liveOfChain_cons, hbg]
    have hcgr : liveOfChain (⟨q.blocks.set h Y, q.mQueue, q.mQueueCurrent,
        q.mQueueEnd⟩ : CQueue α) rest = liveOfChain q rest :=
      liveOfChain_congr (fun i hi => by rw [hbo i hi])
    have hslY : liveSlice Y =
        ((bGet q h).cells.drop ((bGet q h).mUsedBegin.2 + 1)).take
          ((bGet q h).mCurrent.2 - (bGet q h).mUsedBegin.2 - 1) := by
      simp only [liveSlice]
      rw [hYc, hYu, hYcur]
      show (((bGet q h).cells.set ((bGet q h).mUsedBegin.2) none).drop
        ((bGet q h).mUsedBegin.2 + 1)).take
        ((bGet q h).mCurrent.2 - ((bGet q h).mUsedBegin.2 + 1)) = _
      rw [drop_set_eq _ (by omega),
        show (bGet q h).mCurrent.2 - ((bGet q h).mUsedBegin.2 + 1) =
          (bGet q h).mCurrent.2 - (bGet q h).mUsedBegin.2 - 1 from by omega]
    rw [hslY, hcgr]
    exact hl1

theorem QRep_pop_reset {q : CQueue α} {h : Nat} {F P R : List Nat} {v : α}
    {t : List α} (hC : QRepC q h [] F P R (v :: t)) (ht : t = []) :
    QRep (⟨q.blocks.set h
        { cells := ((bGet q h).cells.set ((bGet q h).mUsedBegin.2) none),
          mBegin := (bGet q h).mBegin, mUsedBegin := (bGet q h).mBegin,
          mCurrent := (bGet q h).mBegin, mEnd := (bGet q h).mEnd,
          mNextQueue := (bGet q h).mNextQueue },
      q.mQueue, q.mQueueCurrent, q.mQueueEnd⟩ : CQueue α) t := by
  subst ht
  have hb : h < q.blocks.length := hC.hbound h (by simp)
  have hw := hC.hhead
  generalize hZ : ((⟨(bGet q h).cells.set ((bGet q h).mUsedBegin.2) none,
      (bGet q h).mBegin, (bGet q h).mBegin, (bGet q h).mBegin,
      (bGet q h).mEnd, (bGet q h).mNextQueue⟩ : MiniQueue α)) = Z
  have hZc : Z.cells = (bGet q h).cells.set ((bGet q h).mUsedBegin.2) none := by
    rw [← hZ]
  have hZb : Z.mBegin = (bGet q h).mBegin := by rw [← hZ]
  have hZu : Z.mUsedBegin = (bGet q h).mBegin := by rw [← hZ]
  have hZcur : Z.mCurrent = (bGet q h).mBegin := by rw [← hZ]
  have hZe : Z.mEnd = (bGet q h).mEnd := by rw [← hZ]
  have hZn : Z.mNextQueue = (bGet q h).mNextQueue := by rw [← hZ]
  have hbg : bGet (⟨q.blocks.set h Z, q.mQueue, q.mQueueCurrent, q.mQueueEnd⟩ :
      CQueue α) h = Z := by
    apply bGet_eq
    show (q.blocks.set h Z).get? h = some Z
    rw [List.get?_set_eq_of_lt _ hb]
  have hnxh : (bGet q h).mNextQueue = none := by
    have hcc : nextOf q h = some none := hC.hchain
    simp only [nextOf] at hcc
    rw [get?_bGet hb] at hcc
    simp only [Option.map_some'] at hcc
    injection hcc with hcc
  right
  refine ⟨h, [], [], [], [], hC.hq, rfl, ?_, by simp, ?_, hC.hendp, ?_, by simp,
    Or.inl rfl, by simp, ?_, ?_⟩
  · show nextOf (⟨q.blocks.set h Z, q.mQueue, q.mQueueCurrent, q.mQueueEnd⟩ :
      CQueue α) h = some none
    show ((q.blocks.set h Z).get? h).map _ = some none
    rw [List.get?_set_eq_of_lt _ hb]
    simp only [Option.map_some']
    rw [hZn, hnxh]
  · intro i hi
    have hi0 : i = h := by simpa using hi
    subst hi0
    show i < (q.blocks.set i Z).length
    rw [List.length_set]
    exact hb
  · rw [hbg]
    refine ⟨?_, ?_, ?_, ?_, ?_, ?_, ?_, ?_⟩
    · rw [hZb, hw.hbegin]
    · rw [hZe, hZc, List.length_set, hw.hend]
    · rw [hZu, hw.hbegin]
    · rw [hZcur, hw.hbegin]
    · rw [hZu, hZcur]
    · rw [hZcur, hZc, List.length_set, hw.hbegin]
      exact Nat.zero_le _
    · rw [hZc, List.length_set]
      exact hw.hcap
    · intro i h1 h2
      rw [hZu, hw.hbegin] at h1
      rw [hZcur, hw.hbegin] at h2
      have h1' : (0 : Nat) ≤ i := h1
      have h2' : i < (0 : Nat) := h2
      exact absurd h2' (by omega)
  · intro hx
    exact absurd rfl hx
  · rw [liveOfChain_cons, hbg]
    have hslZ : liveSlice Z = [] := by
      simp only [liveSlice]
      rw [hZcur, hZu]
      simp
    rw [hslZ]
    rfl

theorem QRep_pop_relink {q : CQueue α} {h r0 : Nat} {rest' F P R : List Nat}
    {v : α} {t : List α} (hC : QRepC q h (r0 :: rest') F P R (v :: t))
    (hl1 : liveOfChain q (r0 :: rest') = t.map some) :
    QRep (⟨((q.blocks.set h
        { cells := ((bGet q h).cells.set ((bGet q h).mUsedBegin.2) none),
          mBegin := (bGet q h).mBegin, mUsedBegin := (bGet q h).mBegin,
          mCurrent := (bGet q h).mBegin, mEnd := (bGet q h).mEnd,
          mNextQueue := (bGet q h).mNextQueue }).set
        ((r0 :: rest').getLast (List.cons_ne_nil r0 rest'))
        { bGet q ((r0 :: rest').getLast (List.cons_ne_nil r0 rest')) with
          mNextQueue := some h }).set h
        { cells := ((bGet q h).cells.set ((bGet q h).mUsedBegin.2) none),
          mBegin := (bGet q h).mBegin, mUsedBegin := (bGet q h).mBegin,
          mCurrent := (bGet q h).mBegin, mEnd := (bGet q h).mEnd,
          mNextQueue := none },
      (bGet q h).mNextQueue, q.mQueueCurrent, some h⟩ : CQueue α) t := by
  have hb : h < q.blocks.length := hC.hbound h (by simp)
  have hw := hC.hhead
  have hnotin : h ∉ r0 :: rest' := (List.nodup_cons.mp hC.hnodup).1
  have hrne : (r0 :: rest') ≠ [] := List.cons_ne_nil r0 rest'
  generalize hE : (r0 :: rest').getLast (List.cons_ne_nil r0 rest') = e
  have hmeme : e ∈ r0 :: rest' := hE ▸ List.getLast_mem hrne
  obtain ⟨init, hdecomp⟩ : ∃ init, init ++ [e] = r0 :: rest' :=
    ⟨(r0 :: rest').dropLast, by rw [← hE]; exact List.dropLast_append_getLast hrne⟩
  have hebound : e < q.blocks.length := hC.hbound e (by simp [hmeme])
  have hhe : e ≠ h := fun hx => hnotin (hx ▸ hmeme)
  have hnd2 : (r0 :: rest').Nodup := (List.nodup_cons.mp hC.hnodup).2
  have henotinit : e ∉ init := by
    have hthis := hnd2
    rw [← hdecomp, show init ++ [e] = init ++ e :: [] from rfl, List.nodup_middle,
      List.append_nil, List.nodup_cons] at hthis
    exact hthis.1
  generalize hB1 : ((⟨(bGet q h).cells.set ((bGet q h).mUsedBegin.2) none,
      (bGet q h).mBegin, (bGet q h).mBegin, (bGet q h).mBegin,
      (bGet q h).mEnd, (bGet q h).mNextQueue⟩ : MiniQueue α)) = BR
  generalize hB2 : ((⟨(bGet q h).cells.set ((bGet q h).mUsedBegin.2) none,
      (bGet q h).mBegin, (bGet q h).mBegin, (bGet q h).mBegin,
      (bGet q h).mEnd, none⟩ : MiniQueue α)) = BN
  generalize hBC : ({ bGet q e with mNextQueue := some h } : MiniQueue α) = BC
  have hBNc : BN.cells = (bGet q h).cells.set ((bGet q h).mUsedBegin.2) none := by
    rw [← hB2]
  have hBNb : BN.mBegin = (bGet q h).mBegin := by rw [← hB2]
  have hBNu : BN.mUsedBegin = (bGet q h).mBegin := by rw [← hB2]
  have hBNcur : BN.mCurrent = (bGet q h).mBegin := by rw [← hB2]
  have hBNe : BN.mEnd = (bGet q h).mEnd := by rw [← hB2]
  have hBNn : BN.mNextQueue = none := by rw [← hB2]
  have hBCc : BC.cells = (bGet q e).cells := by rw [← hBC]
  have hBCb : BC.mBegin = (bGet q e).mBegin := by rw [← hBC]
  have hBCu : BC.mUsedBegin = (bGet q e).mUsedBegin := by rw [← hBC]
  have hBCcur : BC.mCurrent = (bGet q e).mCurrent := by rw [← hBC]
  have hBCe : BC.mEnd = (bGet q e).mEnd := by rw [← hBC]
  have hBCn : BC.mNextQueue = some h := by rw [← hBC]
  set Q4 : CQueue α := ⟨((q.blocks.set h BR).set e BC).set h BN,
    (bGet q h).mNextQueue, q.mQueueCurrent, some h⟩ with hQ4
  have hbgh : bGet Q4 h = BN := by
    apply bGet_eq
    rw [hQ4]
    dsimp only
    rw [List.get?_set_eq_of_lt _ (by simp only [List.length_set]; exact hb)]
  have hbge : bGet Q4 e = BC := by
    apply bGet_eq
    rw [hQ4]
    dsimp only
    rw [List.get?_set_ne _ _ (fun hx => hhe hx.symm),
      List.get?_set_eq_of_lt _ (by rw [List.length_set]; exact hebound)]
  have hbgo : ∀ i, i ∈ r0 :: rest' → i ≠ e → bGet Q4 i = bGet q i := by
    intro i hi hie
    have hih : i ≠ h := fun hx => hnotin (hx ▸ hi)
    apply bGet_eq
    rw [hQ4]
    dsimp only
    rw [List.get?_set_ne _ _ (fun hx => hih hx.symm),
      List.get?_set_ne _ _ (fun hx => hie hx.symm),
      List.get?_set_ne _ _ (fun hx => hih hx.symm)]
    exact get?_bGet (hC.hbound i (by simp [hi]))
  have htrans : ∀ i, i ∈ r0 :: rest' →
      (bGet Q4 i).cells = (bGet q i).cells ∧ (bGet Q4 i).mBegin = (bGet q i).mBegin ∧
      (bGet Q4 i).mUsedBegin = (bGet q i).mUsedBegin ∧
      (bGet Q4 i).mCurrent = (bGet q i).mCurrent ∧
      (bGet Q4 i).mEnd = (bGet q i).mEnd := by
    intro i hi
    by_cases hie : i = e
    · subst hie
      rw [hbge]
      exact ⟨hBCc, hBCb, hBCu, hBCcur, hBCe⟩
    · rw [hbgo i hi hie]
      exact ⟨rfl, rfl, rfl, rfl, rfl⟩
  have hnxh_r0 : (bGet q h).mNextQueue = some r0 := by
    have hcc : nextOf q h = some (some r0) :=
      (show nextOf q h = some (some r0) ∧ ChainSeg q (r0 :: rest') none
        from hC.hchain).1
    simp only [nextOf] at hcc
    rw [get?_bGet hb] at hcc
    simp only [Option.map_some'] at hcc
    injection hcc with hcc
  have hchq : ChainSeg q (r0 :: rest') none :=
    (show nextOf q h = some (some r0) ∧ ChainSeg q (r0 :: rest') none
      from hC.hchain).2
  have hsplit := ChainSeg_split_last (l := init) (e := e)
    (by rw [hdecomp]; exact hchq)
  have hnx_new : ∀ i, i ∈ init → nextOf Q4 i = nextOf q i := by
    intro i hi
    have hi2 : i ∈ r0 :: rest' := by rw [← hdecomp]; exact List.mem_append_left _ hi
    have hih : i ≠ h := fun hx => hnotin (hx ▸ hi2)
    have hie : i ≠ e := fun hx => henotinit (hx ▸ hi)
    rw [hQ4]
    show ((((q.blocks.set h BR).set e BC).set h BN).get? i).map _ =
      (q.blocks.get? i).map _
    rw [List.get?_set_ne _ _ (fun hx => hih hx.symm),
      List.get?_set_ne _ _ (fun hx => hie hx.symm),
      List.get?_set_ne _ _ (fun hx => hih hx.symm)]
  have hnxe : nextOf Q4 e = some (some h) := by
    show (Q4.blocks.get? e).map _ = some (some h)
    rw [show Q4.blocks.get? e = some BC from by
      rw [hQ4]
      dsimp only
      rw [List.get?_set_ne _ _ (fun hx => hhe hx.symm),
        List.get?_set_eq_of_lt _ (by rw [List.length_set]; exact hebound)]]
    simp only [Option.map_some']
    rw [hBCn]
  have hnxh4 : nextOf Q4 h = some none := by
    show (Q4.blocks.get? h).map _ = some none
    rw [show Q4.blocks.get? h = some BN from by
      rw [hQ4]
      dsimp only
      rw [List.get?_set_eq_of_lt _ (by simp only [List.length_set]; exact hb)]]
    simp only [Option.map_some']
    rw [hBNn]
  have hchain4 : ChainSeg Q4 ((r0 :: rest') ++ [h]) none := by
    apply ChainSeg_append_of (j := h) (t := [])
    · rw [← hdecomp]
      apply ChainSeg_append_of (j := e) (t := [])
      · exact ChainSeg_congr hnx_new hsplit.1
      · exact hnxe
    · exact hnxh4
  have hrecyBN : recyB h (bGet Q4 h) := by
    rw [hbgh]
    refine ⟨⟨?_, ?_, ?_, ?_, ?_, ?_, ?_, ?_⟩, ?_, ?_⟩
    · rw [hBNb, hw.hbegin]
    · rw [hBNe, hBNc, List.length_set, hw.hend]
    · rw [hBNu, hw.hbegin]
    · rw [hBNcur, hw.hbegin]
    · rw [hBNu, hBNcur]
    · rw [hBNcur, hBNc, List.length_set, hw.hbegin]
      exact Nat.zero_le _
    · rw [hBNc, List.length_set]
      exact hw.hcap
    · intro i h1 h2
      rw [hBNcur, hw.hbegin] at h2
      have h2' : i < (0 : Nat) := h2
      exact absurd h2' (by omega)
    · rw [hBNu, hw.hbegin]
    · rw [hBNcur, hw.hbegin]
  have hbound4 : ∀ i, i ∈ r0 :: (rest' ++ [h]) → i < Q4.blocks.length := by
    intro i hi
    rw [hQ4]
    dsimp only
    simp only [List.length_set]
    rcases (by simpa using hi : i = r0 ∨ i ∈ rest' ∨ i = h) with h0 | h0 | h0
    · subst h0
      exact hC.hbound i (by simp)
    · exact hC.hbound i (by simp [h0])
    · subst h0
      exact hb
  have hlive4 : liveOfChain Q4 ((r0 :: rest') ++ [h]) = t.map some := by
    have hcgr : liveOfChain Q4 (r0 :: rest') = liveOfChain q (r0 :: rest') :=
      liveOfChain_congr (fun i hi => by
        obtain ⟨e1, e2, e3, e4, e5⟩ := htrans i hi
        exact liveSlice_of_fields e1 e3 e4)
    rw [liveOfChain_append, hcgr, hl1, liveOfChain_cons, recyB_liveSlice hrecyBN]
    simp [show liveOfChain Q4 ([] : List Nat) = [] from rfl]
  have hnodup4 : (r0 :: (rest' ++ [h])).Nodup := by
    rw [← List.cons_append]
    exact List.nodup_append_comm.mpr hC.hnodup
  have hendp4 : Q4.mQueueEnd = (r0 :: (rest' ++ [h])).getLast? := by
    show some h = _
    rw [← List.cons_append, List.getLast?_concat]
  right
  cases F with
  | nil =>
    rcases hC.hPp with hP0 | ⟨p, hp, hpart⟩
    · have hRR : r0 :: rest' = R := by
        have hthis := hC.hdec
        rw [hP0] at hthis
        simpa using hthis
      refine ⟨r0, rest' ++ [h], [], [], rest' ++ [h], hnxh_r0, by simp, hchain4,
        hnodup4, hbound4, hendp4, ?_, by simp, Or.inl rfl, ?_, ?_, hlive4⟩
      · have hr0R : r0 ∈ R := by rw [← hRR]; simp
        obtain ⟨e1, e2, e3, e4, e5⟩ := htrans r0 (by simp)
        exact WBlk_of_fields e1 e2 e3 e4 e5 (hC.hR r0 hr0R).1
      · intro r hr
        rcases List.mem_append.mp hr with hr1 | hr2
        · have hrR : r ∈ R := by rw [← hRR]; simp [hr1]
          obtain ⟨e1, e2, e3, e4, e5⟩ := htrans r (by simp [hr1])
          exact recyB_of_fields e1 e2 e3 e4 e5 (hC.hR r hrR)
        · have hr3 : r = h := by simpa using hr2
          subst hr3
          exact hrecyBN
      · intro hx
        exact absurd rfl hx
    · have hpR : r0 :: rest' = p :: R := by
        have hthis := hC.hdec
        rw [hp] at hthis
        simpa using hthis
      injection hpR with hpr0 hprest
      refine ⟨r0, rest' ++ [h], [], [], rest' ++ [h], hnxh_r0, by simp, hchain4,
        hnodup4, hbound4, hendp4, ?_, by simp, Or.inl rfl, ?_, ?_, hlive4⟩
      · subst hpr0
        obtain ⟨e1, e2, e3, e4, e5⟩ := htrans r0 (by simp)
        exact WBlk_of_fields e1 e2 e3 e4 e5 hpart.1
      · intro r hr
        rcases List.mem_append.mp hr with hr1 | hr2
        · have hrR : r ∈ R := by rw [← hprest]; exact hr1
          obtain ⟨e1, e2, e3, e4, e5⟩ := htrans r (by simp [hr1])
          exact recyB_of_fields e1 e2 e3 e4 e5 (hC.hR r hrR)
        · have hr3 : r = h := by simpa using hr2
          subst hr3
          exact hrecyBN
      · intro hx
        exact absurd rfl hx
  | cons f0 F'' =>
    have hf0 : r0 = f0 ∧ rest' = F'' ++ P ++ R := by
      have hthis := hC.hdec
      rw [show (f0 :: F'') ++ P ++ R = f0 :: (F'' ++ P ++ R) from by simp] at hthis
      injection hthis with h1 h2
      exact ⟨h1, h2⟩
    obtain ⟨hf0a, hf0b⟩ := hf0
    subst hf0a
    refine ⟨r0, rest' ++ [h], F'', P, R ++ [h], hnxh_r0, ?_, hchain4,
      hnodup4, hbound4, hendp4, ?_, ?_, ?_, ?_, ?_, hlive4⟩
    · rw [hf0b]
      simp
    · obtain ⟨e1, e2, e3, e4, e5⟩ := htrans r0 (by simp)
      exact WBlk_of_fields e1 e2 e3 e4 e5 (hC.hF r0 (by simp)).1
    · intro f hf
      have hfmem : f ∈ rest' := by
        rw [hf0b]
        exact List.mem_append_left _ (List.mem_append_left _ hf)
      obtain ⟨e1, e2, e3, e4, e5⟩ := htrans f (by simp [hfmem])
      exact fullB_of_fields e1 e2 e3 e4 e5 (hC.hF f (List.mem_cons_of_mem _ hf))
    · rcases hC.hPp with hP0 | ⟨p, hp, hpart⟩
      · exact Or.inl hP0
      · refine Or.inr ⟨p, hp, ?_⟩
        have hpmem : p ∈ rest' := by
          rw [hf0b, hp]
          simp
        obtain ⟨e1, e2, e3, e4, e5⟩ := htrans p (by simp [hpmem])
        exact partB_of_fields e1 e2 e3 e4 e5 hpart
    · intro r hr
      rcases List.mem_append.mp hr with hr1 | hr2
      · have hrmem : r ∈ rest' := by
          rw [hf0b]
          exact List.mem_append_right _ hr1
        obtain ⟨e1, e2, e3, e4, e5⟩ := htrans r (by simp [hrmem])
        exact recyB_of_fields e1 e2 e3 e4 e5 (hC.hR r hr1)
      · have hr3 : r = h := by simpa using hr2
        subst hr3
        exact hrecyBN
    · intro _
      have hfull0 := hC.hF r0 (by simp)
      obtain ⟨e1, e2, e3, e4, e5⟩ := htrans r0 (by simp)
      constructor
      · rw [e4, e1, hfull0.2.2]
      · rw [e3, e1, hfull0.2.1]
        exact hfull0.1.hcap

theorem pop_step_cons {q : CQueue α} {v : α} {t : List α} (hQ : QRep q (v :: t)) :
    ∃ q', try_pop q = some (q', some v) ∧ QRep q' t := by
  rcases hQ with ⟨-, hveq⟩ | ⟨h, rest, F, P, R, hC⟩
  · exact absurd hveq (by simp)
  have hb : h < q.blocks.length := hC.hbound h (by simp)
  have hget := get?_bGet hb
  have hw := hC.hhead
  have hnotin : h ∉ rest := (List.nodup_cons.mp hC.hnodup).1
  have hkey : (bGet q h).mUsedBegin.2 < (bGet q h).mCurrent.2 ∧
      (bGet q h).mUsedBegin.2 < (bGet q h).cells.length := by
    by_cases hfp : F ++ P = []
    · have hrl : liveOfChain q rest = [] := by
        apply liveOfChain_eq_nil
        intro i hi
        rw [hC.hdec, hfp, List.nil_append] at hi
        exact recyB_liveSlice (hC.hR i hi)
      have hl := hC.hlive
      rw [liveOfChain_cons, hrl, List.append_nil] at hl
      have hlen := congrArg List.length hl
      simp only [liveSlice, List.length_take, List.length_drop, List.length_map,
        List.length_cons] at hlen
      have h1 := hw.hle
      have h2 := hw.hcurle
      omega
    · obtain ⟨hc1, hc2⟩ := hC.hcond hfp
      have h2 := hw.hcurle
      exact ⟨by omega, hc2⟩
  obtain ⟨c0, hc0⟩ : ∃ c0, (bGet q h).cells.get? ((bGet q h).mUsedBegin.2) = some c0 :=
    Option.isSome_iff_exists.mp (hw.hfill _ (le_refl _) hkey.1)
  have hdrop : (bGet q h).cells.drop ((bGet q h).mUsedBegin.2) =
      c0 :: (bGet q h).cells.drop ((bGet q h).mUsedBegin.2 + 1) := by
    rw [List.drop_eq_getElem_cons hkey.2]
    congr 1
    have hge := List.getElem?_eq_getElem hkey.2
    rw [← List.get?_eq_getElem?, hc0] at hge
    injection hge with hge
    exact hge.symm
  have hslice : liveSlice (bGet q h) = c0 ::
      ((bGet q h).cells.drop ((bGet q h).mUsedBegin.2 + 1)).take
        ((bGet q h).mCurrent.2 - (bGet q h).mUsedBegin.2 - 1) := by
    simp only [liveSlice]
    rw [hdrop, show (bGet q h).mCurrent.2 - (bGet q h).mUsedBegin.2 =
      ((bGet q h).mCurrent.2 - (bGet q h).mUsedBegin.2 - 1) + 1 from by omega,
      List.take_succ_cons]
    congr 2
  have hl := hC.hlive
  rw [liveOfChain_cons, hslice, List.map_cons, List.cons_append] at hl
  injection hl with hl0 hl1
  subst hl0
  have hguard : ¬((bGet q h).mCurrent = (bGet q h).mUsedBegin) := by
    intro hx
    have h2 := congrArg Prod.snd hx
    have h2' : (bGet q h).mCurrent.2 = (bGet q h).mUsedBegin.2 := h2
    omega
  have hread : readPtr q ((bGet q h).mUsedBegin) = some (some v) := by
    simp only [readPtr]
    rw [hw.husedfst, hget]
    exact hc0
  have hwp := writePtr_some_eq (p := (bGet q h).mUsedBegin) (x := none)
    (show q.blocks.get? ((bGet q h).mUsedBegin.1) = some (bGet q h) from by
      rw [hw.husedfst]; exact hget) hkey.2
  rw [hw.husedfst] at hwp
  unfold try_pop
  rw [hC.hq]
  dsimp only
  rw [hget]
  dsimp only
  rw [if_neg hguard]
  unfold Internal_Pop
  rw [hread]
  dsimp only
  rw [hwp]
  dsimp only
  rw [List.get?_set_eq_of_lt _ hb]
  dsimp only
  rw [List.get?_set_eq_of_lt _ (by rw [List.length_set]; exact hb)]
  dsimp only
  by_cases hdr : ((bGet q h).mUsedBegin.1, (bGet q h).mUsedBegin.2 + 1) =
      (bGet q h).mEnd
  · -- the pop drains the head block up to its capacity end
    rw [if_pos hdr]
    have hcap2 : (bGet q h).mUsedBegin.2 + 1 = (bGet q h).cells.length := by
      have h2 := congrArg Prod.snd hdr
      rw [hw.hend] at h2
      exact h2
    have htail0 : ((bGet q h).cells.drop ((bGet q h).mUsedBegin.2 + 1)).take
        ((bGet q h).mCurrent.2 - (bGet q h).mUsedBegin.2 - 1) = [] := by
      have h1 := hw.hcurle
      rw [show (bGet q h).mCurrent.2 - (bGet q h).mUsedBegin.2 - 1 = 0 from by omega]
      rfl
    rw [htail0, List.nil_append] at hl1
    cases rest with
    | nil =>
      have hqeq : q.mQueue = q.mQueueEnd := by
        rw [hC.hq, hC.hendp]
        rfl
      rw [if_neg (show ¬(q.mQueue ≠ q.mQueueEnd) from fun hx => hx hqeq)]
      rw [List.set_set, List.set_set]
      refine ⟨_, rfl, ?_⟩
      have ht : t = [] := by
        have h0 : ([] : List (Option α)) = t.map some := hl1
        cases t with
        | nil => rfl
        | cons a b => exact absurd h0 (by simp)
      exact QRep_pop_reset hC ht
    | cons r0 rest' =>
      have hmemL : (r0 :: rest').getLast (List.cons_ne_nil r0 rest') ∈ r0 :: rest' :=
        List.getLast_mem _
      have hqe : q.mQueueEnd =
          some ((r0 :: rest').getLast (List.cons_ne_nil r0 rest')) := by
        rw [hC.hendp, List.getLast?_cons_cons, List.getLast?_eq_getLast]
      have hheL : (r0 :: rest').getLast (List.cons_ne_nil r0 rest') ≠ h :=
        fun hx => hnotin (by rw [← hx]; exact hmemL)
      have heboundL : (r0 :: rest').getLast (List.cons_ne_nil r0 rest') <
          q.blocks.length := hC.hbound _ (by simp [hmemL])
      have hne2 : q.mQueue ≠ q.mQueueEnd := by
        rw [hC.hq, hqe]
        intro hx
        injection hx with hx
        exact hnotin (by rw [hx]; exact hmemL)
      rw [if_pos hne2, hqe]
      dsimp only
      rw [List.get?_set_ne _ _ (fun hx => hheL hx.symm),
        List.get?_set_ne _ _ (fun hx => hheL hx.symm),
        List.get?_set_ne _ _ (fun hx => hheL hx.symm),
        get?_bGet heboundL]
      dsimp only
      rw [List.get?_set_ne _ _ hheL,
        List.get?_set_eq_of_lt _ (by simp only [List.length_set]; exact hb)]
      dsimp only
      rw [List.set_set, List.set_set]
      refine ⟨_, rfl, ?_⟩
      exact QRep_pop_relink hC hl1
  · -- the head block still has unconsumed capacity
    rw [if_neg hdr]
    rw [List.set_set]
    refine ⟨_, rfl, ?_⟩
    have hnd2 : (bGet q h).mUsedBegin.2 + 1 ≠ (bGet q h).cells.length := by
      intro hx
      exact hdr (by rw [hw.hend]; exact Prod.ext hw.husedfst hx)
    exact QRep_pop_advance hC hkey hnd2 hl1

theorem popSeq_QRep :
    ∀ (vs : List α) (q : CQueue α), QRep q vs →
      ∃ q', popSeq q vs.length = some (q', vs.map some) ∧ emptyQ q' = some true := by
  intro vs
  induction vs with
  | nil =>
    intro q hQ
    exact ⟨q, by simp [popSeq], (pop_step_nil hQ).2⟩
  | cons v t ih =>
    intro q hQ
    obtain ⟨q₁, h₁, hQ₁⟩ := pop_step_cons hQ
    obtain ⟨q', h', he⟩ := ih q₁ hQ₁
    refine ⟨q', ?_, he⟩
    show popSeq q (t.length + 1) = _
    simp only [popSeq]
    rw [h₁]
    dsimp only
    rw [h']
    dsimp only
    rw [List.map_cons]

end poplemmas

/-- C2: FIFO order — pushing `v1, …, vn` (in that order, with no
interleaved pops) onto a default-constructed queue succeeds, and `n`
successive `try_pop` calls then all succeed and deliver `v1, …, vn` in
exactly that order, leaving the queue empty.  The length bound keeps the
element count below the 64-bit size limit, within which the unbounded
arithmetic of the model is faithful to the source's `size_t`. -/
theorem c2_fifo {α : Type} (szT : Nat) (vs : List α)
    (hlen : vs.length ≤ SIZE_LIMIT) :
    ∃ q q', pushSeqQ szT (pristineQ α) vs = some q ∧
      popSeq q vs.length = some (q', vs.map some) ∧
      emptyQ q' = some true := by
  cases vs with
  | nil => exact ⟨pristineQ α, pristineQ α, by simp [pushSeqQ], by simp [popSeq], rfl⟩
  | cons a ts =>
    obtain ⟨q, hq, hP⟩ := @pushAll_PInv α szT (a :: ts) (show a :: ts ≠ [] by simp)
    obtain ⟨q', hq', he⟩ := popSeq_QRep (a :: ts) q (PInv_to_QRep hP)
    exact ⟨q, q', hq, hq', he⟩

/-- C2 witness: three values pushed and popped at a concrete input. -/
theorem c2_witness :
    ∃ q q', pushSeqQ 32 (pristineQ Nat) [4, 5, 6] = some q ∧
      popSeq q 3 = some (q', [some 4, some 5, some 6]) ∧
      emptyQ q' = some true :=
  c2_fifo 32 [4, 5, 6] (by decide)

end cqueue

/-! ## The combinable container (src/header/combinable.hpp)

`combinable<Type, ThreadCount>` keeps one `Storage` node per thread in an
open-hash table `mBuckets` of `Min_size = Bucket_size_eval<ThreadCount>`
singly linked chains.  The model makes the heap explicit: `arena` lists
every node ever allocated (a pointer is an index into it) and `alive`
records which of them are currently allocated, so that dereferencing or
deallocating a freed node — undefined behaviour in the source — is the
`none` outcome.  A thread id is a `Nat` and `std::hash` of it is the
identity; the source only ever reduces the hash modulo the bucket count. -/

namespace comb

/-- `combinable::Storage` (combinable.hpp lines 20–27): the stored thread
id, the value, and the chain pointer (an arena index, `none` = null). -/
structure Storage (α : Type) where
  mThreadID : Nat
  mValue : α
  nextStorage : Option Nat
  deriving Repr, DecidableEq

/-- `Bucket_size_eval<Count>::value = 8 > Count / 8 ? 8 : Count / 8`
(combinable.hpp line 34); `Min_size = Bucket_size_eval<ThreadCount>`. -/
def Bucket_size_eval (tc : Nat) : Nat :=
  if 8 > tc / 8 then 8 else tc / 8

/-- The state of one `combinable` object: the explicit heap (`arena`,
`alive`) and the bucket array of head pointers. -/
structure Comb (α : Type) where
  arena : List (Storage α)
  alive : List Bool
  mBuckets : List (Option Nat)
  deriving Repr, DecidableEq

/-- The constructor `combinable() { mBuckets.fill(nullptr); }` for
`ThreadCount = tc`: no node allocated, every bucket null. -/
def pristineC (α : Type) (tc : Nat) : Comb α :=
  ⟨[], [], List.replicate (Bucket_size_eval tc) none⟩

/-- The scan loop of `Get_local_storage_unit` (combinable.hpp lines
147–151): `while (current_unit) { if (current_unit->mThreadID == thread_id)
return …; }`.  The body never advances `current_unit`, exactly as in the
source, so the fuel only bounds how many iterations the model follows;
running out of fuel (`none`) means the loop has not terminated by then.
Reading a node that is out of the arena or freed is undefined behaviour,
also `none`.  `some r` is the loop exiting with `current_unit = r`. -/
def scan_bucket (c : Comb α) (tid : Nat) : Nat → Option Nat → Option (Option Nat)
  | _, none => some none
  | 0, some _ => none
  | fuel + 1, some i =>
    match c.arena.get? i, c.alive.get? i with
    | some st, some true =>
      if st.mThreadID == tid then some (some i)
      else scan_bucket c tid fuel (some i)
    | _, _ => none

/-- `Get_local_storage_unit(thread_id)` (combinable.hpp lines 141–154):
hash the id modulo the bucket count, scan that bucket's chain; the result
pairs the found pointer (null on miss) with the bucket index. -/
def Get_local_storage_unit (c : Comb α) (tid fuel : Nat) :
    Option (Option Nat × Nat) :=
  let bucket_index := tid % c.mBuckets.length
  match c.mBuckets.get? bucket_index with
  | none => none
  | some head =>
    (scan_bucket c tid fuel head).map (fun r => (r, bucket_index))

/-- `Add_local_storage_unit(thread_id, bucket_index)` (combinable.hpp lines
156–167): allocate a node holding `(thread_id, value_type {})` — `d` is the
default-constructed value — link it before the old bucket head and store it
as the new head; returns the new node. -/
def Add_local_storage_unit (c : Comb α) (d : α) (tid bucket_index : Nat) :
    Option (Comb α × Nat) :=
  match c.mBuckets.get? bucket_index with
  | none => none
  | some bucket =>
    let id := c.arena.length
    some (⟨c.arena ++ [⟨tid, d, bucket⟩], c.alive ++ [true],
      c.mBuckets.set bucket_index (some id)⟩, id)

/-- `local(bool& exists)` (combinable.hpp lines 108–120): look the calling
thread up; on a miss insert a fresh entry and report `exists = false`,
otherwise report `exists = true`.  The returned index is the node whose
`mValue` the source returns a reference to. -/
def local_bool (c : Comb α) (d : α) (tid fuel : Nat) :
    Option (Comb α × Nat × Bool) :=
  match Get_local_storage_unit c tid fuel with
  | none => none
  | some (some i, _) => some (c, i, true)
  | some (none, bucket_index) =>
    match Add_local_storage_unit c d tid bucket_index with
    | none => none
    | some (c', i) => some (c', i, false)

/-- `Delete_storage_units_in_bucket_ptr(Storage* bucket)` (combinable.hpp
lines 129–139): walk the chain from `bucket`, reading each node's
`nextStorage` and then deallocating it.  The parameter is taken BY VALUE in
the source, so the `bucket = nullptr;` line only clears the local copy and
the caller's bucket entry is untouched — the model therefore returns only
the updated `alive` map.  Deallocating a node that is already freed or out
of the arena is undefined behaviour (`none`). -/
def Delete_storage_units_in_bucket_ptr (c : Comb α) :
    List Bool → Nat → Option Nat → Option (List Bool)
  | al, _, none => some al
  | _, 0, some _ => none
  | al, fuel + 1, some i =>
    match c.arena.get? i, al.get? i with
    | some st, some true =>
      Delete_storage_units_in_bucket_ptr c (al.set i false) fuel st.nextStorage
    | _, _ => none

/-- `Finalise()` (combinable.hpp lines 123–127): per bucket, deallocate its
chain.  `mBuckets` keeps its pointers because the callee nulls only a
by-value copy. -/
def Finalise (c : Comb α) (fuel : Nat) : Option (Comb α) :=
  match c.mBuckets.foldlM
      (fun al b => Delete_storage_units_in_bucket_ptr c al fuel b) c.alive with
  | none => none
  | some al => some ⟨c.arena, al, c.mBuckets⟩

/-- `clear() { Finalise(); }` (combinable.hpp line 48). -/
def clear (c : Comb α) (fuel : Nat) : Option (Comb α) :=
  Finalise c fuel

/-- The state after thread 0 inserts its entry into a default-constructed
`combinable<Nat, 8>`: one live node in the arena, bucket 0 points at it. -/
def c3_c1 : Comb Nat :=
  ⟨[⟨0, 0, none⟩], [true], (List.replicate 8 (none : Option Nat)).set 0 (some 0)⟩

/-- `c3_c1` after `clear()`: the node is deallocated but bucket 0 still
holds the dangling pointer to it. -/
def c3_c2 : Comb Nat :=
  ⟨[⟨0, 0, none⟩], [false], (List.replicate 8 (none : Option Nat)).set 0 (some 0)⟩

/-- The state after one thread with id 0 inserts its entry: bucket 0 holds
a one-node chain whose stored thread id is 0. -/
def c4_c1 : Comb Nat :=
  ⟨[⟨0, 5, none⟩], [true], (List.replicate 8 (none : Option Nat)).set 0 (some 0)⟩

/-- A two-node chain in bucket 0: the head node belongs to thread 8, the
second node — reachable from it through `nextStorage` — to thread 0.  (Such
a chain arises in the source when two threads race their first `local()`
on the same bucket.) -/
def c4_chain : Comb Nat :=
  ⟨[⟨8, 7, some 1⟩, ⟨0, 5, none⟩], [true, true],
    (List.replicate 8 (none : Option Nat)).set 0 (some 0)⟩

end comb

namespace comb

/-- C3: clear freshness fails — `Delete_storage_units_in_bucket_ptr` takes
the bucket head BY VALUE, so `clear()` deallocates every node but leaves
`mBuckets` holding the now-dangling pointers.  Concretely, in a
`combinable<Nat, 8>`: thread 0's first `local(bool&)` inserts a fresh entry
(state `c3_c1`); `clear()` then frees that node yet bucket 0 still points
at it (state `c3_c2`, dangling: the pointer is kept while the node is
freed); the next `local(bool&)` of thread 0 dereferences the freed node —
undefined behaviour (`none`) however long the scan is allowed to run —
instead of starting fresh as the claim asserts. -/
theorem c3_clear_dangling :
    local_bool (pristineC Nat 8) 0 0 1 = some (c3_c1, 0, false) ∧
    clear c3_c1 8 = some c3_c2 ∧
    c3_c2.mBuckets.get? 0 = some (some 0) ∧
    c3_c2.alive.get? 0 = some false ∧
    (∀ fuel, local_bool c3_c2 0 0 fuel = none) := by
  refine ⟨rfl, rfl, rfl, rfl, ?_⟩
  intro fuel
  cases fuel with
  | zero => rfl
  | succ n => rfl

/-- C4: the bucket scan of `Get_local_storage_unit` never advances its
cursor, so termination and completeness both fail.  First part: from a
default-constructed `combinable<Nat, 8>`, thread 5 inserts its entry
(state `c4_c1`, bucket 0); a lookup by thread 8 — which hashes to the same
bucket but does not match the head — runs out of any amount of fuel
(`none` for every fuel): the loop never terminates.  Second part: in the
two-node chain `c4_chain` the entry for thread 0 exists at chain position
1, yet thread 0's lookup also exhausts every fuel instead of returning
that entry: a match anywhere past the head is never found. -/
theorem c4_scan_nonterminating :
    local_bool (pristineC Nat 8) 5 0 1 = some (c4_c1, 0, false) ∧
    (∀ fuel, Get_local_storage_unit c4_c1 8 fuel = none) ∧
    c4_chain.mBuckets.get? 0 = some (some 0) ∧
    c4_chain.arena.get? 0 = some ⟨8, 7, some 1⟩ ∧
    c4_chain.arena.get? 1 = some ⟨0, 5, none⟩ ∧
    (∀ fuel, Get_local_storage_unit c4_chain 0 fuel = none) := by
  refine ⟨rfl, ?_, rfl, rfl, rfl, ?_⟩
  · have hscan : ∀ fuel, scan_bucket c4_c1 8 fuel (some 0) = none := by
      intro fuel
      induction fuel with
      | zero => rfl
      | succ n ih => exact ih
    intro fuel
    have hG : Get_local_storage_unit c4_c1 8 fuel
        = (scan_bucket c4_c1 8 fuel (some 0)).map (fun r => (r, 0)) := rfl
    rw [hG, hscan fuel]
    rfl
  · have hscan : ∀ fuel, scan_bucket c4_chain 0 fuel (some 0) = none := by
      intro fuel
      induction fuel with
      | zero => rfl
      | succ n ih => exact ih
    intro fuel
    have hG : Get_local_storage_unit c4_chain 0 fuel
        = (scan_bucket c4_chain 0 fuel (some 0)).map (fun r => (r, 0)) := rfl
    rw [hG, hscan fuel]
    rfl

end comb
